import Mathlib

/-!
Verification of the detect/transform/diff/serialize pipeline of `src/main.py`
(a JSON/XML file-diff tool).  The program text is shallowly embedded:

* JSON values are the inductive `Json` (numbers are modelled as integers;
  float literals, `NaN` and `Infinity` are outside the model and noted where
  relevant).
* XML element trees are the inductive `Xml`, mirroring
  `xml.etree.ElementTree.Element` (tag, attributes, text, children, tail).
* Text is `List Char` (`Str`); the uploaded file is decoded UTF-8 text.
* `json.dumps(v, indent=2)` is `jsonDumps2`, `json.loads` is `jsonLoads`,
  `xml.etree.ElementTree.fromstring` is `xmlFromstring`,
  `minidom.parseString(ET.tostring(e)).toprettyxml(indent="  ")` is
  `prettify_xml`, and `difflib.Differ().compare` is `Difflib.differCompare`.
* Fallible Python code (raising `TypeError` / parse errors) returns
  `Except`/`Option`.
* All recursive definitions on the executable path are structural (fuel
  where needed) so concrete runs reduce in the kernel.
-/

namespace FileDiff

/-- Text is a list of characters. -/
abbrev Str := List Char

/-- Shorthand turning a string literal into the `List Char` representation. -/
def S (s : String) : Str := s.data

/-- Model of Python's `str.startswith` on our text representation. -/
def startsWithL : Str → Str → Bool
  | _, [] => true
  | [], _ :: _ => false
  | c :: cs, p :: ps => c == p && startsWithL cs ps

/-- Whitespace stripped by Python's `str.strip()` (ASCII subset; the source
only ever strips ASCII whitespace in the scenarios modelled here). -/
def pyWs (c : Char) : Bool :=
  c == ' ' || c == '\t' || c == '\n' || c == '\r' || c == '\x0b' || c == '\x0c'

/-- Model of Python's `str.strip()`. -/
def pyStrip (s : Str) : Str :=
  ((s.dropWhile pyWs).reverse.dropWhile pyWs).reverse

/-- Model of Python's `str.split("\n")`: splitting on every newline; the
result is always non-empty. -/
def splitNl : Str → List Str
  | [] => [[]]
  | c :: r =>
    if c == '\n' then [] :: splitNl r
    else
      match splitNl r with
      | h :: t => (c :: h) :: t
      | [] => [[c]]

/-- The decimal digit character for `d < 10`. -/
def digitChar (d : Nat) : Char := Char.ofNat (48 + d)

/-- Fuel-driven most-significant-first decimal digits (the fuel `n+1` always
suffices since the argument shrinks by a factor of ten each step). -/
def natToCharsAux : Nat → Nat → Str → Str
  | 0, _, acc => acc
  | fuel+1, n, acc =>
    if n < 10 then digitChar n :: acc
    else natToCharsAux fuel (n / 10) (digitChar (n % 10) :: acc)

/-- Decimal representation of a natural number, as printed by Python. -/
def natToChars (n : Nat) : Str := natToCharsAux (n + 1) n []

/-- Python's `repr` of an integer (what `json.dumps` emits for ints). -/
def intRepr : Int → Str
  | .ofNat n => natToChars n
  | .negSucc m => '-' :: natToChars (m + 1)

/-- Lower-case hexadecimal digit character for `d < 16`. -/
def hexDigitChar (d : Nat) : Char :=
  Char.ofNat (if d < 10 then 48 + d else 87 + d)

/-- Four lower-case hex digits, as produced by `json.dumps`'s `\uXXXX`. -/
def hex4 (n : Nat) : Str :=
  [hexDigitChar (n / 4096 % 16), hexDigitChar (n / 256 % 16),
   hexDigitChar (n / 16 % 16), hexDigitChar (n % 16)]

/-- Escape of one character in `json.dumps` with `ensure_ascii=True`
(the default used by the source): short escapes for the usual control
characters, backslash and quote; printable ASCII verbatim; everything else
as `\uXXXX`, using a surrogate pair above `U+FFFF`. -/
def escJChar (c : Char) : Str :=
  if c == '"' then ['\\', '"']
  else if c == '\\' then ['\\', '\\']
  else if c == '\n' then ['\\', 'n']
  else if c == '\r' then ['\\', 'r']
  else if c == '\t' then ['\\', 't']
  else if c == '\x08' then ['\\', 'b']
  else if c == '\x0c' then ['\\', 'f']
  else if 0x20 ≤ c.toNat ∧ c.toNat ≤ 0x7e then [c]
  else if c.toNat < 0x10000 then '\\' :: 'u' :: hex4 c.toNat
  else
    ('\\' :: 'u' :: hex4 (0xd800 + (c.toNat - 0x10000) / 0x400)) ++
      ('\\' :: 'u' :: hex4 (0xdc00 + (c.toNat - 0x10000) % 0x400))

/-- A JSON string literal as printed by `json.dumps`. -/
def quoteJ (s : Str) : Str :=
  '"' :: s.foldr (fun c acc => escJChar c ++ acc) ['"']

/-- Parsed JSON values.  Mappings keep key insertion order (Python dicts);
numbers are modelled as integers (see the file header). -/
inductive Json where
  | null
  | bool (b : Bool)
  | num (n : Int)
  | str (s : Str)
  | arr (items : List Json)
  | obj (fields : List (Str × Json))

/-- Indentation for nesting depth `d` under `indent=2`. -/
def indentN (d : Nat) : Str := List.replicate (2 * d) ' '

mutual
/-- Model of `json.dumps(v, indent=2)` (the serializer used by
`generate_diff` and `get_file_download_info`); `d` is the current depth. -/
def jdump : Nat → Json → Str
  | _, .null => S "null"
  | _, .bool true => S "true"
  | _, .bool false => S "false"
  | _, .num n => intRepr n
  | _, .str s => quoteJ s
  | _, .arr [] => S "[]"
  | d, .arr (x :: xs) =>
    '[' :: '\n' :: (jdumpItems (d + 1) (x :: xs) ++ '\n' :: (indentN d ++ [']']))
  | _, .obj [] => S "\x7b\x7d"
  | d, .obj (f :: fs) =>
    '\x7b' :: '\n' :: (jdumpFields (d + 1) (f :: fs) ++ '\n' :: (indentN d ++ ['\x7d']))
/-- The comma/newline-separated items of a non-empty JSON array. -/
def jdumpItems : Nat → List Json → Str
  | _, [] => []
  | d, [x] => indentN d ++ jdump d x
  | d, x :: y :: ys =>
    (indentN d ++ jdump d x) ++ ',' :: '\n' :: jdumpItems d (y :: ys)
/-- The comma/newline-separated `"key": value` members of a non-empty
JSON object. -/
def jdumpFields : Nat → List (Str × Json) → Str
  | _, [] => []
  | d, [(k, v)] => indentN d ++ (quoteJ k ++ ':' :: ' ' :: jdump d v)
  | d, (k, v) :: g :: gs =>
    (indentN d ++ (quoteJ k ++ ':' :: ' ' :: jdump d v)) ++
      ',' :: '\n' :: jdumpFields d (g :: gs)
end

/-- Model of `json.dumps(v, indent=2)`. -/
def jsonDumps2 (v : Json) : Str := jdump 0 v

/-! ### Model of `json.loads`

Strict JSON parsing as performed by Python's `json.loads`: whitespace is
space/tab/newline/carriage-return, strings support the standard escapes and
`\uXXXX` (surrogate pairs recombined; lone surrogates are unrepresentable in
the model's `Char` and rejected, where CPython would keep them), raw control
characters in strings are rejected (strict mode), objects collapse duplicate
keys to the first position with the last value (Python dict insertion).
Numbers are modelled as integers: a `.`/`e`/`E` continuation after the
integer part is rejected by the model; CPython would parse a float there,
while every other continuation is rejected by CPython as well (at the
delimiter check or the end-of-document check).  `NaN`/`Infinity` are
likewise outside the model. -/

/-- JSON whitespace (`json.decoder.WHITESPACE`). -/
def jsonWsChar (c : Char) : Bool :=
  c == ' ' || c == '\t' || c == '\n' || c == '\r'

/-- Whitespace skipping between JSON tokens. -/
def skipWs (s : Str) : Str := s.dropWhile jsonWsChar

/-- Value of one hexadecimal digit (both cases accepted, as in `json`). -/
def hexVal (c : Char) : Option Nat :=
  if '0' ≤ c ∧ c ≤ '9' then some (c.toNat - 48)
  else if 'a' ≤ c ∧ c ≤ 'f' then some (c.toNat - 87)
  else if 'A' ≤ c ∧ c ≤ 'F' then some (c.toNat - 55)
  else none

/-- Four hexadecimal digits after `\u`. -/
def hex4Val : Str → Option (Nat × Str)
  | a :: b :: c :: d :: r =>
    match hexVal a, hexVal b, hexVal c, hexVal d with
    | some x, some y, some z, some w => some (x * 4096 + y * 256 + z * 16 + w, r)
    | _, _, _, _ => none
  | _ => none

/-- Single-character escapes after a backslash (`json.decoder.BACKSLASH`). -/
def jsonEscChar (e : Char) : Option Char :=
  if e == '"' then some '"'
  else if e == '\\' then some '\\'
  else if e == '/' then some '/'
  else if e == 'b' then some '\x08'
  else if e == 'f' then some '\x0c'
  else if e == 'n' then some '\n'
  else if e == 'r' then some '\r'
  else if e == 't' then some '\t'
  else none

/-- Parse the hex escape body after `\u`, recombining surrogate pairs. -/
def parseUEsc (s : Str) : Option (Char × Str) :=
  match hex4Val s with
  | none => none
  | some (n, r) =>
    if n < 0xd800 ∨ 0xe000 ≤ n then some (Char.ofNat n, r)
    else if n < 0xdc00 then
      match r with
      | '\\' :: 'u' :: r2 =>
        match hex4Val r2 with
        | some (m, r3) =>
          if 0xdc00 ≤ m ∧ m < 0xe000 then
            some (Char.ofNat (0x10000 + (n - 0xd800) * 0x400 + (m - 0xdc00)), r3)
          else none
        | none => none
      | _ => none
    else none

/-- Parse the body of a JSON string literal after the opening quote. -/
def jstrBody : Nat → Str → Option (Str × Str)
  | 0, _ => none
  | _ + 1, [] => none
  | fuel + 1, c :: r =>
    if c == '"' then some ([], r)
    else if c == '\\' then
      match r with
      | 'u' :: r2 =>
        match parseUEsc r2 with
        | some (ch, r3) =>
          match jstrBody fuel r3 with
          | some (s, rest) => some (ch :: s, rest)
          | none => none
        | none => none
      | e :: r2 =>
        match jsonEscChar e with
        | some ch =>
          match jstrBody fuel r2 with
          | some (s, rest) => some (ch :: s, rest)
          | none => none
        | none => none
      | [] => none
    else if c.toNat < 0x20 then none
    else
      match jstrBody fuel r with
      | some (s, rest) => some (c :: s, rest)
      | none => none

/-- Decimal digit test. -/
def isDig (c : Char) : Bool := '0' ≤ c && c ≤ '9'

/-- Parse the integer part following `json`'s `NUMBER_RE`: `0` alone, or a
nonzero digit followed by any digits. -/
def parseNat : Str → Option (Nat × Str)
  | [] => none
  | c :: r =>
    if c == '0' then some (0, r)
    else if isDig c then
      let ds := r.takeWhile isDig
      some ((c :: ds).foldl (fun a d => a * 10 + (d.toNat - 48)) 0, r.dropWhile isDig)
    else none

/-- Optional sign plus integer part. -/
def parseIntJ : Str → Option (Int × Str)
  | [] => none
  | c :: r =>
    if c == '-' then
      match parseNat r with
      | some (n, rest) => some (-(n : Int), rest)
      | none => none
    else
      match parseNat (c :: r) with
      | some (n, rest) => some ((n : Int), rest)
      | none => none

/-- Parse a JSON number in the integer model; a float continuation is
rejected here (see the section comment). -/
def parseJNum (s : Str) : Option (Int × Str) :=
  match parseIntJ s with
  | some (n, rest) =>
    match rest with
    | c :: _ => if c == '.' || c == 'e' || c == 'E' then none else some (n, rest)
    | [] => some (n, rest)
  | none => none

/-- Insert into an ordered association list with Python-dict semantics:
the key keeps its first position, the value is overwritten (last wins). -/
def insKV : List (Str × Json) → Str → Json → List (Str × Json)
  | [], k, v => [(k, v)]
  | (k', v') :: rest, k, v =>
    if k' == k then (k', v) :: rest else (k', v') :: insKV rest k v

mutual
/-- Parse one JSON value at a whitespace-skipped position, dispatching on
the head as `py_scan_once` does: string, object, array, the three
literals, then a number. -/
def parseValue : Nat → Str → Option (Json × Str)
  | 0, _ => none
  | fuel + 1, s =>
    match s with
    | [] => none
    | c :: r =>
      if c == '"' then
        match jstrBody (r.length + 1) r with
        | some (str, rest) => some (.str str, rest)
        | none => none
      else if c == '\x7b' then
        match skipWs r with
        | '\x7d' :: r2 => some (.obj [], r2)
        | r1 => parseMembers fuel r1 []
      else if c == '[' then
        match skipWs r with
        | ']' :: r2 => some (.arr [], r2)
        | r1 => parseItems fuel r1 []
      else if startsWithL (c :: r) (S "null") then some (.null, (c :: r).drop 4)
      else if startsWithL (c :: r) (S "true") then some (.bool true, (c :: r).drop 4)
      else if startsWithL (c :: r) (S "false") then some (.bool false, (c :: r).drop 5)
      else
        match parseJNum (c :: r) with
        | some (n, rest) => some (.num n, rest)
        | none => none
/-- Item loop of a non-empty JSON array (position at a value start). -/
def parseItems : Nat → Str → List Json → Option (Json × Str)
  | 0, _, _ => none
  | fuel + 1, s, acc =>
    match parseValue fuel s with
    | some (v, rest) =>
      match skipWs rest with
      | ',' :: r2 => parseItems fuel (skipWs r2) (acc ++ [v])
      | ']' :: r2 => some (.arr (acc ++ [v]), r2)
      | _ => none
    | none => none
/-- Member loop of a non-empty JSON object (position at a `"key"` start). -/
def parseMembers : Nat → Str → List (Str × Json) → Option (Json × Str)
  | 0, _, _ => none
  | fuel + 1, s, acc =>
    match s with
    | '"' :: r =>
      match jstrBody (r.length + 1) r with
      | some (key, rest) =>
        match skipWs rest with
        | ':' :: r2 =>
          match parseValue fuel (skipWs r2) with
          | some (v, rest2) =>
            match skipWs rest2 with
            | ',' :: r3 => parseMembers fuel (skipWs r3) (insKV acc key v)
            | '\x7d' :: r3 => some (.obj (insKV acc key v), r3)
            | _ => none
          | none => none
        | _ => none
      | none => none
    | _ => none
end

/-- Model of `json.loads`: leading/trailing whitespace allowed, anything
else after the value is an error. -/
def jsonLoads (s : Str) : Option Json :=
  match parseValue (s.length + 1) (skipWs s) with
  | some (v, rest) => if skipWs rest == [] then some v else none
  | none => none

/-! ### Well-formedness and measures used in the statements and proofs -/

/-- The keys of an association list are pairwise distinct (what Python
dicts, and hence every parsed JSON object, guarantee). -/
def keysDistinctB : List (Str × Json) → Bool
  | [] => true
  | (k, _) :: rest => rest.all (fun kv => !(kv.1 == k)) && keysDistinctB rest

mutual
/-- A JSON value as it can come out of the parser: every object has
pairwise distinct keys. -/
def wfJson : Json → Bool
  | .null => true
  | .bool _ => true
  | .num _ => true
  | .str _ => true
  | .arr items => wfJsonList items
  | .obj fs => keysDistinctB fs && wfJsonFields fs
/-- `wfJson` over a list of values. -/
def wfJsonList : List Json → Bool
  | [] => true
  | x :: xs => wfJson x && wfJsonList xs
/-- `wfJson` over the values of an association list. -/
def wfJsonFields : List (Str × Json) → Bool
  | [] => true
  | (_, v) :: rest => wfJson v && wfJsonFields rest
end

mutual
/-- Fuel measure of a JSON value for the parser (one unit per `parseValue`
call plus one per loop iteration). -/
def jsize : Json → Nat
  | .null => 1
  | .bool _ => 1
  | .num _ => 1
  | .str _ => 1
  | .arr items => 1 + jsizeItems items
  | .obj fs => 1 + jsizeFields fs
/-- Fuel measure of an item list. -/
def jsizeItems : List Json → Nat
  | [] => 1
  | x :: xs => 1 + jsize x + jsizeItems xs
/-- Fuel measure of a member list. -/
def jsizeFields : List (Str × Json) → Nat
  | [] => 1
  | (_, v) :: rest => 1 + jsize v + jsizeFields rest
end

/-- Specification-level decimal digits (well-founded form used only in
proofs about `natToChars`). -/
def digitsSpec (n : Nat) : Str :=
  if _h : n < 10 then [digitChar n]
  else digitsSpec (n / 10) ++ [digitChar (n % 10)]
  termination_by n
  decreasing_by exact Nat.div_lt_self (by omega) (by omega)

/-- The escaped body of a JSON string literal (without the quotes). -/
def escBody (s : Str) : Str := s.foldr (fun c acc => escJChar c ++ acc) []

/-- The printed layout of the second and later items of an array. -/
def itemsTail (d : Nat) : List Json → Str
  | [] => []
  | y :: ys => ',' :: '\n' :: ((indentN d ++ jdump d y) ++ itemsTail d ys)

/-- The printed layout of the second and later members of an object. -/
def fieldsTail (d : Nat) : List (Str × Json) → Str
  | [] => []
  | (k, v) :: gs =>
    ',' :: '\n' :: ((indentN d ++ (quoteJ k ++ ':' :: ' ' :: jdump d v)) ++ fieldsTail d gs)

/-- The delimiters that can follow a printed value inside a document
(parsing a number stops exactly there). -/
def delimOKB : Str → Bool
  | [] => true
  | c :: _ => c == ',' || c == '\n' || c == ']' || c == '\x7d'

/-! ### The JSON transform (`modify_json`, main.py lines 44-65) -/

/-- Python dict lookup `fields[k]` (fields coming out of the parser carry
no duplicate keys, so first match is the value). -/
def lookupKV : List (Str × Json) → Str → Option Json
  | [], _ => none
  | (k', v') :: rest, k => if k' == k then some v' else lookupKV rest k

/-- Python dict `del fields[k]`. -/
def delKV (fields : List (Str × Json)) (k : Str) : List (Str × Json) :=
  fields.filter (fun kv => !(kv.1 == k))

/-- Substring test, Python's `key in s` for strings. -/
def subStr (key : Str) : Str → Bool
  | [] => key.isEmpty
  | c :: cs => startsWithL (c :: cs) key || subStr key cs

/-- Python's `key in v` for a JSON value: key membership for a dict,
element membership for a list, substring test for a string, and a
`TypeError` for `None`/booleans/numbers (not iterable). -/
def pyIn (key : Str) (v : Json) : Except Unit Bool :=
  match v with
  | .obj fs => .ok (fs.any (fun kv => kv.1 == key))
  | .arr items =>
    .ok (items.any (fun it => match it with | .str s => s == key | _ => false))
  | .str s => .ok (subStr key s)
  | _ => .error ()

/-- The fixed `user_query` literal of the list-of-records branch. -/
def USER_QUERY : Str :=
  S "Display Hunter Dickinson's jump shots under guard from the second half of the last game, last season, and previous season"

/-- Model of `json.loads(json.dumps(json_data))`, the fresh copy taken by
`modify_json` (whitespace in the serialization does not affect `loads`, so
the indented serializer is reused here). -/
def jsonRoundtrip (v : Json) : Json := (jsonLoads (jsonDumps2 v)).getD .null

/-- One iteration of the list branch of `modify_json`: set `user_query` and
`new`, then `if "parameters" in item and "offensive_player" in
item["parameters"]: del item["parameters"]["offensive_player"]`.  The
membership test (and the deletion) can raise `TypeError` when
`item["parameters"]` is not a container (error value `()`). -/
def modifyItem (item : Json) : Except Unit Json :=
  match item with
  | .obj fs =>
    let fs2 := insKV (insKV fs (S "user_query") (.str USER_QUERY)) (S "new")
      (.str (S "Something"))
    match lookupKV fs2 (S "parameters") with
    | none => .ok (.obj fs2)
    | some p =>
      match pyIn (S "offensive_player") p with
      | .error e => .error e
      | .ok true =>
        match p with
        | .obj pf =>
          .ok (.obj (insKV fs2 (S "parameters") (.obj (delKV pf (S "offensive_player")))))
        | _ => .error ()
      | .ok false => .ok (.obj fs2)
  | _ => .ok item

/-- Model of `modify_json` (main.py lines 44-65).  `None` is returned
unchanged; otherwise the value is reserialized/reparsed and the fixed edits
are applied to the copy.  A raised `TypeError` is the `.error` case. -/
def modify_json (json_data : Json) : Except Unit Json :=
  match json_data with
  | .null => .ok .null
  | _ =>
    match jsonRoundtrip json_data with
    | .arr items =>
      match items.mapM modifyItem with
      | .ok items' => .ok (.arr items')
      | .error e => .error e
    | .obj fs =>
      let fs1 := insKV fs (S "new_field") (.str (S "This is a new value"))
      .ok (.obj (if fs1.any (fun kv => kv.1 == S "to_delete")
                 then delKV fs1 (S "to_delete") else fs1))
    | m => .ok m

/-! ### The XML tree and `modify_xml` (main.py lines 68-87) -/

/-- An `xml.etree.ElementTree.Element`: tag, attributes in document order,
text (the character data before the first child), children, and tail (the
character data after this element's end tag, owned by this element). -/
inductive Xml where
  | elem (tag : Str) (attrs : List (Str × Str)) (text : Option Str)
         (children : List Xml) (tail : Option Str)

/-- The element's tag. -/
def Xml.tagOf : Xml → Str
  | .elem t _ _ _ _ => t

/-- The element's attributes. -/
def Xml.attrsOf : Xml → List (Str × Str)
  | .elem _ a _ _ _ => a

/-- The element's text. -/
def Xml.textOf : Xml → Option Str
  | .elem _ _ tx _ _ => tx

/-- The element's children. -/
def Xml.childrenOf : Xml → List Xml
  | .elem _ _ _ cs _ => cs

/-- The element's tail. -/
def Xml.tailOf : Xml → Option Str
  | .elem _ _ _ _ tl => tl

mutual
/-- Pass 1 of `modify_xml` below the root: at every `parameters` element,
remove the direct `team_name` children.  (`root.findall(".//parameters")`
matches every strict descendant; removing a `team_name` child removes its
whole subtree, so recursing first and then filtering by tag — tags are
untouched by the pass — produces the same tree as the in-place loop.) -/
def delTeamNames : Xml → Xml
  | .elem t a tx cs tl =>
    .elem t a tx
      (if t == S "parameters"
       then (delTeamNamesList cs).filter (fun c => !(c.tagOf == S "team_name"))
       else delTeamNamesList cs) tl
/-- List version of `delTeamNames`. -/
def delTeamNamesList : List Xml → List Xml
  | [] => []
  | x :: xs => delTeamNames x :: delTeamNamesList xs
end

mutual
/-- Pass 2 of `modify_xml` below the root: `ET.SubElement(params,
"something")` with text "2" appended to every `parameters` element. -/
def addSomething : Xml → Xml
  | .elem t a tx cs tl =>
    .elem t a tx
      (addSomethingList cs ++
        (if t == S "parameters"
         then [Xml.elem (S "something") [] (some (S "2")) [] none] else [])) tl
/-- List version of `addSomething`. -/
def addSomethingList : List Xml → List Xml
  | [] => []
  | x :: xs => addSomething x :: addSomethingList xs
end

mutual
/-- Pass 3 of `modify_xml` below the root: set the text of every
`shot_type` element to "points". -/
def setShotType : Xml → Xml
  | .elem t a tx cs tl =>
    .elem t a (if t == S "shot_type" then some (S "points") else tx)
      (setShotTypeList cs) tl
/-- List version of `setShotType`. -/
def setShotTypeList : List Xml → List Xml
  | [] => []
  | x :: xs => setShotType x :: setShotTypeList xs
end

/-- Model of `modify_xml` (main.py lines 68-87).  `deepcopy` is the
identity on pure trees (the heap-level model of the copy discipline is
given separately for the frame claim); each `findall(".//…")` pass applies
to the strict descendants of the root only, never to the root itself. -/
def modify_xml (xml_root : Xml) : Xml :=
  let r1 := match xml_root with
    | .elem t a tx cs tl => Xml.elem t a tx (delTeamNamesList cs) tl
  let r2 := match r1 with
    | .elem t a tx cs tl => Xml.elem t a tx (addSomethingList cs) tl
  match r2 with
    | .elem t a tx cs tl => Xml.elem t a tx (setShotTypeList cs) tl

/-! ### Tree checkers used to state the XML claims -/

mutual
/-- Does `p` hold at this node and every descendant? -/
def everyNode (p : Xml → Bool) : Xml → Bool
  | .elem t a tx cs tl => p (.elem t a tx cs tl) && everyNodeList p cs
/-- Does `p` hold at every node of every tree in the list? -/
def everyNodeList (p : Xml → Bool) : List Xml → Bool
  | [] => true
  | x :: xs => everyNode p x && everyNodeList p xs
end

mutual
/-- Does `p` hold at this node or some descendant? -/
def anyNode (p : Xml → Bool) : Xml → Bool
  | .elem t a tx cs tl => p (.elem t a tx cs tl) || anyNodeList p cs
/-- Does `p` hold at some node of some tree in the list? -/
def anyNodeList (p : Xml → Bool) : List Xml → Bool
  | [] => false
  | x :: xs => anyNode p x || anyNodeList p xs
end

/-- Claim C1 as stated: at every `parameters` element (anywhere in the
tree), no `team_name` element occurs among its descendants at any depth. -/
def noTeamUnderParams (t : Xml) : Bool :=
  everyNode (fun x =>
    !(x.tagOf == S "parameters") ||
      !(anyNodeList (fun y => y.tagOf == S "team_name") x.childrenOf)) t

/-- Amended C1 invariant at one node: a `parameters` element has no direct
`team_name` child. -/
def noDirectTeam (x : Xml) : Bool :=
  !(x.tagOf == S "parameters") ||
    x.childrenOf.all (fun c => !(c.tagOf == S "team_name"))

/-- Number of direct `something` children. -/
def countSomething (x : Xml) : Nat :=
  x.childrenOf.countP (fun c => c.tagOf == S "something")

/-- Claim C3 as stated, at one node: a `parameters` element has exactly one
`something` child, and that child's text is "2". -/
def paramsExactlyOneSomething2 (x : Xml) : Bool :=
  !(x.tagOf == S "parameters") ||
    (countSomething x == 1 &&
      x.childrenOf.all (fun c =>
        !(c.tagOf == S "something") || c.textOf == some (S "2")))

/-- Amended C3, part one, at one node: a `parameters` element has at least
one `something` child with text "2". -/
def paramsHasSomething2 (x : Xml) : Bool :=
  !(x.tagOf == S "parameters") ||
    x.childrenOf.any (fun c => c.tagOf == S "something" && c.textOf == some (S "2"))

/-- No direct `something` child at this node (input-side hypothesis for the
exactly-one part of amended C3). -/
def noSomethingChild (x : Xml) : Bool :=
  x.childrenOf.all (fun c => !(c.tagOf == S "something"))

/-- Amended C3, exactly-one part, at one node: a `parameters` element has
exactly one direct `something` child. -/
def paramsOneSomething (x : Xml) : Bool :=
  !(x.tagOf == S "parameters") || (countSomething x == 1)

/-! ### Model of `difflib` (CPython 3.11), as used by `generate_diff`

`generate_diff` runs `difflib.Differ().compare` on the two line lists.
`Differ` uses `SequenceMatcher(None, a, b)` at line level (so `bjunk` is
empty and only `autojunk` popularity filtering applies to `b2j`) and a
character-level `SequenceMatcher(IS_CHARACTER_JUNK)` for intraline ratios.
The model below is generic in the element type and junk predicate.
Ratios are exact rationals where CPython computes IEEE doubles; at the
operand magnitudes arising here every comparison performed on them
(`> 0.74`, `< 0.75`, `> best_ratio`) is unaffected by double rounding,
since distinct small-denominator rationals are far further apart than the
rounding error. -/

namespace Difflib

variable {α : Type} [DecidableEq α] [Inhabited α]

/-- Number of occurrences of `v` in `b`. -/
def countElem (b : List α) (v : α) : Nat := b.countP (fun x => x == v)

/-- The `autojunk` popularity rule of `SequenceMatcher.__chain_b`:
with `len(b) >= 200`, elements appearing more than `len(b)//100 + 1`
times are dropped from `b2j` (but are not junk for the extension loops). -/
def isPopular (b : List α) (v : α) : Bool :=
  decide (200 ≤ b.length) && decide (b.length / 100 + 1 < countElem b v)

/-- `b2j[v]`: the ascending positions of `v` in `b`, with junk and popular
elements removed (`dict.get(v, [])` semantics for absent keys). -/
def b2jGet (isjunk : α → Bool) (b : List α) (v : α) : List Nat :=
  if isjunk v || isPopular b v then []
  else (List.range b.length).filter (fun j => b.getD j default == v)

/-- The running `(besti, bestj, bestsize)` of `find_longest_match`. -/
structure Match3 where
  besti : Nat
  bestj : Nat
  bestsize : Nat
  deriving DecidableEq, Repr

/-- Inner loop of `find_longest_match` over `b2j[a[i]]` (ascending): skip
`j < blo`, break at `j >= bhi`, set `newj2len[j] = j2len.get(j-1,0) + 1`
and update the best on a strict improvement. -/
def flmRow (i blo bhi : Nat) (j2len : Nat → Nat) :
    List Nat → (Nat → Nat) → Match3 → ((Nat → Nat) × Match3)
  | [], acc, st => (acc, st)
  | j :: js, acc, st =>
    if j < blo then flmRow i blo bhi j2len js acc st
    else if bhi ≤ j then (acc, st)
    else
      let k := (if j = 0 then 0 else j2len (j - 1)) + 1
      let acc' := fun j' => if j' = j then k else acc j'
      let st' := if st.bestsize < k then ⟨i + 1 - k, j + 1 - k, k⟩ else st
      flmRow i blo bhi j2len js acc' st'

/-- Outer loop of `find_longest_match` over `i in range(alo, ahi)`;
`j2len` starts empty (all zeroes) for each row. -/
def flmRows (isjunk : α → Bool) (a b : List α) (blo bhi : Nat) :
    List Nat → (Nat → Nat) → Match3 → Match3
  | [], _, st => st
  | i :: is, j2len, st =>
    let pr := flmRow i blo bhi j2len (b2jGet isjunk b (a.getD i default))
      (fun _ => 0) st
    flmRows isjunk a b blo bhi is pr.1 pr.2

/-- One of the four extension `while` loops: extend the block to the left
while the `b`-side neighbour satisfies `cond` and the elements match. -/
def extLeft (cond : α → Bool) (a b : List α) (alo blo : Nat) :
    Nat → Match3 → Match3
  | 0, st => st
  | fuel + 1, st =>
    if alo < st.besti ∧ blo < st.bestj ∧
        cond (b.getD (st.bestj - 1) default) = true ∧
        a.getD (st.besti - 1) default = b.getD (st.bestj - 1) default
    then extLeft cond a b alo blo fuel ⟨st.besti - 1, st.bestj - 1, st.bestsize + 1⟩
    else st

/-- Rightward extension twin of `extLeft`. -/
def extRight (cond : α → Bool) (a b : List α) (ahi bhi : Nat) :
    Nat → Match3 → Match3
  | 0, st => st
  | fuel + 1, st =>
    if st.besti + st.bestsize < ahi ∧ st.bestj + st.bestsize < bhi ∧
        cond (b.getD (st.bestj + st.bestsize) default) = true ∧
        a.getD (st.besti + st.bestsize) default = b.getD (st.bestj + st.bestsize) default
    then extRight cond a b ahi bhi fuel ⟨st.besti, st.bestj, st.bestsize + 1⟩
    else st

/-- `SequenceMatcher.find_longest_match(alo, ahi, blo, bhi)`: the dynamic
programming search followed by the non-junk and then junk extension loops
(the fuel arguments strictly bound the possible number of iterations). -/
def findLongestMatch (isjunk : α → Bool) (a b : List α)
    (alo ahi blo bhi : Nat) : Match3 :=
  let st0 := flmRows isjunk a b blo bhi (List.range' alo (ahi - alo))
    (fun _ => 0) ⟨alo, blo, 0⟩
  let st1 := extLeft (fun v => !(isjunk v)) a b alo blo st0.besti st0
  let st2 := extRight (fun v => !(isjunk v)) a b ahi bhi ahi st1
  let st3 := extLeft isjunk a b alo blo st2.besti st2
  extRight isjunk a b ahi bhi ahi st3

/-- `SequenceMatcher.get_matching_blocks` before merging, written as the
region recursion; CPython keeps an explicit queue and sorts the collected
blocks at the end, which yields exactly this in-order traversal since the
blocks occupy disjoint, increasing index ranges. -/
def matchingBlocksRec (isjunk : α → Bool) (a b : List α) :
    Nat → Nat → Nat → Nat → Nat → List (Nat × Nat × Nat)
  | 0, _, _, _, _ => []
  | fuel + 1, alo, ahi, blo, bhi =>
    let m := findLongestMatch isjunk a b alo ahi blo bhi
    if m.bestsize = 0 then []
    else
      (if alo < m.besti ∧ blo < m.bestj
       then matchingBlocksRec isjunk a b fuel alo m.besti blo m.bestj
       else []) ++
      [(m.besti, m.bestj, m.bestsize)] ++
      (if m.besti + m.bestsize < ahi ∧ m.bestj + m.bestsize < bhi
       then matchingBlocksRec isjunk a b fuel (m.besti + m.bestsize) ahi
         (m.bestj + m.bestsize) bhi
       else [])

/-- The adjacent-block collapsing fold of `get_matching_blocks`
(`i1, j1, k1` start at zeroes; a block is emitted when `k1` is nonzero). -/
def mergeAdj : Nat × Nat × Nat → List (Nat × Nat × Nat) → List (Nat × Nat × Nat)
  | (i1, j1, k1), [] => if k1 ≠ 0 then [(i1, j1, k1)] else []
  | (i1, j1, k1), (i2, j2, k2) :: rest =>
    if i1 + k1 = i2 ∧ j1 + k1 = j2 then mergeAdj (i1, j1, k1 + k2) rest
    else (if k1 ≠ 0 then [(i1, j1, k1)] else []) ++ mergeAdj (i2, j2, k2) rest

/-- `SequenceMatcher.get_matching_blocks()`, with the `(la, lb, 0)`
sentinel appended. -/
def getMatchingBlocks (isjunk : α → Bool) (a b : List α) : List (Nat × Nat × Nat) :=
  mergeAdj (0, 0, 0)
      (matchingBlocksRec isjunk a b (a.length + b.length + 1) 0 a.length 0 b.length) ++
    [(a.length, b.length, 0)]

/-- Opcode tags of `get_opcodes`. -/
inductive Tag where
  | replace | delete | insert | equal
  deriving DecidableEq, Repr

/-- The cursor fold of `get_opcodes` over the matching blocks. -/
def opcodesLoop : Nat → Nat → List (Nat × Nat × Nat) →
    List (Tag × Nat × Nat × Nat × Nat)
  | _, _, [] => []
  | i, j, (ai, bj, size) :: rest =>
    (if i < ai ∧ j < bj then [(Tag.replace, i, ai, j, bj)]
     else if i < ai then [(Tag.delete, i, ai, j, bj)]
     else if j < bj then [(Tag.insert, i, ai, j, bj)]
     else []) ++
    (if size ≠ 0 then [(Tag.equal, ai, ai + size, bj, bj + size)] else []) ++
    opcodesLoop (ai + size) (bj + size) rest

/-- `SequenceMatcher.get_opcodes()`. -/
def getOpcodes (isjunk : α → Bool) (a b : List α) :
    List (Tag × Nat × Nat × Nat × Nat) :=
  opcodesLoop 0 0 (getMatchingBlocks isjunk a b)

/-- A ratio as an exact numerator/denominator pair (denominator positive
in every use); CPython's floats are modelled by exact fractions, compared
by cross multiplication. -/
abbrev RatP := Nat × Nat

/-- Exact `x > y` on ratio pairs. -/
def ratGtB (x y : RatP) : Bool := decide (x.1 * y.2 > y.1 * x.2)

/-- Exact `x < y` on ratio pairs. -/
def ratLtB (x y : RatP) : Bool := decide (x.1 * y.2 < y.1 * x.2)

/-- `difflib._calculate_ratio`: `2.0 * matches / length`, or `1.0` on two
empty sequences. -/
def ratioCalc (m len : Nat) : RatP :=
  if len ≠ 0 then (2 * m, len) else (1, 1)

/-- `SequenceMatcher.ratio()`: twice the matched size over the total. -/
def ratioFull (isjunk : α → Bool) (a b : List α) : RatP :=
  ratioCalc ((getMatchingBlocks isjunk a b).map (fun t => t.2.2)).sum
    (a.length + b.length)

/-- `SequenceMatcher.quick_ratio()`: the `avail` loop counts, for each
distinct element, the smaller of its occurrence counts in `a` and `b`. -/
def ratioQuick (a b : List α) : RatP :=
  ratioCalc (a.dedup.map (fun v => min (countElem a v) (countElem b v))).sum
    (a.length + b.length)

/-- `SequenceMatcher.real_quick_ratio()`. -/
def ratioReal (a b : List α) : RatP :=
  ratioCalc (min a.length b.length) (a.length + b.length)

/-- `difflib.IS_CHARACTER_JUNK`: space and tab. -/
def isCharJunk (c : Char) : Bool := c == ' ' || c == '\t'

/-- `Differ._dump(tag, x, lo, hi)`: each line prefixed by the tag
character and a space. -/
def dumpTag (tg : Char) (x : List Str) (lo hi : Nat) : List Str :=
  (List.range' lo (hi - lo)).map (fun i => tg :: ' ' :: x.getD i [])

/-- `Differ._plain_replace`: the shorter block is dumped first. -/
def plainReplace (a : List Str) (alo ahi : Nat) (b : List Str)
    (blo bhi : Nat) : List Str :=
  if bhi - blo < ahi - alo
  then dumpTag '+' b blo bhi ++ dumpTag '-' a alo ahi
  else dumpTag '-' a alo ahi ++ dumpTag '+' b blo bhi

/-- Python `str.isspace` (ASCII subset, which is all the source feeds it). -/
def pyIsSpace (c : Char) : Bool := pyWs c

/-- `difflib._keep_original_ws`. -/
def keepOriginalWs (s tags : Str) : Str :=
  (s.zip tags).map (fun p => if p.2 == ' ' && pyIsSpace p.1 then p.1 else p.2)

/-- Python `str.rstrip()`. -/
def rstripWs (s : Str) : Str := (s.reverse.dropWhile pyIsSpace).reverse

/-- The `atags` string built by `_fancy_replace` from char-level opcodes. -/
def qtagsA : List (Tag × Nat × Nat × Nat × Nat) → Str
  | [] => []
  | (tg, i1, i2, _, _) :: rest =>
    (match tg with
     | .replace => List.replicate (i2 - i1) '^'
     | .delete => List.replicate (i2 - i1) '-'
     | .insert => []
     | .equal => List.replicate (i2 - i1) ' ') ++ qtagsA rest

/-- The `btags` string built by `_fancy_replace` from char-level opcodes. -/
def qtagsB : List (Tag × Nat × Nat × Nat × Nat) → Str
  | [] => []
  | (tg, _, _, j1, j2) :: rest =>
    (match tg with
     | .replace => List.replicate (j2 - j1) '^'
     | .delete => []
     | .insert => List.replicate (j2 - j1) '+'
     | .equal => List.replicate (j2 - j1) ' ') ++ qtagsB rest

/-- `Differ._qformat`: the `- a`, `? atags`, `+ b`, `? btags` quad; the
hint lines get an explicit trailing newline and are omitted when the
stripped tag string is empty. -/
def qformat (aline bline : Str) (ops : List (Tag × Nat × Nat × Nat × Nat)) :
    List Str :=
  let atags := rstripWs (keepOriginalWs aline (qtagsA ops))
  let btags := rstripWs (keepOriginalWs bline (qtagsB ops))
  ['-' :: ' ' :: aline] ++
    (if atags ≠ [] then [('?' :: ' ' :: atags) ++ ['\n']] else []) ++
    ['+' :: ' ' :: bline] ++
    (if btags ≠ [] then [('?' :: ' ' :: btags) ++ ['\n']] else [])

/-- The running state of the `_fancy_replace` search. -/
structure FRState where
  bestR : RatP
  best : Option (Nat × Nat)
  eqPair : Option (Nat × Nat)

/-- Inner `for i in range(alo, ahi)` of the `_fancy_replace` search: record
the first identical pair, otherwise test the three ratio gates (short
circuit, strict `>`). -/
def frInner (a b : List Str) (j : Nat) : List Nat → FRState → FRState
  | [], st => st
  | i :: is, st =>
    let ai := a.getD i []
    let bj := b.getD j []
    if ai = bj then
      frInner a b j is
        { st with eqPair := match st.eqPair with | none => some (i, j) | some e => some e }
    else if ratGtB (ratioReal ai bj) st.bestR ∧ ratGtB (ratioQuick ai bj) st.bestR ∧
        ratGtB (ratioFull isCharJunk ai bj) st.bestR then
      frInner a b j is ⟨ratioFull isCharJunk ai bj, some (i, j), st.eqPair⟩
    else frInner a b j is st

/-- Outer `for j in range(blo, bhi)` of the `_fancy_replace` search. -/
def frScan (a b : List Str) (alo ahi : Nat) : List Nat → FRState → FRState
  | [], st => st
  | j :: js, st =>
    frScan a b alo ahi js (frInner a b j (List.range' alo (ahi - alo)) st)

/-- `Differ._fancy_replace` (with `_fancy_helper` inlined as `helper`):
synch on the best close pair (intraline `_qformat` quad), else on the
first identical pair (context line), else `_plain_replace`.  The fuel
strictly bounds the recursion depth, which shrinks the region each step. -/
def fancyReplace : Nat → List Str → Nat → Nat → List Str → Nat → Nat → List Str
  | 0, _, _, _, _, _, _ => []
  | fuel + 1, a, alo, ahi, b, blo, bhi =>
    let helper := fun (alo' ahi' blo' bhi' : Nat) =>
      if alo' < ahi' then
        if blo' < bhi' then fancyReplace fuel a alo' ahi' b blo' bhi'
        else dumpTag '-' a alo' ahi'
      else if blo' < bhi' then dumpTag '+' b blo' bhi'
      else []
    let st := frScan a b alo ahi (List.range' blo (bhi - blo))
      ⟨(74, 100), none, none⟩
    if ratLtB st.bestR (75, 100) then
      match st.eqPair with
      | none => plainReplace a alo ahi b blo bhi
      | some (ei, ej) =>
        helper alo ei blo ej ++ [' ' :: ' ' :: a.getD ei []] ++
          helper (ei + 1) ahi (ej + 1) bhi
    else
      match st.best with
      | some (bi, bj) =>
        let aelt := a.getD bi []
        let belt := b.getD bj []
        helper alo bi blo bj ++
          qformat aelt belt (getOpcodes isCharJunk aelt belt) ++
          helper (bi + 1) ahi (bj + 1) bhi
      | none => []

/-- `difflib.Differ().compare(a, b)`: line-level `SequenceMatcher` with no
junk function (`linejunk=None`), dispatching per opcode. -/
def differCompare (a b : List Str) : List Str :=
  (getOpcodes (fun _ => false) a b).flatMap fun op =>
    match op with
    | (.replace, alo, ahi, blo, bhi) =>
      fancyReplace (a.length + b.length + 1) a alo ahi b blo bhi
    | (.delete, alo, ahi, _, _) => dumpTag '-' a alo ahi
    | (.insert, _, _, blo, bhi) => dumpTag '+' b blo bhi
    | (.equal, alo, ahi, _, _) => dumpTag ' ' a alo ahi

end Difflib

/-! ### Model of `prettify_xml` (main.py lines 90-94)

`prettify_xml` is `minidom.parseString(ET.tostring(elem, "utf-8"))
.toprettyxml(indent="  ")`.  `ET.tostring` escapes markup characters and
`minidom` re-parses them, so the net effect on the tree's raw text is
minidom's own `_write_data` escaping; the DOM mirrors the element tree with
`text`/`tail` becoming text nodes (empty strings produce no node).
`toprettyxml` writes the `<?xml version="1.0" ?>` declaration, indents by
two spaces per level, inlines an element whose only DOM child is a text
node, and writes every other text node on its own indented line.  The
root's `tail` is not written (it is `None` for every parsed tree; a
non-whitespace root tail would already make `minidom.parseString` fail). -/

/-- minidom `_write_data` escaping (used for text and attribute values). -/
def escXml (s : Str) : Str :=
  s.foldr (fun c acc =>
    (if c == '&' then S "&amp;"
     else if c == '<' then S "&lt;"
     else if c == '"' then S "&quot;"
     else if c == '>' then S "&gt;"
     else [c]) ++ acc) []

mutual
/-- minidom `Element.writexml(writer, ind, "  ", "\n")` on our tree. -/
def writeEl (ind : Str) : Xml → Str
  | .elem t a tx cs _ =>
    let attrsS := a.foldr
      (fun kv acc => ' ' :: (kv.1 ++ '=' :: '"' :: (escXml kv.2 ++ '"' :: acc))) []
    let txt := match tx with | some s => s | none => []
    let start := ind ++ '<' :: (t ++ attrsS)
    if txt.isEmpty && cs.isEmpty then start ++ S "/>\n"
    else if cs.isEmpty then
      start ++ '>' :: (escXml txt ++ '<' :: '/' :: (t ++ S ">\n"))
    else
      start ++ '>' :: '\n' ::
        ((if txt.isEmpty then [] else ((ind ++ S "  ") ++ escXml txt ++ S "\n")) ++
          (writeChildren (ind ++ S "  ") cs ++ (ind ++ '<' :: '/' :: (t ++ S ">\n"))))
/-- The DOM children in document order: each child element followed by its
tail text node (when non-empty), all at the child indentation. -/
def writeChildren (ind : Str) : List Xml → Str
  | [] => []
  | x :: xs =>
    writeEl ind x ++
      ((match x.tailOf with
        | some s => if s.isEmpty then [] else ind ++ escXml s ++ S "\n"
        | none => []) ++ writeChildren ind xs)
end

/-- Model of `prettify_xml` (main.py lines 90-94). -/
def prettify_xml (elem : Xml) : Str :=
  S "<?xml version=\"1.0\" ?>\n" ++ writeEl [] elem

/-! ### Model of `xml.etree.ElementTree.fromstring`

A strict parser for the XML subset exercised by this program: optional XML
declaration (only at the very start, as expat requires), elements with
attributes (quoted with `"` or `'`, duplicates rejected, values
whitespace-normalized), character data with the five named entities and
numeric character references, `text`/`tail` assembled exactly as
`ElementTree` does (`None` when no character data).  Comments, processing
instructions, CDATA sections, DOCTYPEs and non-ASCII names are outside the
model and are rejected, where expat would handle them. -/

/-- XML whitespace. -/
def xmlWsChar (c : Char) : Bool :=
  c == ' ' || c == '\t' || c == '\n' || c == '\r'

/-- ASCII XML name start character (model subset). -/
def nameStartChar (c : Char) : Bool := c.isAlpha || c == '_' || c == ':'

/-- ASCII XML name character (model subset). -/
def nameChar (c : Char) : Bool :=
  nameStartChar c || c.isDigit || c == '-' || c == '.'

/-- Parse an XML name. -/
def parseName : Str → Option (Str × Str)
  | [] => none
  | c :: r =>
    if nameStartChar c then some (c :: r.takeWhile nameChar, r.dropWhile nameChar)
    else none

/-- Decimal digits of a character reference. -/
def decEntVal : Str → Nat → Option (Nat × Str)
  | ';' :: r, acc => some (acc, r)
  | c :: r, acc => if isDig c then decEntVal r (acc * 10 + (c.toNat - 48)) else none
  | [], _ => none

/-- Hexadecimal digits of a character reference. -/
def hexEntVal : Str → Nat → Option (Nat × Str)
  | ';' :: r, acc => some (acc, r)
  | c :: r, acc =>
    match hexVal c with
    | some d => hexEntVal r (acc * 16 + d)
    | none => none
  | [], _ => none

/-- A scalar value acceptable as an XML character (no surrogates). -/
def validCharCode (n : Nat) : Bool :=
  decide (n < 0xd800) || (decide (0xe000 ≤ n) && decide (n < 0x110000))

/-- Parse an entity or character reference after `&`: the five predefined
entities plus `&#…;`/`&#x…;`. -/
def parseEntity : Str → Option (Char × Str)
  | 'a' :: 'm' :: 'p' :: ';' :: r => some ('&', r)
  | 'l' :: 't' :: ';' :: r => some ('<', r)
  | 'g' :: 't' :: ';' :: r => some ('>', r)
  | 'q' :: 'u' :: 'o' :: 't' :: ';' :: r => some ('"', r)
  | 'a' :: 'p' :: 'o' :: 's' :: ';' :: r => some (Char.ofNat 39, r)
  | '#' :: 'x' :: r =>
    match hexEntVal r 0 with
    | some (n, r2) => if validCharCode n then some (Char.ofNat n, r2) else none
    | none => none
  | '#' :: r =>
    match decEntVal r 0 with
    | some (n, r2) => if validCharCode n then some (Char.ofNat n, r2) else none
    | none => none
  | _ => none

/-- Parse an attribute value up to the closing quote `q`: raw `<` is an
error, entities are resolved, and raw tab/newline/carriage-return are
normalized to spaces (attribute-value normalization; characters produced
by references are kept literally). -/
def parseAttrValue (q : Char) : Nat → Str → Option (Str × Str)
  | 0, _ => none
  | _ + 1, [] => none
  | fuel + 1, c :: r =>
    if c == q then some ([], r)
    else if c == '<' then none
    else if c == '&' then
      match parseEntity r with
      | some (ch, r2) =>
        match parseAttrValue q fuel r2 with
        | some (v, rest) => some (ch :: v, rest)
        | none => none
      | none => none
    else
      let c' := if c == '\t' || c == '\n' || c == '\r' then ' ' else c
      match parseAttrValue q fuel r with
      | some (v, rest) => some (c' :: v, rest)
      | none => none

/-- Parse the attribute list of a start tag, stopping before `>` or `/`;
attributes are separated by mandatory whitespace and duplicate names are
rejected. -/
def parseAttrs : Nat → Str → List (Str × Str) → Option (List (Str × Str) × Str)
  | 0, _, _ => none
  | fuel + 1, s, acc =>
    let s1 := s.dropWhile xmlWsChar
    match s1 with
    | '>' :: _ => some (acc, s1)
    | '/' :: _ => some (acc, s1)
    | _ =>
      if s.length == s1.length then none
      else
        match parseName s1 with
        | some (nm, r1) =>
          match r1.dropWhile xmlWsChar with
          | '=' :: r3 =>
            match r3.dropWhile xmlWsChar with
            | q :: r5 =>
              if q == '"' || q == Char.ofNat 39 then
                match parseAttrValue q (r5.length + 1) r5 with
                | some (v, r6) =>
                  if acc.any (fun kv => kv.1 == nm) then none
                  else parseAttrs fuel r6 (acc ++ [(nm, v)])
                | none => none
              else none
            | [] => none
          | _ => none
        | none => none

/-- Attach pending character data: it becomes the element `text` before the
first child and the previous child's `tail` afterwards (children are
accumulated in reverse). -/
def attachBuf (text : Option Str) (revCh : List Xml) (buf : Str) :
    Option Str × List Xml :=
  if buf.isEmpty then (text, revCh)
  else
    match revCh with
    | [] => (some buf, [])
    | .elem t a tx cs _ :: rest => (text, .elem t a tx cs (some buf) :: rest)

mutual
/-- Parse one element, positioned just after its opening `<`. -/
def parseElement : Nat → Str → Option (Xml × Str)
  | 0, _ => none
  | fuel + 1, s =>
    match parseName s with
    | some (nm, r1) =>
      match parseAttrs (r1.length + 1) r1 [] with
      | some (attrs, r2) =>
        match r2 with
        | '/' :: '>' :: r3 => some (.elem nm attrs none [] none, r3)
        | '>' :: r3 =>
          match parseContent fuel nm r3 none [] [] with
          | some (tx, children, rest) =>
            some (.elem nm attrs tx children none, rest)
          | none => none
        | _ => none
      | none => none
    | none => none
/-- Parse element content up to the matching end tag `</tag …>`: character
data (entities resolved) interleaved with child elements. -/
def parseContent : Nat → Str → Str → Option Str → List Xml → Str →
    Option (Option Str × List Xml × Str)
  | 0, _, _, _, _, _ => none
  | fuel + 1, tag, s, text, revCh, buf =>
    match s with
    | [] => none
    | '<' :: '/' :: r =>
      match parseName r with
      | some (nm, r1) =>
        if nm == tag then
          match (r1.dropWhile xmlWsChar) with
          | '>' :: r2 =>
            let pr := attachBuf text revCh buf
            some (pr.1, pr.2.reverse, r2)
          | _ => none
        else none
      | none => none
    | '<' :: r =>
      match parseElement fuel r with
      | some (child, rest) =>
        let pr := attachBuf text revCh buf
        parseContent fuel tag rest pr.1 (child :: pr.2) []
      | none => none
    | '&' :: r =>
      match parseEntity r with
      | some (ch, rest) => parseContent fuel tag rest text revCh (buf ++ [ch])
      | none => none
    | c :: r => parseContent fuel tag r text revCh (buf ++ [c])
end

/-- Skip an XML declaration `<?xml … ?>` at the very start of input. -/
def dropDecl : Nat → Str → Option Str
  | 0, _ => none
  | _ + 1, '?' :: '>' :: r => some r
  | fuel + 1, _ :: r => dropDecl fuel r
  | _ + 1, [] => none

/-- Model of `ET.fromstring` on the subset described above. -/
def xmlFromstring (s : Str) : Option Xml :=
  let s1 :=
    match s with
    | '<' :: '?' :: 'x' :: 'm' :: 'l' :: r => dropDecl (r.length + 1) r
    | _ => some s
  match s1 with
  | none => none
  | some s2 =>
    match s2.dropWhile xmlWsChar with
    | '<' :: r =>
      match parseElement (r.length + 1) r with
      | some (x, rest) => if (rest.dropWhile xmlWsChar).isEmpty then some x else none
      | none => none
    | _ => none

/-! ### `detect_file_type` (main.py lines 11-28) -/

/-- The `ValueError` message raised on unsupported content. -/
def UNSUPPORTED_MSG : Str :=
  S "Unsupported file format. Please upload a valid JSON or XML file."

/-- Model of `detect_file_type`: strip, then try the JSON branch (prefix
heuristic plus strict parse), then the XML branch, else raise. -/
def detect_file_type (content : Str) : Except Str Str :=
  let c := pyStrip content
  if (startsWithL c (S "\x7b") || startsWithL c (S "[")) && (jsonLoads c).isSome
  then .ok (S "json")
  else if (startsWithL c (S "<?xml") || startsWithL c (S "<")) &&
      (xmlFromstring c).isSome
  then .ok (S "xml")
  else .error UNSUPPORTED_MSG

/-! ### `generate_diff` (main.py lines 97-110) and rendering -/

/-- A parsed Document of either format (`load_file`'s result). -/
inductive Doc where
  | json (v : Json)
  | xml (t : Xml)

/-- Python truthiness of a parsed Document, as tested by `generate_diff`'s
`if not original or not modified`.  An `Element`'s truth value is whether
it has child elements. -/
def pyTruthy : Doc → Bool
  | .json .null => false
  | .json (.bool b) => b
  | .json (.num n) => decide (n ≠ 0)
  | .json (.str s) => !s.isEmpty
  | .json (.arr items) => !items.isEmpty
  | .json (.obj fs) => !fs.isEmpty
  | .xml t => !t.childrenOf.isEmpty

/-- The line list serialized per `file_type` (`json.dumps(…, indent=2)
.split("\n")` or `prettify_xml(…).split("\n")`); `none` models the
`TypeError` the serializers raise on a Document of the other variant
(never reached in the pipeline, where `file_type` matches the variant). -/
def docLines (file_type : Str) (d : Doc) : Option (List Str) :=
  if file_type == S "json" then
    match d with
    | .json v => some (splitNl (jsonDumps2 v))
    | .xml _ => none
  else
    match d with
    | .xml t => some (splitNl (prettify_xml t))
    | .json _ => none

/-- Model of `generate_diff` (main.py lines 97-110): the truthiness gate,
then `Differ().compare` on the two serialized line lists. -/
def generate_diff (original modified : Doc) (file_type : Str) :
    Option (List Str) :=
  if !(pyTruthy original) || !(pyTruthy modified) then some []
  else
    match docLines file_type original, docLines file_type modified with
    | some la, some lb => some (Difflib.differCompare la lb)
    | _, _ => none

/-- Model of `format_diff_html` (main.py lines 113-127): `+` lines on a
green background, `-` lines on red, `?` hint lines dropped, everything
else in a bare `div`. -/
def format_diff_html (diff_lines : List Str) : Str :=
  diff_lines.flatMap fun line =>
    if startsWithL line (S "+") then
      S "<div style=\"background-color: #a8ffa8\">" ++ line ++ S "</div>"
    else if startsWithL line (S "-") then
      S "<div style=\"background-color: #ffb3b3\">" ++ line ++ S "</div>"
    else if startsWithL line (S "?") then []
    else S "<div>" ++ line ++ S "</div>"

/-! ### Heap-level models for the frame claim

The pure tree functions above cannot express "the transformer does not
mutate the original", so the two transforms are modelled once more over an
explicit object heap: objects are numeric ids, a heap maps ids to node
payloads, every id below the allocation bound `n` belongs to pre-existing
objects, and fresh allocation hands out ids from `n` upwards.
`modify_xml` starts from `deepcopy`, `modify_json` from
`json.loads(json.dumps(…))` — both allocate a structurally equal fresh
graph — and all subsequent writes hit the fresh region only. -/

namespace Heaps

/-- Heap payload of an `ElementTree.Element` object. -/
structure XNode where
  tag : Str
  attrs : List (Str × Str)
  text : Option Str
  tail : Option Str
  kids : List Nat

/-- An XML object heap. -/
abbrev XHeap := Nat → XNode

/-- Heap update at one id. -/
def upd {ν : Type} (h : Nat → ν) (i : Nat) (nd : ν) : Nat → ν :=
  fun j => if j = i then nd else h j

/-- Read the pure trees of a forest of ids back out of the heap (fuel
bounds the depth; `none` only on cyclic or too-deep graphs). -/
def readXForest : Nat → XHeap → List Nat → Option (List Xml)
  | 0, _, _ => none
  | _ + 1, _, [] => some []
  | fuel + 1, h, i :: is =>
    match readXForest fuel h (h i).kids, readXForest fuel h is with
    | some cs, some rest =>
      some (.elem (h i).tag (h i).attrs (h i).text cs (h i).tail :: rest)
    | _, _ => none

/-- Read one tree back out of the heap. -/
def readX (fuel : Nat) (h : XHeap) (i : Nat) : Option Xml :=
  match readXForest fuel h [i] with
  | some [x] => some x
  | _ => none

/-- `copy.deepcopy` of a forest: allocate a fresh id for each node in
document order; returns the new heap, the fresh ids and the next free id. -/
def copyXForest : Nat → XHeap → List Nat → Nat → XHeap × List Nat × Nat
  | 0, h, _, fresh => (h, [], fresh)
  | _ + 1, h, [], fresh => (h, [], fresh)
  | fuel + 1, h, i :: is, fresh =>
    let pr := copyXForest fuel h (h i).kids (fresh + 1)
    let h2 := upd pr.1 fresh ⟨(h i).tag, (h i).attrs, (h i).text, (h i).tail, pr.2.1⟩
    let pr2 := copyXForest fuel h2 is pr.2.2
    (pr2.1, fresh :: pr2.2.1, pr2.2.2)

/-- `root.findall(".//" + t)` over a forest: ids of every node with tag
`t`, in document order. -/
def collectTag : Nat → XHeap → Str → List Nat → List Nat
  | 0, _, _, _ => []
  | _ + 1, _, _, [] => []
  | fuel + 1, h, t, i :: is =>
    (if (h i).tag == t then [i] else []) ++
      collectTag fuel h t (h i).kids ++ collectTag fuel h t is

/-- Pass 1 on the heap: remove the direct `team_name` children of each
collected `parameters` object. -/
def pass1Heap (h : XHeap) (ps : List Nat) : XHeap :=
  ps.foldl (fun h p =>
    upd h p { h p with kids := (h p).kids.filter (fun c => !((h c).tag == S "team_name")) }) h

/-- Pass 2 on the heap: allocate a `something` element (text "2") and
append it to each collected `parameters` object. -/
def pass2Heap : XHeap → List Nat → Nat → XHeap × Nat
  | h, [], fresh => (h, fresh)
  | h, p :: ps, fresh =>
    let h1 := upd h fresh ⟨S "something", [], some (S "2"), none, []⟩
    let h2 := upd h1 p { h1 p with kids := (h1 p).kids ++ [fresh] }
    pass2Heap h2 ps (fresh + 1)

/-- Pass 3 on the heap: set the text of each collected `shot_type`. -/
def pass3Heap (h : XHeap) (ss : List Nat) : XHeap :=
  ss.foldl (fun h i => upd h i { h i with text := some (S "points") }) h

/-- Heap-level `modify_xml`: deep copy, then the three `findall` passes on
the copy (the root's copy is excluded from `.//` collection, matching the
pure model). -/
def modify_xml_heap (h : XHeap) (root fresh fuel : Nat) : XHeap × Nat × Nat :=
  let c := copyXForest fuel h [root] fresh
  let newRoot := fresh
  let h1 := c.1
  let ps1 := collectTag fuel h1 (S "parameters") (h1 newRoot).kids
  let h2 := pass1Heap h1 ps1
  let ps2 := collectTag fuel h2 (S "parameters") (h2 newRoot).kids
  let pr := pass2Heap h2 ps2 c.2.2
  let h3 := pr.1
  let sh := collectTag fuel h3 (S "shot_type") (h3 newRoot).kids
  (pass3Heap h3 sh, newRoot, pr.2)

/-- Heap payload of a parsed JSON object. -/
inductive JNode where
  | jnull
  | jbool (b : Bool)
  | jnum (n : Int)
  | jstr (s : Str)
  | jarr (ids : List Nat)
  | jobj (fields : List (Str × Nat))

/-- A JSON object heap. -/
abbrev JHeap := Nat → JNode

/-- The ids a JSON node points at. -/
def JNode.kids : JNode → List Nat
  | .jarr ids => ids
  | .jobj fields => fields.map (·.2)
  | _ => []

/-- Read the pure values of a list of ids back out of the heap. -/
def readJList : Nat → JHeap → List Nat → Option (List Json)
  | 0, _, _ => none
  | _ + 1, _, [] => some []
  | fuel + 1, h, i :: is =>
    match
      (match h i with
       | .jnull => some Json.null
       | .jbool b => some (Json.bool b)
       | .jnum n => some (Json.num n)
       | .jstr s => some (Json.str s)
       | .jarr ids => (readJList fuel h ids).map Json.arr
       | .jobj fields =>
         (readJList fuel h (fields.map (·.2))).map fun vs =>
           Json.obj ((fields.map (·.1)).zip vs)),
      readJList fuel h is with
    | some v, some rest => some (v :: rest)
    | _, _ => none

/-- Read one JSON value back out of the heap. -/
def readJ (fuel : Nat) (h : JHeap) (i : Nat) : Option Json :=
  match readJList fuel h [i] with
  | some [v] => some v
  | _ => none

/-- The fresh structurally-equal graph built by `json.loads(json.dumps x)`:
allocate a fresh id per node in document order. -/
def copyJList : Nat → JHeap → List Nat → Nat → JHeap × List Nat × Nat
  | 0, h, _, fresh => (h, [], fresh)
  | _ + 1, h, [], fresh => (h, [], fresh)
  | fuel + 1, h, i :: is, fresh =>
    let pr : JHeap × Nat :=
      match h i with
      | .jarr ids =>
        let c := copyJList fuel h ids (fresh + 1)
        (upd c.1 fresh (.jarr c.2.1), c.2.2)
      | .jobj fields =>
        let c := copyJList fuel h (fields.map (fun kv => kv.2)) (fresh + 1)
        (upd c.1 fresh (.jobj ((fields.map (fun kv => kv.1)).zip c.2.1)), c.2.2)
      | nd => (upd h fresh nd, fresh + 1)
    let pr2 := copyJList fuel pr.1 is pr.2
    (pr2.1, fresh :: pr2.2.1, pr2.2.2)

/-- `insKV` over id-valued fields (Python dict assignment). -/
def insKVN : List (Str × Nat) → Str → Nat → List (Str × Nat)
  | [], k, v => [(k, v)]
  | (k', v') :: rest, k, v =>
    if k' == k then (k', v) :: rest else (k', v') :: insKVN rest k v

/-- Heap-level `"offensive_player" in item["parameters"]` (`true`/`false`,
or a `TypeError`). -/
def pyInHeap (h : JHeap) (key : Str) (i : Nat) : Except Unit Bool :=
  match h i with
  | .jobj fields => .ok (fields.any (fun kv => kv.1 == key))
  | .jarr ids =>
    .ok (ids.any (fun c => match h c with | .jstr s => s == key | _ => false))
  | .jstr s => .ok (subStr key s)
  | _ => .error ()

/-- Dict lookup over id-valued fields. -/
def lookupN : List (Str × Nat) → Str → Option Nat
  | [], _ => none
  | (k', v') :: rest, k => if k' == k then some v' else lookupN rest k

/-- The list-branch loop of `modify_json` on the heap: mutate each dict
item in place (allocating the two literal string objects fresh); a
`TypeError` aborts the loop, leaving the writes performed so far. -/
def jitemsLoop : JHeap → List Nat → Nat → JHeap × Nat
  | h, [], fresh => (h, fresh)
  | h, i :: is, fresh =>
    match h i with
    | .jobj fs =>
      let h1 := upd h fresh (.jstr USER_QUERY)
      let h2 := upd h1 (fresh + 1) (.jstr (S "Something"))
      let fs2 := insKVN (insKVN fs (S "user_query") fresh) (S "new") (fresh + 1)
      let h3 := upd h2 i (.jobj fs2)
      match lookupN fs2 (S "parameters") with
      | none => jitemsLoop h3 is (fresh + 2)
      | some pid =>
        match pyInHeap h3 (S "offensive_player") pid with
        | .error _ => (h3, fresh + 2)
        | .ok true =>
          match h3 pid with
          | .jobj pf =>
            let h4 := upd h3 pid
              (.jobj (pf.filter (fun kv => !(kv.1 == S "offensive_player"))))
            jitemsLoop h4 is (fresh + 2)
          | _ => (h3, fresh + 2)
        | .ok false => jitemsLoop h3 is (fresh + 2)
    | _ => jitemsLoop h is fresh

/-- Heap-level `modify_json`: the `None` short-circuit, the fresh
round-trip copy, then the in-place edits on the copy. -/
def modify_json_heap (h : JHeap) (root fresh fuel : Nat) : JHeap × Nat × Nat :=
  match h root with
  | .jnull => (h, root, fresh)
  | _ =>
    let c := copyJList fuel h [root] fresh
    let newRoot := fresh
    let h1 := c.1
    match h1 newRoot with
    | .jarr ids =>
      let pr := jitemsLoop h1 ids c.2.2
      (pr.1, newRoot, pr.2)
    | .jobj fs =>
      let h2 := upd h1 c.2.2 (.jstr (S "This is a new value"))
      let fs1 := insKVN fs (S "new_field") c.2.2
      let fs2 :=
        if fs1.any (fun kv => kv.1 == S "to_delete")
        then fs1.filter (fun kv => !(kv.1 == S "to_delete")) else fs1
      (upd h2 newRoot (.jobj fs2), newRoot, c.2.2 + 1)
    | _ => (h1, newRoot, c.2.2)


/-! ### Frame lemmas: the transforms never write below the allocation
bound, so the original object graph is untouched. -/

/-- `deepcopy` writes only at fresh ids: the heap below `fresh` is
untouched, the next free id only grows, the returned ids are fresh, and
closure of the high region is preserved. -/
def copyX_frame : ∀ (fuel : Nat) (h : XHeap) (is : List Nat) (fresh : Nat),
    (∀ j, j < fresh → (copyXForest fuel h is fresh).1 j = h j) ∧
      fresh ≤ (copyXForest fuel h is fresh).2.2 ∧
      (∀ c, c ∈ (copyXForest fuel h is fresh).2.1 → fresh ≤ c) ∧
      (∀ m, m ≤ fresh → (∀ i, m ≤ i → ∀ c ∈ (h i).kids, m ≤ c) →
        (∀ i, m ≤ i → ∀ c ∈ ((copyXForest fuel h is fresh).1 i).kids, m ≤ c)) := by
  intro fuel
  induction fuel with
  | zero =>
    intro h is fresh
    exact ⟨fun j _ => rfl, Nat.le_refl _, fun c hc => absurd hc (List.not_mem_nil c),
      fun m _ hcl => hcl⟩
  | succ f ih =>
    intro h is fresh
    cases is with
    | nil =>
      exact ⟨fun j _ => rfl, Nat.le_refl _, fun c hc => absurd hc (List.not_mem_nil c),
        fun m _ hcl => hcl⟩
    | cons i it =>
      obtain ⟨a1, a2, a3, a4⟩ := ih h (h i).kids (fresh + 1)
      obtain ⟨b1, b2, b3, b4⟩ := ih
        (upd (copyXForest f h (h i).kids (fresh + 1)).1 fresh
          ⟨(h i).tag, (h i).attrs, (h i).text, (h i).tail,
            (copyXForest f h (h i).kids (fresh + 1)).2.1⟩)
        it (copyXForest f h (h i).kids (fresh + 1)).2.2
      rw [copyXForest]
      refine ⟨?_, ?_, ?_, ?_⟩
      · intro j hj
        show (copyXForest f _ it _).1 j = h j
        rw [b1 j (by omega)]
        show (if j = fresh then _ else (copyXForest f h (h i).kids (fresh + 1)).1 j) = h j
        rw [if_neg (by omega)]
        exact a1 j (by omega)
      · show fresh ≤ (copyXForest f _ it _).2.2
        omega
      · intro c hc
        show fresh ≤ c
        rcases List.mem_cons.mp hc with he | hm
        · omega
        · have := b3 c hm
          omega
      · intro m hm hcl
        have hcl1 : ∀ i2, m ≤ i2 →
            ∀ c ∈ ((copyXForest f h (h i).kids (fresh + 1)).1 i2).kids, m ≤ c :=
          a4 m (by omega) hcl
        have hcl2 : ∀ i2, m ≤ i2 → ∀ c ∈
            ((upd (copyXForest f h (h i).kids (fresh + 1)).1 fresh
              ⟨(h i).tag, (h i).attrs, (h i).text, (h i).tail,
                (copyXForest f h (h i).kids (fresh + 1)).2.1⟩) i2).kids, m ≤ c := by
          intro i2 hi2 c hc
          rw [upd] at hc
          by_cases hif : i2 = fresh
          · rw [if_pos hif] at hc
            have := a3 c hc
            omega
          · rw [if_neg hif] at hc
            exact hcl1 i2 hi2 c hc
        exact b4 m (by omega) hcl2

/-- `.//`-collection over a high region yields only high ids. -/
def collectTag_high : ∀ (fuel : Nat) (h : XHeap) (t : Str) (is : List Nat) (m : Nat),
    (∀ i, m ≤ i → ∀ c ∈ (h i).kids, m ≤ c) → (∀ i, i ∈ is → m ≤ i) →
    ∀ p, p ∈ collectTag fuel h t is → m ≤ p := by
  intro fuel
  induction fuel with
  | zero =>
    intro h t is m _ _ p hp
    exact absurd hp (List.not_mem_nil p)
  | succ f ih =>
    intro h t is m hcl his p hp
    cases is with
    | nil => exact absurd hp (List.not_mem_nil p)
    | cons i it =>
      rw [collectTag] at hp
      rw [List.mem_append, List.mem_append] at hp
      rcases hp with (hp | hp) | hp
      · by_cases ht : ((h i).tag == t) = true
        · rw [if_pos ht] at hp
          rcases List.mem_cons.mp hp with he | hm
          · rw [he]
            exact his i (List.mem_cons_self i it)
          · exact absurd hm (List.not_mem_nil p)
        · rw [if_neg ht] at hp
          exact absurd hp (List.not_mem_nil p)
      · exact ih h t (h i).kids m hcl
          (fun c hc => hcl i (his i (List.mem_cons_self i it)) c hc) p hp
      · exact ih h t it m hcl (fun c hc => his c (List.mem_cons_of_mem i hc)) p hp

/-- Pass 1 writes only at the collected (high) ids and keeps the high
region closed. -/
def pass1_frame : ∀ (ps : List Nat) (h : XHeap) (m : Nat),
    (∀ p, p ∈ ps → m ≤ p) →
    (∀ j, j < m → pass1Heap h ps j = h j) ∧
      ((∀ i, m ≤ i → ∀ c ∈ (h i).kids, m ≤ c) →
        (∀ i, m ≤ i → ∀ c ∈ (pass1Heap h ps i).kids, m ≤ c)) := by
  intro ps
  induction ps with
  | nil => exact fun h m _ => ⟨fun j _ => rfl, fun hcl => hcl⟩
  | cons p pt ih =>
    intro h m hps
    have hpm : m ≤ p := hps p (List.mem_cons_self p pt)
    have hstep := ih
      (upd h p { h p with kids := (h p).kids.filter (fun c => !((h c).tag == S "team_name")) })
      m (fun q hq => hps q (List.mem_cons_of_mem p hq))
    refine ⟨?_, ?_⟩
    · intro j hj
      show pass1Heap _ pt j = h j
      rw [hstep.1 j hj]
      show (if j = p then _ else h j) = h j
      rw [if_neg (by omega)]
    · intro hcl
      refine hstep.2 ?_
      intro i hi c hc
      rw [upd] at hc
      by_cases hif : i = p
      · rw [if_pos hif] at hc
        have hc2 := List.mem_of_mem_filter hc
        exact hcl p hpm c hc2
      · rw [if_neg hif] at hc
        exact hcl i hi c hc

/-- Pass 2 allocates from `fresh` and writes only at high ids. -/
def pass2_frame : ∀ (ps : List Nat) (h : XHeap) (fresh m : Nat),
    (∀ p, p ∈ ps → m ≤ p) → m ≤ fresh →
    (∀ j, j < m → (pass2Heap h ps fresh).1 j = h j) ∧
      ((∀ i, m ≤ i → ∀ c ∈ (h i).kids, m ≤ c) →
        (∀ i, m ≤ i → ∀ c ∈ ((pass2Heap h ps fresh).1 i).kids, m ≤ c)) := by
  intro ps
  induction ps with
  | nil => exact fun h fresh m _ _ => ⟨fun j _ => rfl, fun hcl => hcl⟩
  | cons p pt ih =>
    intro h fresh m hps hmf
    have hpm : m ≤ p := hps p (List.mem_cons_self p pt)
    have hstep := ih
      (upd (upd h fresh ⟨S "something", [], some (S "2"), none, []⟩) p
        { (upd h fresh ⟨S "something", [], some (S "2"), none, []⟩) p with
          kids := ((upd h fresh ⟨S "something", [], some (S "2"), none, []⟩) p).kids ++ [fresh] })
      (fresh + 1) m (fun q hq => hps q (List.mem_cons_of_mem p hq)) (by omega)
    refine ⟨?_, ?_⟩
    · intro j hj
      show (pass2Heap _ pt (fresh + 1)).1 j = h j
      rw [hstep.1 j hj]
      show (if j = p then _ else (if j = fresh then _ else h j)) = h j
      rw [if_neg (by omega), if_neg (by omega)]
    · intro hcl
      refine hstep.2 ?_
      intro i hi c hc
      rw [upd] at hc
      by_cases hip : i = p
      · rw [if_pos hip] at hc
        simp only at hc
        rw [List.mem_append] at hc
        rcases hc with hc | hc
        · rw [upd] at hc
          by_cases hpf : p = fresh
          · rw [if_pos hpf] at hc
            exact absurd hc (List.not_mem_nil c)
          · rw [if_neg hpf] at hc
            exact hcl p hpm c hc
        · rcases List.mem_cons.mp hc with he | hm
          · omega
          · exact absurd hm (List.not_mem_nil c)
      · rw [if_neg hip] at hc
        rw [upd] at hc
        by_cases hif : i = fresh
        · rw [if_pos hif] at hc
          exact absurd hc (List.not_mem_nil c)
        · rw [if_neg hif] at hc
          exact hcl i hi c hc

/-- Pass 3 writes only text fields at high ids. -/
def pass3_frame : ∀ (ss : List Nat) (h : XHeap) (m : Nat),
    (∀ p, p ∈ ss → m ≤ p) →
    (∀ j, j < m → pass3Heap h ss j = h j) ∧
      ((∀ i, m ≤ i → ∀ c ∈ (h i).kids, m ≤ c) →
        (∀ i, m ≤ i → ∀ c ∈ (pass3Heap h ss i).kids, m ≤ c)) := by
  intro ss
  induction ss with
  | nil => exact fun h m _ => ⟨fun j _ => rfl, fun hcl => hcl⟩
  | cons p pt ih =>
    intro h m hps
    have hpm : m ≤ p := hps p (List.mem_cons_self p pt)
    have hstep := ih (upd h p { h p with text := some (S "points") }) m
      (fun q hq => hps q (List.mem_cons_of_mem p hq))
    refine ⟨?_, ?_⟩
    · intro j hj
      show pass3Heap _ pt j = h j
      rw [hstep.1 j hj]
      show (if j = p then _ else h j) = h j
      rw [if_neg (by omega)]
    · intro hcl
      refine hstep.2 ?_
      intro i hi c hc
      rw [upd] at hc
      by_cases hif : i = p
      · rw [if_pos hif] at hc
        exact hcl p hpm c hc
      · rw [if_neg hif] at hc
        exact hcl i hi c hc

/-- Reading a low forest only looks at the low heap. -/
def readXForest_agree : ∀ (fuel : Nat) (h h2 : XHeap) (is : List Nat) (n : Nat),
    (∀ j, j < n → h2 j = h j) → (∀ i, i < n → ∀ c ∈ (h i).kids, c < n) →
    (∀ i, i ∈ is → i < n) →
    readXForest fuel h2 is = readXForest fuel h is := by
  intro fuel
  induction fuel with
  | zero => intro h h2 is n _ _ _; rfl
  | succ f ih =>
    intro h h2 is n hag hcl his
    cases is with
    | nil => rfl
    | cons i it =>
      have hin : i < n := his i (List.mem_cons_self i it)
      have hnode : h2 i = h i := hag i hin
      rw [readXForest, readXForest, hnode]
      rw [ih h h2 (h i).kids n hag hcl (fun c hc => hcl i hin c hc)]
      rw [ih h h2 it n hag hcl (fun c hc => his c (List.mem_cons_of_mem i hc))]

/-- The XML transform leaves every pre-existing object untouched: reading
the original root back after `modify_xml_heap` gives the original tree. -/
def modify_xml_frame : ∀ (h : XHeap) (root n fuel rf : Nat),
    (∀ i, i < n → ∀ c ∈ (h i).kids, c < n) →
    (∀ i, n ≤ i → (h i).kids = []) →
    root < n →
    readX rf (modify_xml_heap h root n fuel).1 root = readX rf h root := by
  intro h root n fuel rf hbelow habove hroot
  have hclean : ∀ i, n ≤ i → ∀ c ∈ (h i).kids, n ≤ c := by
    intro i hi c hc
    rw [habove i hi] at hc
    exact absurd hc (List.not_mem_nil c)
  obtain ⟨c1, c2, c3, c4⟩ := copyX_frame fuel h [root] n
  have hcl1 : ∀ i, n ≤ i → ∀ c ∈ ((copyXForest fuel h [root] n).1 i).kids, n ≤ c :=
    c4 n (Nat.le_refl n) hclean
  have hps1 : ∀ p, p ∈ collectTag fuel (copyXForest fuel h [root] n).1
      (S "parameters") (((copyXForest fuel h [root] n).1 n).kids) → n ≤ p :=
    collectTag_high fuel _ _ _ n hcl1 (fun c hc => hcl1 n (Nat.le_refl n) c hc)
  obtain ⟨p1a, p1b⟩ := pass1_frame _ (copyXForest fuel h [root] n).1 n hps1
  have hcl2 := p1b hcl1
  have hps2 : ∀ p, p ∈ collectTag fuel
      (pass1Heap (copyXForest fuel h [root] n).1 _) (S "parameters")
      ((pass1Heap (copyXForest fuel h [root] n).1 _ n).kids) → n ≤ p :=
    collectTag_high fuel _ _ _ n hcl2 (fun c hc => hcl2 n (Nat.le_refl n) c hc)
  obtain ⟨p2a, p2b⟩ := pass2_frame _ _ (copyXForest fuel h [root] n).2.2 n hps2 c2
  have hcl3 := p2b hcl2
  have hps3 : ∀ p, p ∈ collectTag fuel _ (S "shot_type") _ → n ≤ p :=
    collectTag_high fuel _ _ _ n hcl3 (fun c hc => hcl3 n (Nat.le_refl n) c hc)
  obtain ⟨p3a, p3b⟩ := pass3_frame _ _ n hps3
  have hagree : ∀ j, j < n → (modify_xml_heap h root n fuel).1 j = h j := by
    intro j hj
    show pass3Heap _ _ j = h j
    rw [p3a j hj, p2a j hj, p1a j hj, c1 j hj]
  rw [readX, readX]
  rw [readXForest_agree rf h (modify_xml_heap h root n fuel).1 [root] n hagree hbelow
    (by
      intro i hi
      rcases List.mem_cons.mp hi with he | hm
      · omega
      · exact absurd hm (List.not_mem_nil i))]

/-- Values of an association list after a dict insertion. -/
def insKVN_values : ∀ (fs : List (Str × Nat)) (k : Str) (v : Nat) (w : Nat),
    w ∈ (insKVN fs k v).map (fun kv => kv.2) →
    w ∈ fs.map (fun kv => kv.2) ∨ w = v := by
  intro fs k v
  induction fs with
  | nil =>
    intro w hw
    rw [insKVN] at hw
    rcases List.mem_map.mp hw with ⟨kv, hkv, he⟩
    rcases List.mem_cons.mp hkv with he2 | hm
    · right
      rw [he2] at he
      exact he.symm
    · exact absurd hm (List.not_mem_nil kv)
  | cons g gt ih =>
    intro w hw
    obtain ⟨k0, v0⟩ := g
    rw [insKVN] at hw
    by_cases hk : (k0 == k) = true
    · rw [if_pos hk] at hw
      rcases List.mem_map.mp hw with ⟨kv, hkv, he⟩
      rcases List.mem_cons.mp hkv with he2 | hm
      · right
        rw [he2] at he
        exact he.symm
      · left
        rw [List.map_cons]
        exact List.mem_cons_of_mem _ (he ▸ List.mem_map_of_mem _ hm)
    · rw [if_neg hk] at hw
      rcases List.mem_map.mp hw with ⟨kv, hkv, he⟩
      rcases List.mem_cons.mp hkv with he2 | hm
      · left
        rw [he2] at he
        rw [List.map_cons]
        rw [← he]
        exact List.mem_cons_self _ _
      · rcases ih w (he ▸ List.mem_map_of_mem _ hm) with h1 | h1
        · left
          rw [List.map_cons]
          exact List.mem_cons_of_mem _ h1
        · exact Or.inr h1

/-- A successful dict lookup returns one of the stored values. -/
def lookupN_mem : ∀ (fs : List (Str × Nat)) (k : Str) (v : Nat),
    lookupN fs k = some v → v ∈ fs.map (fun kv => kv.2) := by
  intro fs k
  induction fs with
  | nil =>
    intro v hv
    exact absurd hv (by rw [lookupN]; intro hc; cases hc)
  | cons g gt ih =>
    intro v hv
    obtain ⟨k0, v0⟩ := g
    rw [lookupN] at hv
    by_cases hk : (k0 == k) = true
    · rw [if_pos hk] at hv
      injection hv with he
      rw [List.map_cons, ← he]
      exact List.mem_cons_self _ _
    · rw [if_neg hk] at hv
      rw [List.map_cons]
      exact List.mem_cons_of_mem _ (ih v hv)

/-- The zipped values of an object copy come from the copied id list. -/
def zip_snd_sub : ∀ (as : List Str) (bs : List Nat) (c : Nat),
    c ∈ (as.zip bs).map (fun kv => kv.2) → c ∈ bs := by
  intro as bs c hc
  rcases List.mem_map.mp hc with ⟨kv, hkv, he⟩
  have := List.mem_zip hkv
  rw [← he]
  exact this.2

/-- `copyJList` writes only at fresh ids and keeps the high region
closed. -/
def copyJ_frame : ∀ (fuel : Nat) (h : JHeap) (is : List Nat) (fresh : Nat),
    (∀ j, j < fresh → (copyJList fuel h is fresh).1 j = h j) ∧
      fresh ≤ (copyJList fuel h is fresh).2.2 ∧
      (∀ c, c ∈ (copyJList fuel h is fresh).2.1 → fresh ≤ c) ∧
      (∀ m, m ≤ fresh → (∀ i, m ≤ i → ∀ c ∈ (h i).kids, m ≤ c) →
        (∀ i, m ≤ i → ∀ c ∈ ((copyJList fuel h is fresh).1 i).kids, m ≤ c)) := by
  intro fuel
  induction fuel with
  | zero =>
    intro h is fresh
    exact ⟨fun j _ => rfl, Nat.le_refl _, fun c hc => absurd hc (List.not_mem_nil c),
      fun m _ hcl => hcl⟩
  | succ f ih =>
    intro h is fresh
    cases is with
    | nil =>
      exact ⟨fun j _ => rfl, Nat.le_refl _, fun c hc => absurd hc (List.not_mem_nil c),
        fun m _ hcl => hcl⟩
    | cons i it =>
      have hpr : ∀ (hh : JHeap) (nx : Nat),
          (∀ j, j < fresh → hh j = h j) → fresh + 1 ≤ nx →
          (∀ m, m ≤ fresh → (∀ i2, m ≤ i2 → ∀ c ∈ (h i2).kids, m ≤ c) →
            (∀ i2, m ≤ i2 → ∀ c ∈ (hh i2).kids, m ≤ c)) →
          (∀ j, j < fresh → (copyJList f hh it nx).1 j = h j) ∧
            fresh ≤ (copyJList f hh it nx).2.2 ∧
            (∀ c, c ∈ fresh :: (copyJList f hh it nx).2.1 → fresh ≤ c) ∧
            (∀ m, m ≤ fresh → (∀ i2, m ≤ i2 → ∀ c ∈ (h i2).kids, m ≤ c) →
              (∀ i2, m ≤ i2 → ∀ c ∈ ((copyJList f hh it nx).1 i2).kids, m ≤ c)) := by
        intro hh nx hfr hnx hcl
        obtain ⟨b1, b2, b3, b4⟩ := ih hh it nx
        refine ⟨?_, by omega, ?_, ?_⟩
        · intro j hj
          rw [b1 j (by omega)]
          exact hfr j hj
        · intro c hc
          rcases List.mem_cons.mp hc with he | hm
          · omega
          · have := b3 c hm
            omega
        · intro m hm hcl0
          exact b4 m (by omega) (hcl m hm hcl0)
      rw [copyJList]
      cases hnode : h i with
      | jarr ids =>
        obtain ⟨a1, a2, a3, a4⟩ := ih h ids (fresh + 1)
        refine hpr
          (upd (copyJList f h ids (fresh + 1)).1 fresh
            (.jarr (copyJList f h ids (fresh + 1)).2.1))
          (copyJList f h ids (fresh + 1)).2.2 ?_ (by omega) ?_
        · intro j hj
          rw [upd, if_neg (by omega)]
          exact a1 j (by omega)
        · intro m hm hcl0 i2 hi2 c hc
          rw [upd] at hc
          by_cases hif : i2 = fresh
          · rw [if_pos hif] at hc
            have := a3 c hc
            omega
          · rw [if_neg hif] at hc
            exact a4 m (by omega) hcl0 i2 hi2 c hc
      | jobj fields =>
        obtain ⟨a1, a2, a3, a4⟩ := ih h (fields.map (fun kv => kv.2)) (fresh + 1)
        refine hpr
          (upd (copyJList f h (fields.map (fun kv => kv.2)) (fresh + 1)).1 fresh
            (.jobj ((fields.map (fun kv => kv.1)).zip
              (copyJList f h (fields.map (fun kv => kv.2)) (fresh + 1)).2.1)))
          (copyJList f h (fields.map (fun kv => kv.2)) (fresh + 1)).2.2 ?_ (by omega) ?_
        · intro j hj
          rw [upd, if_neg (by omega)]
          exact a1 j (by omega)
        · intro m hm hcl0 i2 hi2 c hc
          rw [upd] at hc
          by_cases hif : i2 = fresh
          · rw [if_pos hif] at hc
            have hsub := zip_snd_sub (fields.map (fun kv => kv.1))
              (copyJList f h (fields.map (fun kv => kv.2)) (fresh + 1)).2.1 c hc
            have := a3 c hsub
            omega
          · rw [if_neg hif] at hc
            exact a4 m (by omega) hcl0 i2 hi2 c hc
      | jnull =>
        refine hpr (upd h fresh JNode.jnull) (fresh + 1) ?_ (Nat.le_refl _) ?_
        · intro j hj
          rw [upd, if_neg (by omega)]
        · intro m hm hcl0 i2 hi2 c hc
          rw [upd] at hc
          by_cases hif : i2 = fresh
          · rw [if_pos hif] at hc
            exact absurd hc (List.not_mem_nil c)
          · rw [if_neg hif] at hc
            exact hcl0 i2 hi2 c hc
      | jbool b0 =>
        refine hpr (upd h fresh (JNode.jbool b0)) (fresh + 1) ?_ (Nat.le_refl _) ?_
        · intro j hj
          rw [upd, if_neg (by omega)]
        · intro m hm hcl0 i2 hi2 c hc
          rw [upd] at hc
          by_cases hif : i2 = fresh
          · rw [if_pos hif] at hc
            exact absurd hc (List.not_mem_nil c)
          · rw [if_neg hif] at hc
            exact hcl0 i2 hi2 c hc
      | jnum n0 =>
        refine hpr (upd h fresh (JNode.jnum n0)) (fresh + 1) ?_ (Nat.le_refl _) ?_
        · intro j hj
          rw [upd, if_neg (by omega)]
        · intro m hm hcl0 i2 hi2 c hc
          rw [upd] at hc
          by_cases hif : i2 = fresh
          · rw [if_pos hif] at hc
            exact absurd hc (List.not_mem_nil c)
          · rw [if_neg hif] at hc
            exact hcl0 i2 hi2 c hc
      | jstr s0 =>
        refine hpr (upd h fresh (JNode.jstr s0)) (fresh + 1) ?_ (Nat.le_refl _) ?_
        · intro j hj
          rw [upd, if_neg (by omega)]
        · intro m hm hcl0 i2 hi2 c hc
          rw [upd] at hc
          by_cases hif : i2 = fresh
          · rw [if_pos hif] at hc
            exact absurd hc (List.not_mem_nil c)
          · rw [if_neg hif] at hc
            exact hcl0 i2 hi2 c hc

/-- The heap after the three in-place writes of one loop iteration of the
list branch of `modify_json`. -/
def jstep (h : JHeap) (i fresh : Nat) (fs : List (Str × Nat)) : JHeap :=
  upd (upd (upd h fresh (.jstr USER_QUERY)) (fresh + 1) (.jstr (S "Something"))) i
    (.jobj (insKVN (insKVN fs (S "user_query") fresh) (S "new") (fresh + 1)))

/-- The list-branch loop writes only at high ids, so the heap below the
bound is untouched — whether or not a `TypeError` aborts the loop. -/
def jitemsLoop_frame : ∀ (is : List Nat) (h : JHeap) (fresh m : Nat),
    (∀ p, p ∈ is → m ≤ p) → m ≤ fresh →
    (∀ i, m ≤ i → ∀ c ∈ (h i).kids, m ≤ c) →
    ∀ j, j < m → (jitemsLoop h is fresh).1 j = h j := by
  intro is
  induction is with
  | nil =>
    intro h fresh m _ _ _ j _
    rfl
  | cons i it ih =>
    intro h fresh m his hmf hcl j hj
    have him : m ≤ i := his i (List.mem_cons_self i it)
    have hit : ∀ p, p ∈ it → m ≤ p := fun p hp => his p (List.mem_cons_of_mem i hp)
    rw [jitemsLoop]
    cases hhi : h i with
    | jnull => exact ih h fresh m hit hmf hcl j hj
    | jbool b0 => exact ih h fresh m hit hmf hcl j hj
    | jnum n0 => exact ih h fresh m hit hmf hcl j hj
    | jstr s0 => exact ih h fresh m hit hmf hcl j hj
    | jarr ids => exact ih h fresh m hit hmf hcl j hj
    | jobj fs =>
      have hfs : ∀ v, v ∈ fs.map (fun kv => kv.2) → m ≤ v := by
        intro v hv
        exact hcl i him v (by rw [hhi]; exact hv)
      have hfs2 : ∀ v, v ∈ (insKVN (insKVN fs (S "user_query") fresh) (S "new")
          (fresh + 1)).map (fun kv => kv.2) → m ≤ v := by
        intro v hv
        rcases insKVN_values _ _ _ _ hv with hv1 | hv1
        · rcases insKVN_values _ _ _ _ hv1 with hv2 | hv2
          · exact hfs v hv2
          · omega
        · omega
      have hcl3 : ∀ i2, m ≤ i2 → ∀ c ∈ (jstep h i fresh fs i2).kids, m ≤ c := by
        intro i2 hi2 c hc
        rw [jstep, upd] at hc
        by_cases h1 : i2 = i
        · rw [if_pos h1] at hc
          exact hfs2 c hc
        · rw [if_neg h1, upd] at hc
          by_cases h2 : i2 = fresh + 1
          · rw [if_pos h2] at hc
            exact absurd hc (List.not_mem_nil c)
          · rw [if_neg h2, upd] at hc
            by_cases h3 : i2 = fresh
            · rw [if_pos h3] at hc
              exact absurd hc (List.not_mem_nil c)
            · rw [if_neg h3] at hc
              exact hcl i2 hi2 c hc
      have hfr3 : jstep h i fresh fs j = h j := by
        rw [jstep, upd, if_neg (by omega), upd, if_neg (by omega), upd, if_neg (by omega)]
      show (match lookupN (insKVN (insKVN fs (S "user_query") fresh) (S "new") (fresh + 1))
          (S "parameters") with
        | none => jitemsLoop (jstep h i fresh fs) it (fresh + 2)
        | some pid =>
          match pyInHeap (jstep h i fresh fs) (S "offensive_player") pid with
          | .error _ => (jstep h i fresh fs, fresh + 2)
          | .ok true =>
            match jstep h i fresh fs pid with
            | .jobj pf =>
              jitemsLoop (upd (jstep h i fresh fs) pid
                (.jobj (pf.filter (fun kv => !(kv.1 == S "offensive_player"))))) it (fresh + 2)
            | _ => (jstep h i fresh fs, fresh + 2)
          | .ok false => jitemsLoop (jstep h i fresh fs) it (fresh + 2)).1 j = h j
      cases hlk : lookupN (insKVN (insKVN fs (S "user_query") fresh) (S "new") (fresh + 1))
          (S "parameters") with
      | none =>
        show (jitemsLoop (jstep h i fresh fs) it (fresh + 2)).1 j = h j
        rw [ih (jstep h i fresh fs) (fresh + 2) m hit (by omega) hcl3 j hj]
        exact hfr3
      | some pid =>
        have hpidm : m ≤ pid := hfs2 pid (lookupN_mem _ _ _ hlk)
        show (match pyInHeap (jstep h i fresh fs) (S "offensive_player") pid with
          | .error _ => (jstep h i fresh fs, fresh + 2)
          | .ok true =>
            match jstep h i fresh fs pid with
            | .jobj pf =>
              jitemsLoop (upd (jstep h i fresh fs) pid
                (.jobj (pf.filter (fun kv => !(kv.1 == S "offensive_player"))))) it (fresh + 2)
            | _ => (jstep h i fresh fs, fresh + 2)
          | .ok false => jitemsLoop (jstep h i fresh fs) it (fresh + 2)).1 j = h j
        cases hpy : pyInHeap (jstep h i fresh fs) (S "offensive_player") pid with
        | error e => exact hfr3
        | ok b =>
          cases b with
          | false =>
            show (jitemsLoop (jstep h i fresh fs) it (fresh + 2)).1 j = h j
            rw [ih (jstep h i fresh fs) (fresh + 2) m hit (by omega) hcl3 j hj]
            exact hfr3
          | true =>
            show (match jstep h i fresh fs pid with
              | .jobj pf =>
                jitemsLoop (upd (jstep h i fresh fs) pid
                  (.jobj (pf.filter (fun kv => !(kv.1 == S "offensive_player")))))
                  it (fresh + 2)
              | _ => (jstep h i fresh fs, fresh + 2)).1 j = h j
            cases hp3 : jstep h i fresh fs pid with
            | jobj pf =>
              have hcl4 : ∀ i2, m ≤ i2 → ∀ c ∈ ((upd (jstep h i fresh fs) pid
                  (.jobj (pf.filter (fun kv => !(kv.1 == S "offensive_player"))))) i2).kids,
                  m ≤ c := by
                intro i2 hi2 c hc
                rw [upd] at hc
                by_cases h1 : i2 = pid
                · rw [if_pos h1] at hc
                  rcases List.mem_map.mp hc with ⟨kv, hkv, he⟩
                  refine hcl3 pid hpidm c ?_
                  rw [hp3]
                  rw [← he]
                  exact List.mem_map_of_mem _ (List.mem_of_mem_filter hkv)
                · rw [if_neg h1] at hc
                  exact hcl3 i2 hi2 c hc
              show (jitemsLoop (upd (jstep h i fresh fs) pid
                (.jobj (pf.filter (fun kv => !(kv.1 == S "offensive_player")))))
                it (fresh + 2)).1 j = h j
              rw [ih (upd (jstep h i fresh fs) pid
                (.jobj (pf.filter (fun kv => !(kv.1 == S "offensive_player")))))
                (fresh + 2) m hit (by omega) hcl4 j hj]
              rw [upd, if_neg (by omega)]
              exact hfr3
            | jnull => exact hfr3
            | jbool b0 => exact hfr3
            | jnum n0 => exact hfr3
            | jstr s0 => exact hfr3
            | jarr ids => exact hfr3

/-- Two heaps that agree below a closed bound read back the same values. -/
def readJList_agree : ∀ (fuel : Nat) (h h2 : JHeap) (n : Nat),
    (∀ j, j < n → h2 j = h j) →
    (∀ i, i < n → ∀ c ∈ (h i).kids, c < n) →
    ∀ is, (∀ i, i ∈ is → i < n) → readJList fuel h2 is = readJList fuel h is := by
  intro fuel
  induction fuel with
  | zero =>
    intro h h2 n _ _ is _
    rfl
  | succ f ih =>
    intro h h2 n hag hcl is his
    cases is with
    | nil => rfl
    | cons i it =>
      have hin : i < n := his i (List.mem_cons_self i it)
      have htl : ∀ p, p ∈ it → p < n := fun p hp => his p (List.mem_cons_of_mem i hp)
      rw [readJList, readJList, hag i hin]
      cases hhi : h i with
      | jnull => rw [ih h h2 n hag hcl it htl]
      | jbool b0 => rw [ih h h2 n hag hcl it htl]
      | jnum n0 => rw [ih h h2 n hag hcl it htl]
      | jstr s0 => rw [ih h h2 n hag hcl it htl]
      | jarr ids =>
        show (match (readJList f h2 ids).map Json.arr, readJList f h2 it with
            | some v, some rest => some (v :: rest)
            | _, _ => none) =
          (match (readJList f h ids).map Json.arr, readJList f h it with
            | some v, some rest => some (v :: rest)
            | _, _ => none)
        rw [ih h h2 n hag hcl ids (fun c hc => hcl i hin c (by rw [hhi]; exact hc)),
          ih h h2 n hag hcl it htl]
      | jobj fields =>
        show (match (readJList f h2 (fields.map (·.2))).map
              (fun vs => Json.obj ((fields.map (·.1)).zip vs)), readJList f h2 it with
            | some v, some rest => some (v :: rest)
            | _, _ => none) =
          (match (readJList f h (fields.map (·.2))).map
              (fun vs => Json.obj ((fields.map (·.1)).zip vs)), readJList f h it with
            | some v, some rest => some (v :: rest)
            | _, _ => none)
        rw [ih h h2 n hag hcl (fields.map (·.2))
            (fun c hc => hcl i hin c (by rw [hhi]; exact hc)),
          ih h h2 n hag hcl it htl]

/-- `modify_json` never changes the original object graph: every read of
the original root through the result heap is unchanged. -/
def modify_json_frame : ∀ (h : JHeap) (root n fuel rf : Nat),
    (∀ i, i < n → ∀ c ∈ (h i).kids, c < n) →
    (∀ i, n ≤ i → (h i).kids = []) →
    root < n →
    readJ rf (modify_json_heap h root n fuel).1 root = readJ rf h root := by
  intro h root n fuel rf hbcl habove hroot
  have hagree : ∀ j, j < n → (modify_json_heap h root n fuel).1 j = h j := by
    intro j hj
    rw [modify_json_heap]
    obtain ⟨c1, c2, c3, c4⟩ := copyJ_frame fuel h [root] n
    have habove2 : ∀ i, n ≤ i → ∀ c ∈ (h i).kids, n ≤ c := by
      intro i hi c hc
      rw [habove i hi] at hc
      exact absurd hc (List.not_mem_nil c)
    have hcl1 : ∀ i, n ≤ i → ∀ c ∈ ((copyJList fuel h [root] n).1 i).kids, n ≤ c :=
      c4 n (Nat.le_refl n) habove2
    have hbody : (match (copyJList fuel h [root] n).1 n with
        | .jarr ids =>
          ((jitemsLoop (copyJList fuel h [root] n).1 ids (copyJList fuel h [root] n).2.2).1,
            n, (jitemsLoop (copyJList fuel h [root] n).1 ids
              (copyJList fuel h [root] n).2.2).2)
        | .jobj fs =>
          (upd (upd (copyJList fuel h [root] n).1 (copyJList fuel h [root] n).2.2
            (.jstr (S "This is a new value"))) n
            (.jobj (if (insKVN fs (S "new_field") (copyJList fuel h [root] n).2.2).any
                (fun kv => kv.1 == S "to_delete")
              then (insKVN fs (S "new_field") (copyJList fuel h [root] n).2.2).filter
                (fun kv => !(kv.1 == S "to_delete"))
              else insKVN fs (S "new_field") (copyJList fuel h [root] n).2.2)),
            n, (copyJList fuel h [root] n).2.2 + 1)
        | _ => ((copyJList fuel h [root] n).1, n, (copyJList fuel h [root] n).2.2)).1 j
        = h j := by
      cases hc1n : (copyJList fuel h [root] n).1 n with
      | jarr ids =>
        show (jitemsLoop (copyJList fuel h [root] n).1 ids
          (copyJList fuel h [root] n).2.2).1 j = h j
        rw [jitemsLoop_frame ids (copyJList fuel h [root] n).1
          (copyJList fuel h [root] n).2.2 n
          (fun p hp => hcl1 n (Nat.le_refl n) p (by rw [hc1n]; exact hp)) c2 hcl1 j hj]
        exact c1 j hj
      | jobj fs =>
        have hupd : ∀ (v1 v2 : JNode),
            upd (upd (copyJList fuel h [root] n).1 (copyJList fuel h [root] n).2.2 v1)
              n v2 j = h j := by
          intro v1 v2
          rw [upd, if_neg (by omega), upd, if_neg (by omega)]
          exact c1 j hj
        exact hupd _ _
      | jnull => exact c1 j hj
      | jbool b1 => exact c1 j hj
      | jnum n1 => exact c1 j hj
      | jstr s1 => exact c1 j hj
    cases hhr : h root with
    | jnull => rfl
    | jbool b0 => exact hbody
    | jnum n0 => exact hbody
    | jstr s0 => exact hbody
    | jarr ids0 => exact hbody
    | jobj fs0 => exact hbody
  rw [readJ, readJ, readJList_agree rf h (modify_json_heap h root n fuel).1 n hagree hbcl
    [root] (fun i hi => by
      rcases List.mem_cons.mp hi with he | hm
      · rw [he]
        exact hroot
      · exact absurd hm (List.not_mem_nil i))]

end Heaps

/-! ### Proof-carrying definitions

Structural inductions over the nested tree types, stated as definitions
because their recursion mirrors the mutual functions above. -/

/-- Bridge: `everyNodeList` is `List.all` of `everyNode`. -/
def everyNodeList_eq_all (p : Xml → Bool) :
    ∀ l, everyNodeList p l = l.all (everyNode p) := by
  intro l
  induction l with
  | nil => rfl
  | cons x xs ih => simp [everyNodeList, ih]

/-- Bridge: pass 1 maps `delTeamNames` over a list. -/
def delTeamNamesList_eq : ∀ l, delTeamNamesList l = l.map delTeamNames := by
  intro l
  induction l with
  | nil => rfl
  | cons x xs ih => simp [delTeamNamesList, ih]

/-- Bridge: pass 2 maps `addSomething` over a list. -/
def addSomethingList_eq : ∀ l, addSomethingList l = l.map addSomething := by
  intro l
  induction l with
  | nil => rfl
  | cons x xs ih => simp [addSomethingList, ih]

/-- Bridge: pass 3 maps `setShotType` over a list. -/
def setShotTypeList_eq : ∀ l, setShotTypeList l = l.map setShotType := by
  intro l
  induction l with
  | nil => rfl
  | cons x xs ih => simp [setShotTypeList, ih]

/-- Pass 1 keeps every tag. -/
def tagOf_delTeamNames : ∀ x, (delTeamNames x).tagOf = x.tagOf
  | .elem _ _ _ _ _ => rfl

/-- Pass 2 keeps every tag. -/
def tagOf_addSomething : ∀ x, (addSomething x).tagOf = x.tagOf
  | .elem _ _ _ _ _ => rfl

/-- Pass 3 keeps every tag. -/
def tagOf_setShotType : ∀ x, (setShotType x).tagOf = x.tagOf
  | .elem _ _ _ _ _ => rfl

/-- A filtered list satisfies the filtering predicate everywhere. -/
def allOfFilterSelf (q : Xml → Bool) :
    ∀ l : List Xml, (l.filter q).all q = true := by
  intro l
  induction l with
  | nil => rfl
  | cons x xs ih =>
    by_cases hx : q x = true
    · simp [List.filter_cons, hx, ih]
    · simp only [List.filter_cons, Bool.not_eq_true] at hx ⊢
      simp [hx, ih]

/-- `everyNodeList` restricts along `List.filter`. -/
def everyNodeList_filter (p q : Xml → Bool) :
    ∀ l, everyNodeList p l = true → everyNodeList p (l.filter q) = true := by
  intro l
  induction l with
  | nil => intro _; rfl
  | cons x xs ih =>
    intro h
    simp only [everyNodeList, Bool.and_eq_true] at h
    by_cases hx : q x = true
    · simp [List.filter_cons, hx, everyNodeList, h.1, ih h.2]
    · simp only [Bool.not_eq_true] at hx
      simp [List.filter_cons, hx, ih h.2]

/-- `everyNodeList` splits over append. -/
def everyNodeList_append (p : Xml → Bool) :
    ∀ l1 l2, everyNodeList p (l1 ++ l2) =
      (everyNodeList p l1 && everyNodeList p l2) := by
  intro l1 l2
  induction l1 with
  | nil => simp [everyNodeList]
  | cons x xs ih => simp [everyNodeList, ih, Bool.and_assoc]

mutual
/-- After pass 1, no `parameters` node (at any depth, the node itself
included) has a direct `team_name` child. -/
def delTN_every : ∀ x, everyNode noDirectTeam (delTeamNames x) = true
  | .elem t a tx cs tl => by
    have hl := delTN_everyList cs
    by_cases ht : (t == S "parameters") = true
    · simp only [delTeamNames, ht, if_pos]
      simp only [everyNode, noDirectTeam, Xml.tagOf, Xml.childrenOf, ht,
        Bool.and_eq_true, Bool.or_eq_true]
      exact ⟨Or.inr (allOfFilterSelf _ _), everyNodeList_filter _ _ _ hl⟩
    · simp only [Bool.not_eq_true] at ht
      simp only [delTeamNames, ht, Bool.false_eq_true, if_false]
      simp only [everyNode, noDirectTeam, Xml.tagOf, Xml.childrenOf, ht,
        Bool.and_eq_true, Bool.or_eq_true]
      exact ⟨Or.inl rfl, hl⟩
/-- List form of `delTN_every`. -/
def delTN_everyList : ∀ l, everyNodeList noDirectTeam (delTeamNamesList l) = true
  | [] => rfl
  | x :: xs => by
    simp [delTeamNamesList, everyNodeList, delTN_every x, delTN_everyList xs]
end

/-- The fresh `something` element appended by pass 2. -/
def somethingElem : Xml := .elem (S "something") [] (some (S "2")) [] none

/-- Tag-based `List.all` checks transport along a tag-preserving map. -/
def all_tag_map (f : Xml → Bool) (g : Xml → Xml)
    (hg : ∀ x, (g x).tagOf = x.tagOf) (hf : ∀ x y, x.tagOf = y.tagOf → f x = f y) :
    ∀ l : List Xml, l.all f = true → (l.map g).all f = true := by
  intro l h
  rw [List.all_eq_true] at h ⊢
  intro c hc
  rcases List.mem_map.mp hc with ⟨c', hc', rfl⟩
  rw [hf (g c') c' (hg c')]
  exact h c' hc'

/-- The direct-`team_name` test only reads the tag. -/
def noTeamTest_tag : ∀ x y : Xml, x.tagOf = y.tagOf →
    (!(x.tagOf == S "team_name")) = (!(y.tagOf == S "team_name")) := by
  intro x y h
  rw [h]

mutual
/-- Pass 2 preserves the amended C1 invariant (it only appends `something`
children, which are not `team_name`). -/
def addS_pres : ∀ x, everyNode noDirectTeam x = true →
    everyNode noDirectTeam (addSomething x) = true
  | .elem t a tx cs tl => fun h => by
    simp only [everyNode, Bool.and_eq_true, Bool.or_eq_true, noDirectTeam,
      Xml.tagOf, Xml.childrenOf] at h
    simp only [addSomething, everyNode, Bool.and_eq_true, Bool.or_eq_true,
      noDirectTeam, Xml.tagOf, Xml.childrenOf]
    constructor
    · rcases h.1 with h1 | h1
      · exact Or.inl h1
      · right
        rw [List.all_append, Bool.and_eq_true]
        constructor
        · rw [addSomethingList_eq]
          exact all_tag_map _ _ tagOf_addSomething noTeamTest_tag cs h1
        · by_cases ht : (t == S "parameters") = true
          · simp only [ht, if_pos]
            decide
          · simp only [Bool.not_eq_true] at ht
            simp [ht]
    · rw [everyNodeList_append, Bool.and_eq_true]
      refine ⟨addS_presList cs h.2, ?_⟩
      by_cases ht : (t == S "parameters") = true
      · simp only [ht, if_pos]
        decide
      · simp only [Bool.not_eq_true] at ht
        simp [ht, everyNodeList]
/-- List form of `addS_pres`. -/
def addS_presList : ∀ l, everyNodeList noDirectTeam l = true →
    everyNodeList noDirectTeam (addSomethingList l) = true
  | [] => fun _ => rfl
  | x :: xs => fun h => by
    simp only [everyNodeList, Bool.and_eq_true] at h
    simp [addSomethingList, everyNodeList, addS_pres x h.1, addS_presList xs h.2]
end

mutual
/-- Pass 3 preserves the amended C1 invariant (it only edits text). -/
def setST_pres : ∀ x, everyNode noDirectTeam x = true →
    everyNode noDirectTeam (setShotType x) = true
  | .elem t a tx cs tl => fun h => by
    simp only [everyNode, Bool.and_eq_true, Bool.or_eq_true, noDirectTeam,
      Xml.tagOf, Xml.childrenOf] at h
    simp only [setShotType, everyNode, Bool.and_eq_true, Bool.or_eq_true,
      noDirectTeam, Xml.tagOf, Xml.childrenOf]
    constructor
    · rcases h.1 with h1 | h1
      · exact Or.inl h1
      · right
        rw [setShotTypeList_eq]
        exact all_tag_map _ _ tagOf_setShotType noTeamTest_tag cs h1
    · exact setST_presList cs h.2
/-- List form of `setST_pres`. -/
def setST_presList : ∀ l, everyNodeList noDirectTeam l = true →
    everyNodeList noDirectTeam (setShotTypeList l) = true
  | [] => fun _ => rfl
  | x :: xs => fun h => by
    simp only [everyNodeList, Bool.and_eq_true] at h
    simp [setShotTypeList, everyNodeList, setST_pres x h.1, setST_presList xs h.2]
end

/-- Pass 3 keeps the text of every non-`shot_type` element. -/
def textOf_setShotType : ∀ x, (setShotType x).textOf =
    (if x.tagOf == S "shot_type" then some (S "points") else x.textOf)
  | .elem _ _ _ _ _ => rfl

/-- A generic `List.all` survives filtering. -/
def all_filter_of_all (p q : Xml → Bool) :
    ∀ l : List Xml, l.all p = true → (l.filter q).all p = true := by
  intro l h
  rw [List.all_eq_true] at h ⊢
  intro c hc
  exact h c (List.mem_of_mem_filter hc)

/-- `everyNode` unfolded at a constructor. -/
def everyNode_elem (p : Xml → Bool) (t : Str) (a : List (Str × Str))
    (tx : Option Str) (cs : List Xml) (tl : Option Str) :
    everyNode p (.elem t a tx cs tl) =
      (p (.elem t a tx cs tl) && everyNodeList p cs) := rfl

/-- `paramsHasSomething2` unfolded at a constructor. -/
def paramsHasSomething2_elem (t : Str) (a : List (Str × Str)) (tx : Option Str)
    (cs : List Xml) (tl : Option Str) :
    paramsHasSomething2 (.elem t a tx cs tl) =
      (!(t == S "parameters") ||
        cs.any (fun c => c.tagOf == S "something" && c.textOf == some (S "2"))) := rfl

/-- `paramsOneSomething` unfolded at a constructor. -/
def paramsOneSomething_elem (t : Str) (a : List (Str × Str)) (tx : Option Str)
    (cs : List Xml) (tl : Option Str) :
    paramsOneSomething (.elem t a tx cs tl) =
      (!(t == S "parameters") ||
        (cs.countP (fun c => c.tagOf == S "something") == 1)) := rfl

/-- `noSomethingChild` unfolded at a constructor. -/
def noSomethingChild_elem (t : Str) (a : List (Str × Str)) (tx : Option Str)
    (cs : List Xml) (tl : Option Str) :
    noSomethingChild (.elem t a tx cs tl) =
      cs.all (fun c => !(c.tagOf == S "something")) := rfl

/-- `setShotType` unfolded at a constructor. -/
def setShotType_elem (t : Str) (a : List (Str × Str)) (tx : Option Str)
    (cs : List Xml) (tl : Option Str) :
    setShotType (.elem t a tx cs tl) =
      .elem t a (if t == S "shot_type" then some (S "points") else tx)
        (setShotTypeList cs) tl := rfl

/-- `addSomething` unfolded at a constructor. -/
def addSomething_elem (t : Str) (a : List (Str × Str)) (tx : Option Str)
    (cs : List Xml) (tl : Option Str) :
    addSomething (.elem t a tx cs tl) =
      .elem t a tx
        (addSomethingList cs ++
          (if t == S "parameters" then [Xml.elem (S "something") [] (some (S "2")) [] none]
           else [])) tl := rfl

/-- `delTeamNames` unfolded at a constructor. -/
def delTeamNames_elem (t : Str) (a : List (Str × Str)) (tx : Option Str)
    (cs : List Xml) (tl : Option Str) :
    delTeamNames (.elem t a tx cs tl) =
      .elem t a tx
        (if t == S "parameters"
         then (delTeamNamesList cs).filter (fun c => !(c.tagOf == S "team_name"))
         else delTeamNamesList cs) tl := rfl

mutual
/-- After pass 2, every `parameters` node (at any depth) has a `something`
child with text "2". -/
def addS_has : ∀ x, everyNode paramsHasSomething2 (addSomething x) = true
  | .elem t a tx cs tl => by
    rw [addSomething_elem, everyNode_elem, Bool.and_eq_true,
      paramsHasSomething2_elem, Bool.or_eq_true]
    constructor
    · by_cases ht : (t == S "parameters") = true
      · right
        rw [List.any_append, Bool.or_eq_true]
        right
        simp only [ht, if_true]
        decide
      · left
        simp only [Bool.not_eq_true] at ht
        simp [ht]
    · rw [everyNodeList_append, Bool.and_eq_true]
      refine ⟨addS_hasList cs, ?_⟩
      by_cases ht : (t == S "parameters") = true
      · simp only [ht, if_true]
        decide
      · simp only [Bool.not_eq_true] at ht
        simp only [ht, Bool.false_eq_true, if_false]
        rfl
/-- List form of `addS_has`. -/
def addS_hasList : ∀ l, everyNodeList paramsHasSomething2 (addSomethingList l) = true
  | [] => rfl
  | x :: xs => by
    simp [addSomethingList, everyNodeList, addS_has x, addS_hasList xs]
end

mutual
/-- Pass 3 preserves `paramsHasSomething2` everywhere (tags are kept and
`something` elements keep their text). -/
def setST_has : ∀ x, everyNode paramsHasSomething2 x = true →
    everyNode paramsHasSomething2 (setShotType x) = true
  | .elem t a tx cs tl => fun h => by
    rw [everyNode_elem, Bool.and_eq_true, paramsHasSomething2_elem,
      Bool.or_eq_true] at h
    rw [setShotType_elem, everyNode_elem, Bool.and_eq_true,
      paramsHasSomething2_elem, Bool.or_eq_true]
    constructor
    · rcases h.1 with h1 | h1
      · exact Or.inl h1
      · right
        rw [setShotTypeList_eq, List.any_eq_true]
        rw [List.any_eq_true] at h1
        rcases h1 with ⟨c, hc, hq⟩
        rw [Bool.and_eq_true] at hq
        refine ⟨setShotType c, List.mem_map_of_mem _ hc, ?_⟩
        rw [Bool.and_eq_true, tagOf_setShotType, textOf_setShotType]
        refine ⟨hq.1, ?_⟩
        have hcond : (c.tagOf == S "shot_type") = false := by
          rw [beq_iff_eq.mp hq.1]
          decide
        rw [hcond]
        simp only [Bool.false_eq_true, if_false]
        exact hq.2
    · exact setST_hasList cs h.2
/-- List form of `setST_has`. -/
def setST_hasList : ∀ l, everyNodeList paramsHasSomething2 l = true →
    everyNodeList paramsHasSomething2 (setShotTypeList l) = true
  | [] => fun _ => rfl
  | x :: xs => fun h => by
    simp only [everyNodeList, Bool.and_eq_true] at h
    simp [setShotTypeList, everyNodeList, setST_has x h.1, setST_hasList xs h.2]
end

mutual
/-- Pass 1 preserves `noSomethingChild` everywhere (it only removes
children). -/
def delTN_noSome : ∀ x, everyNode noSomethingChild x = true →
    everyNode noSomethingChild (delTeamNames x) = true
  | .elem t a tx cs tl => fun h => by
    rw [everyNode_elem, Bool.and_eq_true, noSomethingChild_elem] at h
    rw [delTeamNames_elem, everyNode_elem, Bool.and_eq_true,
      noSomethingChild_elem]
    have hmap : (delTeamNamesList cs).all (fun c => !(c.tagOf == S "something")) = true := by
      rw [delTeamNamesList_eq]
      exact all_tag_map _ _ tagOf_delTeamNames (fun x y hxy => by rw [hxy]) cs h.1
    have hlist := delTN_noSomeList cs h.2
    by_cases ht : (t == S "parameters") = true
    · simp only [ht, if_true]
      exact ⟨all_filter_of_all _ _ _ hmap, everyNodeList_filter _ _ _ hlist⟩
    · simp only [Bool.not_eq_true] at ht
      simp only [ht, Bool.false_eq_true, if_false]
      exact ⟨hmap, hlist⟩
/-- List form of `delTN_noSome`. -/
def delTN_noSomeList : ∀ l, everyNodeList noSomethingChild l = true →
    everyNodeList noSomethingChild (delTeamNamesList l) = true
  | [] => fun _ => rfl
  | x :: xs => fun h => by
    simp only [everyNodeList, Bool.and_eq_true] at h
    simp [delTeamNamesList, everyNodeList, delTN_noSome x h.1, delTN_noSomeList xs h.2]
end

mutual
/-- Pass 2 on a tree without `something` children gives every `parameters`
node exactly one `something` child. -/
def addS_one : ∀ x, everyNode noSomethingChild x = true →
    everyNode paramsOneSomething (addSomething x) = true
  | .elem t a tx cs tl => fun h => by
    rw [everyNode_elem, Bool.and_eq_true, noSomethingChild_elem] at h
    rw [addSomething_elem, everyNode_elem, Bool.and_eq_true,
      paramsOneSomething_elem, Bool.or_eq_true]
    constructor
    · by_cases ht : (t == S "parameters") = true
      · right
        rw [List.countP_append]
        have h0 : (addSomethingList cs).countP (fun c => c.tagOf == S "something") = 0 := by
          rw [List.countP_eq_zero]
          intro c hc
          rw [addSomethingList_eq] at hc
          rcases List.mem_map.mp hc with ⟨c', hc', rfl⟩
          rw [List.all_eq_true] at h
          have hcc := h.1 c' hc'
          rw [Bool.not_eq_true'] at hcc
          rw [tagOf_addSomething, hcc]
          decide
        rw [h0, ht]
        simp only [if_true]
        decide
      · left
        simp only [Bool.not_eq_true] at ht
        simp [ht]
    · rw [everyNodeList_append, Bool.and_eq_true]
      refine ⟨addS_oneList cs h.2, ?_⟩
      by_cases ht : (t == S "parameters") = true
      · simp only [ht, if_true]
        decide
      · simp only [Bool.not_eq_true] at ht
        simp only [ht, Bool.false_eq_true, if_false]
        rfl
/-- List form of `addS_one`. -/
def addS_oneList : ∀ l, everyNodeList noSomethingChild l = true →
    everyNodeList paramsOneSomething (addSomethingList l) = true
  | [] => fun _ => rfl
  | x :: xs => fun h => by
    simp only [everyNodeList, Bool.and_eq_true] at h
    simp [addSomethingList, everyNodeList, addS_one x h.1, addS_oneList xs h.2]
end

mutual
/-- Pass 3 preserves `paramsOneSomething` everywhere (tags and hence the
`something` count are kept). -/
def setST_one : ∀ x, everyNode paramsOneSomething x = true →
    everyNode paramsOneSomething (setShotType x) = true
  | .elem t a tx cs tl => fun h => by
    rw [everyNode_elem, Bool.and_eq_true, paramsOneSomething_elem,
      Bool.or_eq_true] at h
    rw [setShotType_elem, everyNode_elem, Bool.and_eq_true,
      paramsOneSomething_elem, Bool.or_eq_true]
    constructor
    · rcases h.1 with h1 | h1
      · exact Or.inl h1
      · right
        rw [setShotTypeList_eq, List.countP_map]
        have hco : ∀ c ∈ cs, (((fun c => c.tagOf == S "something") ∘ setShotType) c = true ↔
            (fun c : Xml => c.tagOf == S "something") c = true) := by
          intro c _
          simp only [Function.comp]
          rw [tagOf_setShotType]
        rw [List.countP_congr hco]
        exact h1
    · exact setST_oneList cs h.2
/-- List form of `setST_one`. -/
def setST_oneList : ∀ l, everyNodeList paramsOneSomething l = true →
    everyNodeList paramsOneSomething (setShotTypeList l) = true
  | [] => fun _ => rfl
  | x :: xs => fun h => by
    simp only [everyNodeList, Bool.and_eq_true] at h
    simp [setShotTypeList, everyNodeList, setST_one x h.1, setST_oneList xs h.2]
end

/-! ### Decimal printing inverts decimal parsing -/

/-- The fuel-driven digit printer agrees with its specification. -/
def natToCharsAux_eq : ∀ fuel n acc, n < fuel →
    natToCharsAux fuel n acc = digitsSpec n ++ acc := by
  intro fuel
  induction fuel with
  | zero => intro n acc h; exact absurd h (Nat.not_lt_zero n)
  | succ f ih =>
    intro n acc h
    simp only [natToCharsAux]
    by_cases h10 : n < 10
    · rw [if_pos h10]
      rw [digitsSpec, dif_pos h10]
      rfl
    · rw [if_neg h10]
      have hdiv : n / 10 < f := by
        have h1 : n / 10 < n := Nat.div_lt_self (by omega) (by omega)
        omega
      rw [ih (n / 10) _ hdiv]
      conv_rhs => rw [digitsSpec]
      rw [dif_neg h10, List.append_assoc]
      rfl

/-- `natToChars` is `digitsSpec`. -/
def natToChars_eq : ∀ n, natToChars n = digitsSpec n := by
  intro n
  rw [natToChars, natToCharsAux_eq (n + 1) n [] (Nat.lt_succ_self n),
    List.append_nil]

/-- The code point of a digit character. -/
def digitChar_toNat : ∀ d, d < 10 → (digitChar d).toNat = 48 + d := by
  intro d h
  interval_cases d <;> decide

/-- Digit characters pass `isDig`. -/
def isDig_digitChar : ∀ d, d < 10 → isDig (digitChar d) = true := by
  intro d h
  interval_cases d <;> decide

/-- Every character of `digitsSpec` is a digit. -/
def digitsSpec_digits : ∀ n, (digitsSpec n).all isDig = true := by
  intro n
  induction n using Nat.strong_induction_on with
  | _ n ih =>
    rw [digitsSpec]
    by_cases h : n < 10
    · rw [dif_pos h]
      simp [isDig_digitChar n h]
    · rw [dif_neg h]
      rw [List.all_append]
      have h1 := ih (n / 10) (Nat.div_lt_self (by omega) (by omega))
      have h2 := isDig_digitChar (n % 10) (Nat.mod_lt n (by omega))
      simp [h1, h2]

/-- `digitsSpec` starts with a digit character, nonzero when `n` is. -/
def digitsSpec_head : ∀ n, ∃ d r, digitsSpec n = digitChar d :: r ∧ d < 10 ∧
    (0 < n → 0 < d) := by
  intro n
  induction n using Nat.strong_induction_on with
  | _ n ih =>
    rw [digitsSpec]
    by_cases h : n < 10
    · rw [dif_pos h]
      exact ⟨n, [], rfl, h, fun hn => hn⟩
    · rw [dif_neg h]
      rcases ih (n / 10) (Nat.div_lt_self (by omega) (by omega)) with ⟨d, r, he, hd, hz⟩
      refine ⟨d, r ++ [digitChar (n % 10)], by rw [he]; rfl, hd, fun _ => ?_⟩
      exact hz (by omega)

/-- Folding the printed digits recovers the number. -/
def digitsSpec_foldl : ∀ n acc,
    (digitsSpec n).foldl (fun a c => a * 10 + (c.toNat - 48)) acc =
      acc * 10 ^ (digitsSpec n).length + n := by
  intro n
  induction n using Nat.strong_induction_on with
  | _ n ih =>
    intro acc
    rw [digitsSpec]
    by_cases h : n < 10
    · rw [dif_pos h]
      simp [digitChar_toNat n h]
    · rw [dif_neg h]
      rw [List.foldl_append, ih (n / 10) (Nat.div_lt_self (by omega) (by omega)) acc]
      simp only [List.foldl_cons, List.foldl_nil, List.length_append,
        List.length_cons, List.length_nil]
      rw [digitChar_toNat (n % 10) (Nat.mod_lt n (by omega))]
      have hp : 10 ^ ((digitsSpec (n / 10)).length + (0 + 1)) =
          10 ^ (digitsSpec (n / 10)).length * 10 := by ring
      rw [hp, ← Nat.mul_assoc]
      generalize acc * 10 ^ (digitsSpec (n / 10)).length = M
      omega

/-- `takeWhile` passes over a satisfying block. -/
def takeWhile_all_append (p : Char → Bool) :
    ∀ (r rest : Str), r.all p = true →
      (r ++ rest).takeWhile p = r ++ rest.takeWhile p := by
  intro r rest h
  induction r with
  | nil => simp
  | cons c cs ih =>
    rw [List.all_cons, Bool.and_eq_true] at h
    simp [List.takeWhile_cons, h.1, ih h.2]

/-- `dropWhile` passes over a satisfying block. -/
def dropWhile_all_append (p : Char → Bool) :
    ∀ (r rest : Str), r.all p = true →
      (r ++ rest).dropWhile p = rest.dropWhile p := by
  intro r rest h
  induction r with
  | nil => simp
  | cons c cs ih =>
    rw [List.all_cons, Bool.and_eq_true] at h
    simp [List.dropWhile_cons, h.1, ih h.2]

/-- The continuations a printed value is followed by, inside a document. -/
def delim_head_not_dig : ∀ rest, delimOKB rest = true →
    rest.takeWhile isDig = [] ∧ rest.dropWhile isDig = rest := by
  intro rest h
  cases rest with
  | nil => exact ⟨rfl, rfl⟩
  | cons c r =>
    simp only [delimOKB, Bool.or_eq_true, beq_iff_eq] at h
    have : isDig c = false := by
      rcases h with ((h | h) | h) | h <;> subst h <;> decide
    simp [List.takeWhile_cons, List.dropWhile_cons, this]

/-- Parsing the printed digits of `n` recovers `n`. -/
def parseNat_natToChars : ∀ n rest, delimOKB rest = true →
    parseNat (natToChars n ++ rest) = some (n, rest) := by
  intro n rest hrest
  rw [natToChars_eq]
  rcases digitsSpec_head n with ⟨d, r, he, hd, hz⟩
  by_cases h0 : n = 0
  · subst h0
    have : digitsSpec 0 = ['0'] := by rw [digitsSpec]; rfl
    rw [this]
    simp only [List.cons_append, List.nil_append, parseNat]
    rw [if_pos (by decide)]
  · rw [he, List.cons_append]
    have hdigits : (digitChar d :: r).all isDig = true := by rw [← he]; exact digitsSpec_digits n
    rw [List.all_cons, Bool.and_eq_true] at hdigits
    have hdpos : 0 < d := hz (by omega)
    have hne : (digitChar d == '0') = false := by
      rw [beq_eq_false_iff_ne]
      intro hcontra
      have := digitChar_toNat d hd
      rw [hcontra] at this
      simp only [Char.reduceToNat] at this
      omega
    simp only [parseNat]
    rw [if_neg (by rw [hne]; exact Bool.false_ne_true), if_pos (isDig_digitChar d hd)]
    rw [takeWhile_all_append isDig r rest hdigits.2,
      dropWhile_all_append isDig r rest hdigits.2,
      (delim_head_not_dig rest hrest).1, (delim_head_not_dig rest hrest).2,
      List.append_nil]
    have hfold := digitsSpec_foldl n 0
    rw [he] at hfold
    simp only [Nat.zero_mul, Nat.zero_add] at hfold
    rw [hfold]

/-- Parsing the printed integer recovers it (numbers never continue into a
float in printed output, and the delimiter check passes). -/
def parseJNum_intRepr : ∀ (i : Int) rest, delimOKB rest = true →
    parseJNum (intRepr i ++ rest) = some (i, rest) := by
  intro i rest hrest
  have hint : parseIntJ (intRepr i ++ rest) = some (i, rest) := by
    cases i with
    | ofNat n =>
      rcases digitsSpec_head n with ⟨d, r, he, hd, _⟩
      have hc : natToChars n = digitChar d :: r := by rw [natToChars_eq, he]
      have hcm : (digitChar d == '-') = false := by
        rw [beq_eq_false_iff_ne]
        intro hcontra
        have h48 := digitChar_toNat d hd
        rw [hcontra] at h48
        have h0 : ('-' : Char).toNat = 45 := rfl
        omega
      simp only [intRepr]
      rw [hc, List.cons_append]
      simp only [parseIntJ]
      rw [if_neg (by rw [hcm]; exact Bool.false_ne_true), ← List.cons_append, ← hc,
        parseNat_natToChars n rest hrest]
      rfl
    | negSucc m =>
      simp only [intRepr, List.cons_append, parseIntJ]
      rw [if_pos (by decide), parseNat_natToChars (m + 1) rest hrest]
      have hns : -((m + 1 : Nat) : Int) = Int.negSucc m := by
        rw [Int.negSucc_eq]
        push_cast
        ring
      show some (-((m + 1 : Nat) : Int), rest) = some (Int.negSucc m, rest)
      rw [hns]
  rw [parseJNum, hint]
  cases rest with
  | nil => rfl
  | cons c r =>
    simp only [delimOKB, Bool.or_eq_true, beq_iff_eq] at hrest
    have hnd : (c == '.' || c == 'e' || c == 'E') = false := by
      rcases hrest with ((h | h) | h) | h <;> subst h <;> decide
    show (if (c == '.' || c == 'e' || c == 'E') = true then none
        else some (i, c :: r)) = some (i, c :: r)
    rw [if_neg (by rw [hnd]; exact Bool.false_ne_true)]

/-! ### String-literal printing inverts string parsing -/

/-- A `Char`'s code point is never a surrogate. -/
def char_not_surrogate : ∀ c : Char, c.toNat < 0xd800 ∨ 0xe000 ≤ c.toNat := by
  intro c
  have h := c.valid
  unfold UInt32.isValidChar Nat.isValidChar at h
  have he : c.toNat = c.val.toNat := rfl
  rcases h with h | h
  · left
    omega
  · right
    omega

/-- A `Char`'s code point is below `0x110000`. -/
def char_lt_110000 : ∀ c : Char, c.toNat < 0x110000 := by
  intro c
  have h := c.valid
  unfold UInt32.isValidChar Nat.isValidChar at h
  have he : c.toNat = c.val.toNat := rfl
  rcases h with h | h
  · omega
  · omega

/-- Hex digit print/parse inversion. -/
def hexVal_hexDigitChar : ∀ d, d < 16 → hexVal (hexDigitChar d) = some d := by
  intro d h
  interval_cases d <;> decide

/-- Four-digit hex print/parse inversion. -/
def hex4Val_hex4 : ∀ n rest, n < 0x10000 → hex4Val (hex4 n ++ rest) = some (n, rest) := by
  intro n rest h
  show hex4Val (hexDigitChar (n / 4096 % 16) :: hexDigitChar (n / 256 % 16) ::
    hexDigitChar (n / 16 % 16) :: hexDigitChar (n % 16) :: rest) = some (n, rest)
  simp only [hex4Val]
  rw [hexVal_hexDigitChar (n / 4096 % 16) (Nat.mod_lt _ (by omega)),
    hexVal_hexDigitChar (n / 256 % 16) (Nat.mod_lt _ (by omega)),
    hexVal_hexDigitChar (n / 16 % 16) (Nat.mod_lt _ (by omega)),
    hexVal_hexDigitChar (n % 16) (Nat.mod_lt _ (by omega))]
  have harith : n / 4096 % 16 * 4096 + n / 256 % 16 * 256 + n / 16 % 16 * 16 + n % 16 = n := by
    omega
  show some (n / 4096 % 16 * 4096 + n / 256 % 16 * 256 + n / 16 % 16 * 16 + n % 16, rest) =
    some (n, rest)
  rw [harith]

/-- Parsing a printed `\uXXXX` escape (single, non-surrogate form). -/
def parseUEsc_print1 : ∀ (c : Char) (tail : Str), c.toNat < 0x10000 →
    parseUEsc (hex4 c.toNat ++ tail) = some (c, tail) := by
  intro c tail h
  simp only [parseUEsc]
  rw [hex4Val_hex4 c.toNat tail h]
  show (if c.toNat < 0xd800 ∨ 0xe000 ≤ c.toNat then some (Char.ofNat c.toNat, tail)
    else if c.toNat < 0xdc00 then _ else none) = some (c, tail)
  rw [if_pos (char_not_surrogate c), Char.ofNat_toNat]

/-- `parseUEsc` on a well-formed surrogate pair (stated over an abstract
input whose two hex groups are given by hypotheses). -/
def parseUEsc_pair : ∀ (s r2 tail : Str) (hi lo : Nat),
    hex4Val s = some (hi, '\\' :: 'u' :: r2) → hex4Val r2 = some (lo, tail) →
    0xd800 ≤ hi → hi < 0xdc00 → 0xdc00 ≤ lo → lo < 0xe000 →
    parseUEsc s =
      some (Char.ofNat (0x10000 + (hi - 0xd800) * 0x400 + (lo - 0xdc00)), tail) := by
  intro s r2 tail hi lo h1 h2 hb1 hb2 hb3 hb4
  simp only [parseUEsc]
  rw [h1]
  show (if hi < 0xd800 ∨ 0xe000 ≤ hi then some (Char.ofNat hi, '\\' :: 'u' :: r2)
    else if hi < 0xdc00 then _ else none) =
    some (Char.ofNat (0x10000 + (hi - 0xd800) * 0x400 + (lo - 0xdc00)), tail)
  rw [if_neg (by omega), if_pos (by omega)]
  show (match hex4Val r2 with
    | some (m, r3) =>
      if 0xdc00 ≤ m ∧ m < 0xe000 then
        some (Char.ofNat (0x10000 + (hi - 0xd800) * 0x400 + (m - 0xdc00)), r3)
      else none
    | none => none) =
    some (Char.ofNat (0x10000 + (hi - 0xd800) * 0x400 + (lo - 0xdc00)), tail)
  rw [h2]
  show (if 0xdc00 ≤ lo ∧ lo < 0xe000 then
      some (Char.ofNat (0x10000 + (hi - 0xd800) * 0x400 + (lo - 0xdc00)), tail)
    else none) = _
  rw [if_pos (by omega)]

/-- Parsing a printed surrogate-pair escape. -/
def parseUEsc_print2 : ∀ (c : Char) (tail : Str), 0x10000 ≤ c.toNat →
    parseUEsc (hex4 (0xd800 + (c.toNat - 0x10000) / 0x400) ++
      ('\\' :: 'u' :: (hex4 (0xdc00 + (c.toNat - 0x10000) % 0x400) ++ tail))) =
      some (c, tail) := by
  intro c tail h
  have hlt := char_lt_110000 c
  have hq : (c.toNat - 0x10000) / 0x400 < 0x400 := by omega
  have hm : (c.toNat - 0x10000) % 0x400 < 0x400 := Nat.mod_lt _ (by omega)
  have hp := parseUEsc_pair
    (hex4 (0xd800 + (c.toNat - 0x10000) / 0x400) ++
      ('\\' :: 'u' :: (hex4 (0xdc00 + (c.toNat - 0x10000) % 0x400) ++ tail)))
    (hex4 (0xdc00 + (c.toNat - 0x10000) % 0x400) ++ tail) tail
    (0xd800 + (c.toNat - 0x10000) / 0x400) (0xdc00 + (c.toNat - 0x10000) % 0x400)
    (hex4Val_hex4 _ _ (by omega)) (hex4Val_hex4 _ _ (by omega))
    (by omega) (by omega) (by omega) (by omega)
  rw [hp]
  have hval : 0x10000 + (0xd800 + (c.toNat - 0x10000) / 0x400 - 0xd800) * 0x400 +
      (0xdc00 + (c.toNat - 0x10000) % 0x400 - 0xdc00) = c.toNat := by
    have := Nat.div_add_mod (c.toNat - 0x10000) 0x400
    omega
  rw [hval, Char.ofNat_toNat]

/-- `jstrBody` steps through a `\uXXXX` escape whose body parses. -/
def jstrBody_u : ∀ (f : Nat) (r2 r3 s' rest : Str) (ch : Char),
    parseUEsc r2 = some (ch, r3) → jstrBody f r3 = some (s', rest) →
    jstrBody (f + 1) ('\\' :: 'u' :: r2) = some (ch :: s', rest) := by
  intro f r2 r3 s' rest ch h1 h2
  simp only [jstrBody]
  rw [if_neg (by decide), if_pos (by decide)]
  show (match parseUEsc r2 with
    | some (ch, r3) =>
      match jstrBody f r3 with
      | some (s, rest) => some (ch :: s, rest)
      | none => none
    | none => none) = some (ch :: s', rest)
  rw [h1]
  show (match jstrBody f r3 with
    | some (s, rest) => some (ch :: s, rest)
    | none => none) = some (ch :: s', rest)
  rw [h2]

/-- One escaped character steps through `jstrBody`. -/
def jstrBody_step : ∀ (c : Char) (tail : Str) (f : Nat) (s' rest : Str),
    jstrBody f tail = some (s', rest) →
    jstrBody (f + 1) (escJChar c ++ tail) = some (c :: s', rest) := by
  intro c tail f s' rest h
  rw [escJChar]
  by_cases b1 : (c == '"') = true
  · rw [if_pos b1, beq_iff_eq.mp b1]
    simp only [List.cons_append, List.nil_append, jstrBody]
    rw [if_neg (by decide), if_pos (by decide)]
    show (match jsonEscChar '"' with
      | some ch => match jstrBody f tail with
        | some (s, rest) => some (ch :: s, rest)
        | none => none
      | none => none) = some ('"' :: s', rest)
    rw [show jsonEscChar '"' = some '"' from rfl, h]
  rw [if_neg b1]
  by_cases b2 : (c == '\\') = true
  · rw [if_pos b2, beq_iff_eq.mp b2]
    simp only [List.cons_append, List.nil_append, jstrBody]
    rw [if_neg (by decide), if_pos (by decide)]
    show (match jsonEscChar '\\' with
      | some ch => match jstrBody f tail with
        | some (s, rest) => some (ch :: s, rest)
        | none => none
      | none => none) = some ('\\' :: s', rest)
    rw [show jsonEscChar '\\' = some '\\' from rfl, h]
  rw [if_neg b2]
  by_cases b3 : (c == '\n') = true
  · rw [if_pos b3, beq_iff_eq.mp b3]
    simp only [List.cons_append, List.nil_append, jstrBody]
    rw [if_neg (by decide), if_pos (by decide)]
    show (match jsonEscChar 'n' with
      | some ch => match jstrBody f tail with
        | some (s, rest) => some (ch :: s, rest)
        | none => none
      | none => none) = some ('\n' :: s', rest)
    rw [show jsonEscChar 'n' = some '\n' from rfl, h]
  rw [if_neg b3]
  by_cases b4 : (c == '\r') = true
  · rw [if_pos b4, beq_iff_eq.mp b4]
    simp only [List.cons_append, List.nil_append, jstrBody]
    rw [if_neg (by decide), if_pos (by decide)]
    show (match jsonEscChar 'r' with
      | some ch => match jstrBody f tail with
        | some (s, rest) => some (ch :: s, rest)
        | none => none
      | none => none) = some ('\r' :: s', rest)
    rw [show jsonEscChar 'r' = some '\r' from rfl, h]
  rw [if_neg b4]
  by_cases b5 : (c == '\t') = true
  · rw [if_pos b5, beq_iff_eq.mp b5]
    simp only [List.cons_append, List.nil_append, jstrBody]
    rw [if_neg (by decide), if_pos (by decide)]
    show (match jsonEscChar 't' with
      | some ch => match jstrBody f tail with
        | some (s, rest) => some (ch :: s, rest)
        | none => none
      | none => none) = some ('\t' :: s', rest)
    rw [show jsonEscChar 't' = some '\t' from rfl, h]
  rw [if_neg b5]
  by_cases b6 : (c == '\x08') = true
  · rw [if_pos b6, beq_iff_eq.mp b6]
    simp only [List.cons_append, List.nil_append, jstrBody]
    rw [if_neg (by decide), if_pos (by decide)]
    show (match jsonEscChar 'b' with
      | some ch => match jstrBody f tail with
        | some (s, rest) => some (ch :: s, rest)
        | none => none
      | none => none) = some ('\x08' :: s', rest)
    rw [show jsonEscChar 'b' = some '\x08' from rfl, h]
  rw [if_neg b6]
  by_cases b7 : (c == '\x0c') = true
  · rw [if_pos b7, beq_iff_eq.mp b7]
    simp only [List.cons_append, List.nil_append, jstrBody]
    rw [if_neg (by decide), if_pos (by decide)]
    show (match jsonEscChar 'f' with
      | some ch => match jstrBody f tail with
        | some (s, rest) => some (ch :: s, rest)
        | none => none
      | none => none) = some ('\x0c' :: s', rest)
    rw [show jsonEscChar 'f' = some '\x0c' from rfl, h]
  rw [if_neg b7]
  by_cases b8 : 0x20 ≤ c.toNat ∧ c.toNat ≤ 0x7e
  · rw [if_pos b8]
    simp only [List.cons_append, List.nil_append, jstrBody]
    rw [if_neg (by rw [Bool.not_eq_true] at b1; rw [b1]; exact Bool.false_ne_true),
      if_neg (by rw [Bool.not_eq_true] at b2; rw [b2]; exact Bool.false_ne_true),
      if_neg (by omega)]
    show (match jstrBody f tail with
      | some (s, rest) => some (c :: s, rest)
      | none => none) = some (c :: s', rest)
    rw [h]
  rw [if_neg b8]
  by_cases b9 : c.toNat < 0x10000
  · rw [if_pos b9]
    simp only [List.cons_append, List.nil_append, List.append_assoc]
    exact jstrBody_u f (hex4 c.toNat ++ tail) tail s' rest c
      (parseUEsc_print1 c tail b9) h
  · rw [if_neg b9]
    simp only [List.cons_append, List.nil_append, List.append_assoc]
    exact jstrBody_u f
      (hex4 (0xd800 + (c.toNat - 0x10000) / 0x400) ++
        ('\\' :: 'u' :: (hex4 (0xdc00 + (c.toNat - 0x10000) % 0x400) ++ tail)))
      tail s' rest c (parseUEsc_print2 c tail (by omega)) h

/-- Parsing the printed string body recovers the string. -/
def jstrBody_escBody : ∀ (s : Str) (rest : Str) (fuel : Nat), s.length < fuel →
    jstrBody fuel (escBody s ++ ('"' :: rest)) = some (s, rest) := by
  intro s
  induction s with
  | nil =>
    intro rest fuel h
    cases fuel with
    | zero => omega
    | succ f =>
      show jstrBody (f + 1) ('"' :: rest) = some ([], rest)
      simp only [jstrBody]
      rw [if_pos (by decide)]
  | cons c s' ih =>
    intro rest fuel h
    cases fuel with
    | zero => omega
    | succ f =>
      have hrec := ih rest f (by simpa using Nat.lt_of_succ_lt_succ h)
      show jstrBody (f + 1) ((escJChar c ++ escBody s') ++ ('"' :: rest)) =
        some (c :: s', rest)
      rw [List.append_assoc]
      exact jstrBody_step c (escBody s' ++ ('"' :: rest)) f s' rest hrec

/-- `quoteJ` in terms of `escBody`. -/
def quoteJ_eq : ∀ s, quoteJ s = '"' :: (escBody s ++ ['"']) := by
  intro s
  rw [quoteJ, escBody]
  congr 1
  induction s with
  | nil => rfl
  | cons c s' ih => simp only [List.foldr_cons, ih, List.append_assoc]

/-- Escaping never shrinks a string. -/
def escBody_len : ∀ s : Str, s.length ≤ (escBody s).length := by
  intro s
  induction s with
  | nil => simp [escBody]
  | cons c s' ih =>
    have h1 : 1 ≤ (escJChar c).length := by
      rw [escJChar]
      split_ifs <;> simp [hex4]
    show (c :: s').length ≤ (escJChar c ++ escBody s').length
    rw [List.length_append, List.length_cons]
    omega

/-! ### Whitespace, head-character and layout lemmas for the round-trip -/

/-- Characters with different code points are `==`-distinct. -/
def beq_false_of_toNat : ∀ c d : Char, c.toNat ≠ d.toNat → (c == d) = false := by
  intro c d h
  cases hb : c == d with
  | false => rfl
  | true => exact absurd (congrArg Char.toNat (beq_iff_eq.mp hb)) h

/-- `skipWs` drops a whitespace head. -/
def skipWs_cons_ws : ∀ c s, jsonWsChar c = true → skipWs (c :: s) = skipWs s := by
  intro c s h
  simp [skipWs, List.dropWhile_cons, h]

/-- `skipWs` stops at a non-whitespace head. -/
def skipWs_cons_nonws : ∀ c s, jsonWsChar c = false → skipWs (c :: s) = c :: s := by
  intro c s h
  simp [skipWs, List.dropWhile_cons, h]

/-- `skipWs` eats any run of spaces. -/
def skipWs_replicate_sp : ∀ m s, skipWs (List.replicate m ' ' ++ s) = skipWs s := by
  intro m
  induction m with
  | zero => intro s; rfl
  | succ k ih =>
    intro s
    rw [List.replicate_succ, List.cons_append, skipWs_cons_ws _ _ (by decide)]
    exact ih s

/-- `skipWs` eats a printed indentation block. -/
def skipWs_indentN : ∀ k s, skipWs (indentN k ++ s) = skipWs s := by
  intro k s
  rw [indentN]
  exact skipWs_replicate_sp (2 * k) s

/-- The first character of a printed integer is a minus sign or a digit. -/
def intRepr_head : ∀ i : Int, ∃ c cs, intRepr i = c :: cs ∧
    (c = '-' ∨ (48 ≤ c.toNat ∧ c.toNat ≤ 57)) := by
  intro i
  cases i with
  | ofNat n =>
    rcases digitsSpec_head n with ⟨d, r, he, hd, _⟩
    refine ⟨digitChar d, r, ?_, Or.inr ?_⟩
    · show natToChars n = _
      rw [natToChars_eq, he]
    · rw [digitChar_toNat d hd]
      omega
  | negSucc m => exact ⟨'-', natToChars (m + 1), rfl, Or.inl rfl⟩

/-- A number's head character is none of the parser's dispatch characters. -/
def numHead_facts : ∀ c : Char, (c = '-' ∨ (48 ≤ c.toNat ∧ c.toNat ≤ 57)) →
    jsonWsChar c = false ∧ (c == '"') = false ∧ (c == '\x7b') = false ∧
    (c == '[') = false ∧ (c == ']') = false ∧ (c == '\x7d') = false ∧
    (c == 'n') = false ∧ (c == 't') = false ∧ (c == 'f') = false := by
  intro c h
  rcases h with h | h
  · subst h
    decide
  · obtain ⟨h1, h2⟩ := h
    refine ⟨?_, ?_, ?_, ?_, ?_, ?_, ?_, ?_, ?_⟩
    · simp only [jsonWsChar]
      rw [beq_false_of_toNat c ' ' (by have hv : (' ' : Char).toNat = 32 := rfl; omega),
        beq_false_of_toNat c '\t' (by have hv : ('\t' : Char).toNat = 9 := rfl; omega),
        beq_false_of_toNat c '\n' (by have hv : ('\n' : Char).toNat = 10 := rfl; omega),
        beq_false_of_toNat c '\r' (by have hv : ('\x0d' : Char).toNat = 13 := rfl; omega)]
      rfl
    · exact beq_false_of_toNat c '"' (by have hv : ('"' : Char).toNat = 34 := rfl; omega)
    · exact beq_false_of_toNat c '\x7b'
        (by have hv : ('\x7b' : Char).toNat = 123 := rfl; omega)
    · exact beq_false_of_toNat c '[' (by have hv : ('[' : Char).toNat = 91 := rfl; omega)
    · exact beq_false_of_toNat c ']' (by have hv : (']' : Char).toNat = 93 := rfl; omega)
    · exact beq_false_of_toNat c '\x7d'
        (by have hv : ('\x7d' : Char).toNat = 125 := rfl; omega)
    · exact beq_false_of_toNat c 'n' (by have hv : ('n' : Char).toNat = 110 := rfl; omega)
    · exact beq_false_of_toNat c 't' (by have hv : ('t' : Char).toNat = 116 := rfl; omega)
    · exact beq_false_of_toNat c 'f' (by have hv : ('f' : Char).toNat = 102 := rfl; omega)

/-- Every printed value starts with a non-whitespace character that is
neither a closing bracket nor a closing brace. -/
def jdump_head : ∀ (d : Nat) (v : Json), ∃ c cs, jdump d v = c :: cs ∧
    jsonWsChar c = false ∧ (c == ']') = false ∧ (c == '\x7d') = false := by
  intro d v
  cases v with
  | null => exact ⟨'n', S "ull", rfl, by decide, by decide, by decide⟩
  | bool b =>
    cases b with
    | true => exact ⟨'t', S "rue", rfl, by decide, by decide, by decide⟩
    | false => exact ⟨'f', S "alse", rfl, by decide, by decide, by decide⟩
  | num n =>
    rcases intRepr_head n with ⟨c, cs, he, hp⟩
    obtain ⟨w1, _, _, _, w5, w6, _, _, _⟩ := numHead_facts c hp
    exact ⟨c, cs, he, w1, w5, w6⟩
  | str s => exact ⟨'"', _, rfl, by decide, by decide, by decide⟩
  | arr items =>
    cases items with
    | nil => exact ⟨'[', [']'], rfl, by decide, by decide, by decide⟩
    | cons x xs => exact ⟨'[', _, rfl, by decide, by decide, by decide⟩
  | obj fs =>
    cases fs with
    | nil => exact ⟨'\x7b', ['\x7d'], rfl, by decide, by decide, by decide⟩
    | cons f fs' => exact ⟨'\x7b', _, rfl, by decide, by decide, by decide⟩

/-- `skipWs` is the identity in front of a printed value. -/
def skipWs_jdump : ∀ d v t, skipWs (jdump d v ++ t) = jdump d v ++ t := by
  intro d v t
  rcases jdump_head d v with ⟨c, cs, he, hw, _, _⟩
  rw [he, List.cons_append, skipWs_cons_nonws _ _ hw]

/-- The item block of a non-empty array: first item plus `itemsTail`. -/
def jdumpItems_eq : ∀ (d : Nat) (x : Json) (xs : List Json),
    jdumpItems d (x :: xs) = (indentN d ++ jdump d x) ++ itemsTail d xs := by
  intro d x xs
  induction xs generalizing x with
  | nil => simp [jdumpItems, itemsTail]
  | cons y ys ih =>
    show (indentN d ++ jdump d x) ++ ',' :: '\n' :: jdumpItems d (y :: ys) = _
    rw [ih y, itemsTail]

/-- The member block of a non-empty object: first member plus `fieldsTail`. -/
def jdumpFields_eq : ∀ (d : Nat) (k : Str) (v : Json) (gs : List (Str × Json)),
    jdumpFields d ((k, v) :: gs) =
      (indentN d ++ (quoteJ k ++ ':' :: ' ' :: jdump d v)) ++ fieldsTail d gs := by
  intro d k v gs
  induction gs generalizing k v with
  | nil => simp [jdumpFields, fieldsTail]
  | cons g gs' ih =>
    obtain ⟨k', v'⟩ := g
    show (indentN d ++ (quoteJ k ++ ':' :: ' ' :: jdump d v)) ++
      ',' :: '\n' :: jdumpFields d ((k', v') :: gs') = _
    rw [ih k' v', fieldsTail]

/-- Inserting a fresh key appends it at the end (Python dict insertion). -/
def insKV_append : ∀ (acc : List (Str × Json)) (k : Str) (v : Json),
    acc.all (fun kv => !(kv.1 == k)) = true → insKV acc k v = acc ++ [(k, v)] := by
  intro acc k v h
  induction acc with
  | nil => rfl
  | cons kv0 t ih =>
    obtain ⟨k0, v0⟩ := kv0
    rw [List.all_cons, Bool.and_eq_true] at h
    obtain ⟨h1, h2⟩ := h
    have hne : (k0 == k) = false := by
      cases hb : k0 == k with
      | false => rfl
      | true =>
        rw [show ((k0, v0).1 == k) = (k0 == k) from rfl, hb] at h1
        exact absurd h1 (by decide)
    show insKV ((k0, v0) :: t) k v = _
    rw [insKV, if_neg (by rw [hne]; exact Bool.false_ne_true), ih h2]
    rfl

/-- A key placed after `acc` in a duplicate-free association list does not
occur in `acc`. -/
def keysDistinct_head : ∀ (acc : List (Str × Json)) (k : Str) (v : Json)
    (fs : List (Str × Json)), keysDistinctB (acc ++ (k, v) :: fs) = true →
    acc.all (fun kv => !(kv.1 == k)) = true := by
  intro acc k v fs h
  induction acc with
  | nil => rfl
  | cons kv0 t ih =>
    obtain ⟨k0, v0⟩ := kv0
    rw [List.cons_append, keysDistinctB] at h
    rw [Bool.and_eq_true] at h
    obtain ⟨hall, hrest⟩ := h
    rw [List.all_append, Bool.and_eq_true] at hall
    have hk : (!(k == k0)) = true := by
      have hthis := hall.2
      rw [List.all_cons, Bool.and_eq_true] at hthis
      exact hthis.1
    have hkf : (k == k0) = false := by
      cases hb : k == k0 with
      | false => rfl
      | true => rw [hb] at hk; exact absurd hk (by decide)
    have hk0f : (k0 == k) = false := by
      cases hb : k0 == k with
      | false => rfl
      | true =>
        rw [beq_iff_eq.mp hb] at hkf
        rw [beq_self_eq_true] at hkf
        exact absurd hkf (by decide)
    rw [List.all_cons, Bool.and_eq_true]
    refine ⟨?_, ih hrest⟩
    rw [show ((k0, v0).1 == k) = (k0 == k) from rfl, hk0f]
    rfl

/-! ### The printed size bounds the parser fuel -/

mutual
/-- The printed form of a value is at least as long as its fuel measure. -/
def jsizeLe : ∀ (v : Json) (d : Nat), jsize v ≤ (jdump d v).length
  | .null, _ => by simp [jsize, jdump, S]
  | .bool true, _ => by simp [jsize, jdump, S]
  | .bool false, _ => by simp [jsize, jdump, S]
  | .num n, _ => by
    rcases intRepr_head n with ⟨c, cs, he, _⟩
    show 1 ≤ (intRepr n).length
    rw [he]
    simp
  | .str s, _ => by
    show 1 ≤ (quoteJ s).length
    rw [quoteJ]
    simp
  | .arr [], _ => by simp [jsize, jsizeItems, jdump, S]
  | .arr (x :: xs), d => by
    have h := jsizeItemsLe (x :: xs) (d + 1)
    show 1 + jsizeItems (x :: xs) ≤ _
    simp only [jdump, List.length_cons, List.length_append, indentN,
      List.length_replicate]
    omega
  | .obj [], _ => by simp [jsize, jsizeFields, jdump, S]
  | .obj (f :: fs), d => by
    have h := jsizeFieldsLe (f :: fs) (d + 1)
    show 1 + jsizeFields (f :: fs) ≤ _
    simp only [jdump, List.length_cons, List.length_append, indentN,
      List.length_replicate]
    omega
/-- Fuel bound for a printed item block (the two enclosing bracket/newline
characters supply the missing two units). -/
def jsizeItemsLe : ∀ (xs : List Json) (d : Nat),
    jsizeItems xs ≤ (jdumpItems d xs).length + 2
  | [], _ => by simp [jsizeItems, jdumpItems]
  | [x], d => by
    have h := jsizeLe x d
    show 1 + jsize x + jsizeItems [] ≤ _
    simp only [jsizeItems, jdumpItems, List.length_append, indentN,
      List.length_replicate]
    omega
  | x :: y :: ys, d => by
    have h1 := jsizeLe x d
    have h2 := jsizeItemsLe (y :: ys) d
    show 1 + jsize x + jsizeItems (y :: ys) ≤ _
    simp only [jdumpItems, List.length_append, List.length_cons, indentN,
      List.length_replicate] at h2 ⊢
    omega
/-- Fuel bound for a printed member block. -/
def jsizeFieldsLe : ∀ (fs : List (Str × Json)) (d : Nat),
    jsizeFields fs ≤ (jdumpFields d fs).length + 2
  | [], _ => by simp [jsizeFields, jdumpFields]
  | [(k, v)], d => by
    have h := jsizeLe v d
    show 1 + jsize v + jsizeFields [] ≤ _
    simp only [jsizeFields, jdumpFields, List.length_append, List.length_cons,
      indentN, List.length_replicate]
    omega
  | (k, v) :: g :: gs, d => by
    have h1 := jsizeLe v d
    have h2 := jsizeFieldsLe (g :: gs) d
    show 1 + jsize v + jsizeFields (g :: gs) ≤ _
    simp only [jdumpFields, List.length_append, List.length_cons, indentN,
      List.length_replicate] at h2 ⊢
    omega
end

/-! ### The JSON print/parse round-trip -/

/-- A string starts with itself, whatever follows. -/
def startsWithL_append : ∀ p t : Str, startsWithL (p ++ t) p = true := by
  intro p
  induction p with
  | nil => intro t; simp [startsWithL]
  | cons c cs ih =>
    intro t
    show ((c == c) && startsWithL (cs ++ t) cs) = true
    rw [beq_self_eq_true, ih t]
    rfl

/-- A head mismatch refutes `startsWithL`. -/
def startsWithL_head_ne : ∀ (c : Char) (r : Str) (p : Char) (ps : Str),
    (c == p) = false → startsWithL (c :: r) (p :: ps) = false := by
  intro c r p ps h
  show ((c == p) && startsWithL r ps) = false
  rw [h]
  rfl

/-- Every value has positive fuel measure. -/
def jsize_pos : ∀ v : Json, 1 ≤ jsize v := by
  intro v
  cases v <;> simp [jsize]

/-- Every item list has positive fuel measure. -/
def jsizeItems_pos : ∀ xs : List Json, 1 ≤ jsizeItems xs := by
  intro xs
  cases xs <;> simp only [jsizeItems] <;> omega

/-- Every member list has positive fuel measure. -/
def jsizeFields_pos : ∀ fs : List (Str × Json), 1 ≤ jsizeFields fs := by
  intro fs
  cases fs with
  | nil => simp [jsizeFields]
  | cons g gs =>
    obtain ⟨k, v⟩ := g
    simp only [jsizeFields]
    omega

/-- `parseItems` when the value is followed by the closing bracket. -/
def parseItems_last : ∀ (f : Nat) (x : Json) (W T rest : Str) (acc : List Json),
    parseValue f W = some (x, T) → skipWs T = ']' :: rest →
    parseItems (f + 1) W acc = some (.arr (acc ++ [x]), rest) := by
  intro f x W T rest acc h1 h2
  simp only [parseItems]
  rw [h1]
  show (match skipWs T with
    | ',' :: r2 => parseItems f (skipWs r2) (acc ++ [x])
    | ']' :: r2 => some (.arr (acc ++ [x]), r2)
    | _ => none) = some (.arr (acc ++ [x]), rest)
  rw [h2]
  rfl

/-- `parseItems` when the value is followed by a comma. -/
def parseItems_more : ∀ (f : Nat) (x : Json) (W T R2 : Str) (acc : List Json)
    (out : Option (Json × Str)),
    parseValue f W = some (x, T) → skipWs T = ',' :: R2 →
    parseItems f (skipWs R2) (acc ++ [x]) = out →
    parseItems (f + 1) W acc = out := by
  intro f x W T R2 acc out h1 h2 h3
  simp only [parseItems]
  rw [h1]
  show (match skipWs T with
    | ',' :: r2 => parseItems f (skipWs r2) (acc ++ [x])
    | ']' :: r2 => some (.arr (acc ++ [x]), r2)
    | _ => none) = out
  rw [h2]
  show parseItems f (skipWs R2) (acc ++ [x]) = out
  exact h3

/-- `parseMembers` on one printed member followed by the closing brace. -/
def parseMembers_last : ∀ (f : Nat) (k : Str) (v : Json) (W T rest : Str)
    (acc : List (Str × Json)),
    parseValue f (skipWs W) = some (v, T) → skipWs T = '\x7d' :: rest →
    parseMembers (f + 1) ('"' :: (escBody k ++ ('"' :: (':' :: (' ' :: W))))) acc =
      some (.obj (insKV acc k v), rest) := by
  intro f k v W T rest acc h1 h2
  simp only [parseMembers]
  show (match jstrBody ((escBody k ++ ('"' :: (':' :: (' ' :: W)))).length + 1)
      (escBody k ++ ('"' :: (':' :: (' ' :: W)))) with
    | some (key, rest1) =>
      match skipWs rest1 with
      | ':' :: r2 =>
        match parseValue f (skipWs r2) with
        | some (w, rest2) =>
          match skipWs rest2 with
          | ',' :: r3 => parseMembers f (skipWs r3) (insKV acc key w)
          | '\x7d' :: r3 => some (.obj (insKV acc key w), r3)
          | _ => none
        | none => none
      | _ => none
    | none => none) = some (.obj (insKV acc k v), rest)
  rw [jstrBody_escBody k (':' :: (' ' :: W)) _ (by
    have hb := escBody_len k
    simp only [List.length_append, List.length_cons]
    omega)]
  show (match skipWs (':' :: (' ' :: W)) with
    | ':' :: r2 =>
      match parseValue f (skipWs r2) with
      | some (w, rest2) =>
        match skipWs rest2 with
        | ',' :: r3 => parseMembers f (skipWs r3) (insKV acc k w)
        | '\x7d' :: r3 => some (.obj (insKV acc k w), r3)
        | _ => none
      | none => none
    | _ => none) = some (.obj (insKV acc k v), rest)
  rw [skipWs_cons_nonws _ _ (by decide)]
  show (match parseValue f (skipWs (' ' :: W)) with
    | some (w, rest2) =>
      match skipWs rest2 with
      | ',' :: r3 => parseMembers f (skipWs r3) (insKV acc k w)
      | '\x7d' :: r3 => some (.obj (insKV acc k w), r3)
      | _ => none
    | none => none) = some (.obj (insKV acc k v), rest)
  rw [skipWs_cons_ws _ _ (by decide), h1]
  show (match skipWs T with
    | ',' :: r3 => parseMembers f (skipWs r3) (insKV acc k v)
    | '\x7d' :: r3 => some (.obj (insKV acc k v), r3)
    | _ => none) = some (.obj (insKV acc k v), rest)
  rw [h2]
  rfl

/-- `parseMembers` on one printed member followed by a comma. -/
def parseMembers_more : ∀ (f : Nat) (k : Str) (v : Json) (W T R3 : Str)
    (acc : List (Str × Json)) (out : Option (Json × Str)),
    parseValue f (skipWs W) = some (v, T) → skipWs T = ',' :: R3 →
    parseMembers f (skipWs R3) (insKV acc k v) = out →
    parseMembers (f + 1) ('"' :: (escBody k ++ ('"' :: (':' :: (' ' :: W))))) acc =
      out := by
  intro f k v W T R3 acc out h1 h2 h3
  simp only [parseMembers]
  show (match jstrBody ((escBody k ++ ('"' :: (':' :: (' ' :: W)))).length + 1)
      (escBody k ++ ('"' :: (':' :: (' ' :: W)))) with
    | some (key, rest1) =>
      match skipWs rest1 with
      | ':' :: r2 =>
        match parseValue f (skipWs r2) with
        | some (w, rest2) =>
          match skipWs rest2 with
          | ',' :: r3 => parseMembers f (skipWs r3) (insKV acc key w)
          | '\x7d' :: r3 => some (.obj (insKV acc key w), r3)
          | _ => none
        | none => none
      | _ => none
    | none => none) = out
  rw [jstrBody_escBody k (':' :: (' ' :: W)) _ (by
    have hb := escBody_len k
    simp only [List.length_append, List.length_cons]
    omega)]
  show (match skipWs (':' :: (' ' :: W)) with
    | ':' :: r2 =>
      match parseValue f (skipWs r2) with
      | some (w, rest2) =>
        match skipWs rest2 with
        | ',' :: r3 => parseMembers f (skipWs r3) (insKV acc k w)
        | '\x7d' :: r3 => some (.obj (insKV acc k w), r3)
        | _ => none
      | none => none
    | _ => none) = out
  rw [skipWs_cons_nonws _ _ (by decide)]
  show (match parseValue f (skipWs (' ' :: W)) with
    | some (w, rest2) =>
      match skipWs rest2 with
      | ',' :: r3 => parseMembers f (skipWs r3) (insKV acc k w)
      | '\x7d' :: r3 => some (.obj (insKV acc k w), r3)
      | _ => none
    | none => none) = out
  rw [skipWs_cons_ws _ _ (by decide), h1]
  show (match skipWs T with
    | ',' :: r3 => parseMembers f (skipWs r3) (insKV acc k v)
    | '\x7d' :: r3 => some (.obj (insKV acc k v), r3)
    | _ => none) = out
  rw [h2]
  show parseMembers f (skipWs R3) (insKV acc k v) = out
  exact h3

/-- The printed form of every well-formed value parses back to it, before
any remaining document whose head is a valid value delimiter; the three
conjuncts track `parseValue`, the array item loop and the object member
loop through the layout of `json.dumps(·, indent=2)`. -/
def rtAll : ∀ fuel : Nat,
    (∀ (v : Json) (d : Nat) (rest : Str), wfJson v = true → jsize v ≤ fuel →
      delimOKB rest = true → parseValue fuel (jdump d v ++ rest) = some (v, rest)) ∧
    (∀ (x : Json) (xs : List Json) (acc : List Json) (d : Nat) (rest : Str),
      wfJson x = true → wfJsonList xs = true → jsize x + jsizeItems xs ≤ fuel →
      delimOKB rest = true →
      parseItems fuel (jdump (d + 1) x ++ (itemsTail (d + 1) xs ++
        ('\n' :: (indentN d ++ (']' :: rest))))) acc =
        some (.arr (acc ++ x :: xs), rest)) ∧
    (∀ (k : Str) (v : Json) (fs : List (Str × Json)) (acc : List (Str × Json))
      (d : Nat) (rest : Str), wfJson v = true → wfJsonFields fs = true →
      keysDistinctB (acc ++ (k, v) :: fs) = true → jsize v + jsizeFields fs ≤ fuel →
      delimOKB rest = true →
      parseMembers fuel ('"' :: (escBody k ++ ('"' :: (':' :: (' ' ::
        (jdump (d + 1) v ++ (fieldsTail (d + 1) fs ++
          ('\n' :: (indentN d ++ ('\x7d' :: rest)))))))))) acc =
        some (.obj (acc ++ (k, v) :: fs), rest)) := by
  intro fuel
  induction fuel with
  | zero =>
    refine ⟨?_, ?_, ?_⟩
    · intro v d rest _ h2 _
      have := jsize_pos v
      omega
    · intro x xs acc d rest _ _ h3 _
      have := jsize_pos x
      have := jsizeItems_pos xs
      omega
    · intro k v fs acc d rest _ _ _ h4 _
      have := jsize_pos v
      have := jsizeFields_pos fs
      omega
  | succ f ih =>
    obtain ⟨ih1, ih2, ih3⟩ := ih
    refine ⟨?_, ?_, ?_⟩
    · -- parseValue
      intro v d rest hwf hsz hdel
      cases v with
      | null =>
        show parseValue (f + 1) ('n' :: 'u' :: 'l' :: 'l' :: rest) = some (.null, rest)
        simp only [parseValue]
        rw [if_neg (by decide), if_neg (by decide), if_neg (by decide),
          if_pos (by
            rw [show ('n' :: 'u' :: 'l' :: 'l' :: rest : Str) =
              S "null" ++ rest from rfl]
            exact startsWithL_append _ _)]
        rfl
      | bool b =>
        cases b with
        | true =>
          show parseValue (f + 1) ('t' :: 'r' :: 'u' :: 'e' :: rest) =
            some (.bool true, rest)
          simp only [parseValue]
          rw [if_neg (by decide), if_neg (by decide), if_neg (by decide),
            if_neg (by
              rw [show S "null" = 'n' :: S "ull" from rfl,
                startsWithL_head_ne 't' _ 'n' _ (by decide)]
              exact Bool.false_ne_true),
            if_pos (by
              rw [show ('t' :: 'r' :: 'u' :: 'e' :: rest : Str) =
                S "true" ++ rest from rfl]
              exact startsWithL_append _ _)]
          rfl
        | false =>
          show parseValue (f + 1) ('f' :: 'a' :: 'l' :: 's' :: 'e' :: rest) =
            some (.bool false, rest)
          simp only [parseValue]
          rw [if_neg (by decide), if_neg (by decide), if_neg (by decide),
            if_neg (by
              rw [show S "null" = 'n' :: S "ull" from rfl,
                startsWithL_head_ne 'f' _ 'n' _ (by decide)]
              exact Bool.false_ne_true),
            if_neg (by
              rw [show S "true" = 't' :: S "rue" from rfl,
                startsWithL_head_ne 'f' _ 't' _ (by decide)]
              exact Bool.false_ne_true),
            if_pos (by
              rw [show ('f' :: 'a' :: 'l' :: 's' :: 'e' :: rest : Str) =
                S "false" ++ rest from rfl]
              exact startsWithL_append _ _)]
          rfl
      | num n =>
        rcases intRepr_head n with ⟨c, cs, he, hp⟩
        obtain ⟨w1, w2, w3, w4, _, _, w7, w8, w9⟩ := numHead_facts c hp
        show parseValue (f + 1) (intRepr n ++ rest) = some (.num n, rest)
        rw [he, List.cons_append]
        simp only [parseValue]
        rw [if_neg (by rw [w2]; exact Bool.false_ne_true),
          if_neg (by rw [w3]; exact Bool.false_ne_true),
          if_neg (by rw [w4]; exact Bool.false_ne_true),
          if_neg (by
            rw [show S "null" = 'n' :: S "ull" from rfl,
              startsWithL_head_ne c _ 'n' _ w7]
            exact Bool.false_ne_true),
          if_neg (by
            rw [show S "true" = 't' :: S "rue" from rfl,
              startsWithL_head_ne c _ 't' _ w8]
            exact Bool.false_ne_true),
          if_neg (by
            rw [show S "false" = 'f' :: S "alse" from rfl,
              startsWithL_head_ne c _ 'f' _ w9]
            exact Bool.false_ne_true)]
        rw [← List.cons_append, ← he, parseJNum_intRepr n rest hdel]
      | str s =>
        show parseValue (f + 1) (quoteJ s ++ rest) = some (.str s, rest)
        rw [quoteJ_eq, List.cons_append, List.append_assoc, List.singleton_append]
        simp only [parseValue]
        rw [if_pos (by decide)]
        rw [jstrBody_escBody s rest _ (by
          have h1 := escBody_len s
          simp only [List.length_append, List.length_cons]
          omega)]
      | arr items =>
        cases items with
        | nil =>
          show parseValue (f + 1) ('[' :: ']' :: rest) = some (.arr [], rest)
          simp only [parseValue]
          rw [if_neg (by decide), if_neg (by decide), if_pos (by decide),
            skipWs_cons_nonws _ _ (by decide)]
          rfl
        | cons x xs =>
          have hwx : wfJson x = true ∧ wfJsonList xs = true := by
            have h := hwf
            rw [wfJson, wfJsonList, Bool.and_eq_true] at h
            exact h
          have hsz' : jsize x + jsizeItems xs ≤ f := by
            rw [jsize, jsizeItems] at hsz
            have := jsize_pos x
            omega
          show parseValue (f + 1)
            (('[' :: '\n' :: (jdumpItems (d + 1) (x :: xs) ++
              '\n' :: (indentN d ++ [']']))) ++ rest) = some (.arr (x :: xs), rest)
          rw [List.cons_append, List.cons_append]
          simp only [parseValue]
          rw [if_neg (by decide), if_neg (by decide), if_pos (by decide),
            skipWs_cons_ws _ _ (by decide), jdumpItems_eq]
          simp only [List.append_assoc, List.cons_append, List.nil_append]
          rw [skipWs_indentN, skipWs_jdump]
          rcases jdump_head (d + 1) x with ⟨c, cs, hhe, _, hbr, _⟩
          rw [hhe, List.cons_append]
          split
          · next r2 heq =>
            exfalso
            injection heq with h1 _
            rw [beq_eq_false_iff_ne] at hbr
            exact hbr h1
          · rw [← List.cons_append, ← hhe]
            exact ih2 x xs [] d rest hwx.1 hwx.2 hsz' hdel
      | obj fs =>
        cases fs with
        | nil =>
          show parseValue (f + 1) ('\x7b' :: '\x7d' :: rest) = some (.obj [], rest)
          simp only [parseValue]
          rw [if_neg (by decide), if_pos (by decide),
            skipWs_cons_nonws _ _ (by decide)]
          rfl
        | cons fkv fs =>
          obtain ⟨k, v⟩ := fkv
          have hsp : keysDistinctB ((k, v) :: fs) = true ∧ wfJson v = true ∧
              wfJsonFields fs = true := by
            have h := hwf
            rw [wfJson, Bool.and_eq_true, wfJsonFields, Bool.and_eq_true] at h
            exact ⟨h.1, h.2.1, h.2.2⟩
          have hsz' : jsize v + jsizeFields fs ≤ f := by
            rw [jsize, jsizeFields] at hsz
            have := jsize_pos v
            omega
          show parseValue (f + 1)
            (('\x7b' :: '\n' :: (jdumpFields (d + 1) ((k, v) :: fs) ++
              '\n' :: (indentN d ++ ['\x7d']))) ++ rest) =
            some (.obj ((k, v) :: fs), rest)
          rw [List.cons_append, List.cons_append]
          simp only [parseValue]
          rw [if_neg (by decide), if_pos (by decide),
            skipWs_cons_ws _ _ (by decide), jdumpFields_eq, quoteJ_eq]
          simp only [List.append_assoc, List.cons_append, List.nil_append]
          rw [skipWs_indentN, skipWs_cons_nonws _ _ (by decide)]
          exact ih3 k v fs [] d rest hsp.2.1 hsp.2.2 hsp.1 hsz' hdel
    · -- parseItems
      intro x xs acc d rest hwx hwxs hsz hdel
      have hx : jsize x ≤ f := by
        have := jsizeItems_pos xs
        omega
      cases xs with
      | nil =>
        rw [itemsTail, List.nil_append]
        exact parseItems_last f x _ _ rest acc
          (ih1 x (d + 1) _ hwx hx (by rfl))
          (by rw [skipWs_cons_ws _ _ (by decide), skipWs_indentN,
                skipWs_cons_nonws _ _ (by decide)])
      | cons y ys =>
        obtain ⟨hwy, hwys⟩ : wfJson y = true ∧ wfJsonList ys = true := by
          rw [wfJsonList, Bool.and_eq_true] at hwxs
          exact hwxs
        have hsz' : jsize y + jsizeItems ys ≤ f := by
          rw [jsizeItems] at hsz
          have := jsize_pos x
          omega
        rw [itemsTail]
        simp only [List.cons_append, List.append_assoc, List.nil_append]
        refine parseItems_more f x _ _ _ acc _
          (ih1 x (d + 1) _ hwx hx (by rfl))
          (by rw [skipWs_cons_nonws _ _ (by decide)]) ?_
        rw [skipWs_cons_ws _ _ (by decide), skipWs_indentN, skipWs_jdump,
          ih2 y ys (acc ++ [x]) d rest hwy hwys hsz' hdel, List.append_assoc,
          List.singleton_append]
    · -- parseMembers
      intro k v fs acc d rest hwv hwfs hkd hsz hdel
      have hv : jsize v ≤ f := by
        have := jsizeFields_pos fs
        omega
      have hins : insKV acc k v = acc ++ [(k, v)] :=
        insKV_append acc k v (keysDistinct_head acc k v fs hkd)
      cases fs with
      | nil =>
        rw [fieldsTail, List.nil_append, show (acc ++ (k, v) :: [] :
            List (Str × Json)) = insKV acc k v from hins.symm]
        exact parseMembers_last f k v _ _ rest acc
          (by rw [skipWs_jdump]; exact ih1 v (d + 1) _ hwv hv (by rfl))
          (by rw [skipWs_cons_ws _ _ (by decide), skipWs_indentN,
                skipWs_cons_nonws _ _ (by decide)])
      | cons g gs =>
        obtain ⟨k2, v2⟩ := g
        obtain ⟨hwv2, hwgs⟩ : wfJson v2 = true ∧ wfJsonFields gs = true := by
          rw [wfJsonFields, Bool.and_eq_true] at hwfs
          exact hwfs
        have hsz' : jsize v2 + jsizeFields gs ≤ f := by
          rw [jsizeFields] at hsz
          have := jsize_pos v
          omega
        have hkd' : keysDistinctB ((acc ++ [(k, v)]) ++ (k2, v2) :: gs) = true := by
          rw [List.append_assoc]
          exact hkd
        rw [fieldsTail, quoteJ_eq]
        simp only [List.cons_append, List.append_assoc, List.nil_append]
        refine parseMembers_more f k v _ _ _ acc _
          (by rw [skipWs_jdump]; exact ih1 v (d + 1) _ hwv hv (by rfl))
          (by rw [skipWs_cons_nonws _ _ (by decide)]) ?_
        rw [hins, skipWs_cons_ws _ _ (by decide), skipWs_indentN,
          skipWs_cons_nonws _ _ (by decide),
          ih3 k2 v2 gs (acc ++ [(k, v)]) d rest hwv2 hwgs hkd' hsz' hdel,
          List.append_assoc, List.singleton_append]

/-- `json.loads` inverts `json.dumps(·, indent=2)` on well-formed values. -/
def jsonLoads_jdump : ∀ v : Json, wfJson v = true →
    jsonLoads (jsonDumps2 v) = some v := by
  intro v hwf
  rw [jsonLoads, jsonDumps2]
  have hskip : skipWs (jdump 0 v) = jdump 0 v := by
    have h := skipWs_jdump 0 v []
    rw [List.append_nil] at h
    exact h
  rw [hskip]
  have hlen := jsizeLe v 0
  have hpv := (rtAll ((jdump 0 v).length + 1)).1 v 0 [] hwf (by omega) (by rfl)
  rw [List.append_nil] at hpv
  rw [hpv]
  rfl

/-- The `json.loads(json.dumps(...))` copy is the identity on well-formed
values. -/
def jsonRoundtrip_wf : ∀ v : Json, wfJson v = true → jsonRoundtrip v = v := by
  intro v hwf
  rw [jsonRoundtrip, jsonLoads_jdump v hwf]
  rfl

/-! ### The self-comparison produces only context lines -/

namespace Difflib

variable {α : Type} [DecidableEq α] [Inhabited α]

/-- Does position `j` of `b` match row `i` in the self-comparison DP (it
lies in `b2j[a[i]]`)? -/
def matchB (L : List α) (i j : Nat) : Bool :=
  (b2jGet (fun _ => false) L (L.getD i default)).contains j

/-- The `j2len` array contents after `i` rows of `find_longest_match`'s
DP loop on the self-comparison: the length of the common run ending at
`a`-row `i - 1` and `b`-position `j`. -/
def rowlen (L : List α) : Nat → Nat → Nat
  | 0, _ => 0
  | i + 1, j => if matchB L i j then (if j = 0 then 0 else rowlen L i (j - 1)) + 1 else 0

/-- Membership facts for a `b2j` hit. -/
def matchB_mem : ∀ (L : List α) (i j : Nat), matchB L i j = true →
    j < L.length ∧ L.getD j default = L.getD i default ∧
      isPopular L (L.getD i default) = false := by
  intro L i j h
  rw [matchB, b2jGet] at h
  by_cases hp : isPopular L (L.getD i default) = true
  · rw [if_pos (by rw [hp]; rfl)] at h
    simp at h
  · rw [Bool.not_eq_true] at hp
    rw [if_neg (by rw [hp]; simp)] at h
    have hm := List.mem_of_elem_eq_true h
    rw [List.mem_filter, List.mem_range] at hm
    exact ⟨hm.1, beq_iff_eq.mp hm.2, hp⟩

/-- A `b2j` hit in row `i` puts the diagonal position `i` in the same row
list. -/
def matchB_diag : ∀ (L : List α) (i j : Nat), i < L.length →
    matchB L i j = true → matchB L i i = true := by
  intro L i j hi h
  obtain ⟨_, _, hp⟩ := matchB_mem L i j h
  rw [matchB, b2jGet, if_neg (by rw [hp]; simp)]
  exact List.elem_eq_true_of_mem
    (List.mem_filter.mpr ⟨List.mem_range.mpr hi, beq_self_eq_true _⟩)

/-- A `b2j` hit transfers to the matching row: if `b[j] = a[i]` matches in
row `i`, then row `j`'s own diagonal also matches. -/
def matchB_transfer : ∀ (L : List α) (i j : Nat), matchB L i j = true →
    matchB L j j = true := by
  intro L i j h
  obtain ⟨hj, hv, hp⟩ := matchB_mem L i j h
  rw [matchB, b2jGet, hv, if_neg (by rw [hp]; simp)]
  exact List.elem_eq_true_of_mem
    (List.mem_filter.mpr ⟨List.mem_range.mpr hj, beq_iff_eq.mpr hv⟩)

/-- `b2j` lists are strictly ascending. -/
def b2j_sorted : ∀ (L : List α) (v : α),
    List.Pairwise (· < ·) (b2jGet (fun _ => false) L v) := by
  intro L v
  rw [b2jGet]
  by_cases hp : (false || isPopular L v) = true
  · rw [if_pos hp]
    exact List.Pairwise.nil
  · rw [if_neg hp]
    exact (List.pairwise_lt_range L.length).filter _

/-- Every `b2j` entry is a position of `b`. -/
def b2j_lt : ∀ (L : List α) (v : α) (j : Nat),
    j ∈ b2jGet (fun _ => false) L v → j < L.length := by
  intro L v j h
  rw [b2jGet] at h
  by_cases hp : (false || isPopular L v) = true
  · rw [if_pos hp] at h
    exact absurd h (List.not_mem_nil j)
  · rw [if_neg hp] at h
    rw [List.mem_filter, List.mem_range] at h
    exact h.1

/-- A run is never longer than the row index allows. -/
def rowlen_le : ∀ (L : List α) (i j : Nat), rowlen L i j ≤ i := by
  intro L i
  induction i with
  | zero => intro j; rw [rowlen]
  | succ i ih =>
    intro j
    rw [rowlen]
    by_cases hm : matchB L i j = true
    · rw [if_pos hm]
      cases j with
      | zero => simp
      | succ j' =>
        have h := ih j'
        simp only [if_neg (Nat.succ_ne_zero j'), Nat.add_sub_cancel]
        omega
    · rw [if_neg hm]
      omega

/-- Cross runs below the diagonal are dominated by the diagonal run of the
matching earlier row (`j ≤ i`). -/
def rowlen_sub_diag : ∀ (L : List α) (j i : Nat), j ≤ i →
    rowlen L (i + 1) j ≤ rowlen L (j + 1) j := by
  intro L j
  induction j with
  | zero =>
    intro i _
    conv_lhs => rw [rowlen]
    conv_rhs => rw [rowlen]
    by_cases hm : matchB L i 0 = true
    · have hm0 : matchB L 0 0 = true := matchB_transfer L i 0 hm
      rw [if_pos hm, if_pos hm0]
      simp
    · rw [if_neg hm]
      omega
  | succ j ih =>
    intro i hji
    cases i with
    | zero => omega
    | succ i' =>
      conv_lhs => rw [rowlen]
      conv_rhs => rw [rowlen]
      by_cases hm : matchB L (i' + 1) (j + 1) = true
      · have hmj : matchB L (j + 1) (j + 1) = true := matchB_transfer L (i' + 1) (j + 1) hm
        rw [if_pos hm, if_pos hmj]
        simp only [if_neg (Nat.succ_ne_zero j), Nat.add_sub_cancel]
        have := ih i' (by omega)
        omega
      · rw [if_neg hm]
        omega

/-- Cross runs above the diagonal are dominated by the diagonal run of the
same row (`i ≤ j`). -/
def rowlen_super_diag : ∀ (L : List α) (i j : Nat), i ≤ j →
    rowlen L (i + 1) j ≤ rowlen L (i + 1) i := by
  intro L i
  induction i with
  | zero =>
    intro j _
    conv_lhs => rw [rowlen]
    conv_rhs => rw [rowlen]
    by_cases hm : matchB L 0 j = true
    · have hm0 : matchB L 0 0 = true := by
        obtain ⟨hj, _, hp⟩ := matchB_mem L 0 j hm
        rw [matchB, b2jGet, if_neg (by rw [hp]; simp)]
        exact List.elem_eq_true_of_mem
          (List.mem_filter.mpr ⟨List.mem_range.mpr (by omega), beq_self_eq_true _⟩)
      rw [if_pos hm, if_pos hm0]
      cases j with
      | zero => simp
      | succ j' =>
        simp only [if_neg (Nat.succ_ne_zero j'), if_pos rfl, rowlen]
        omega
    · rw [if_neg hm]
      omega
  | succ i ih =>
    intro j hij
    cases j with
    | zero => omega
    | succ j' =>
      conv_lhs => rw [rowlen]
      conv_rhs => rw [rowlen]
      by_cases hm : matchB L (i + 1) (j' + 1) = true
      · have hmi : matchB L (i + 1) (i + 1) = true := by
          obtain ⟨hj, _, hp⟩ := matchB_mem L (i + 1) (j' + 1) hm
          rw [matchB, b2jGet, if_neg (by rw [hp]; simp)]
          exact List.elem_eq_true_of_mem
            (List.mem_filter.mpr ⟨List.mem_range.mpr (by omega), beq_self_eq_true _⟩)
        rw [if_pos hm, if_pos hmi]
        simp only [if_neg (Nat.succ_ne_zero j'), if_neg (Nat.succ_ne_zero i),
          Nat.add_sub_cancel]
        have := ih j' (by omega)
        omega
      · rw [if_neg hm]
        omega

/-- `extLeft` walks an aligned block on the self-comparison all the way to
the left edge (with an always-true junk filter). -/
def extLeft_self : ∀ (cond : α → Bool) (L : List α) (fuel i s : Nat),
    (∀ v, cond v = true) → i ≤ fuel →
    extLeft cond L L 0 0 fuel ⟨i, i, s⟩ = ⟨0, 0, s + i⟩ := by
  intro cond L fuel
  induction fuel with
  | zero =>
    intro i s _ hif
    have hi0 : i = 0 := by omega
    subst hi0
    rw [extLeft]
    rfl
  | succ f ih =>
    intro i s hc hif
    cases i with
    | zero =>
      rw [extLeft, if_neg (by
        intro hcon
        have h0 : (0 : Nat) < 0 := hcon.1
        omega)]
      rfl
    | succ i' =>
      rw [extLeft, if_pos ⟨Nat.succ_pos i', Nat.succ_pos i', hc _, rfl⟩]
      show extLeft cond L L 0 0 f ⟨i' + 1 - 1, i' + 1 - 1, s + 1⟩ = ⟨0, 0, s + (i' + 1)⟩
      rw [show i' + 1 - 1 = i' from rfl, ih i' (s + 1) hc (by omega)]

      show Match3.mk 0 0 (s + 1 + i') = ⟨0, 0, s + (i' + 1)⟩
      rw [show s + 1 + i' = s + (i' + 1) by omega]

/-- `extRight` walks an aligned block on the self-comparison all the way to
the right edge. -/
def extRight_self : ∀ (cond : α → Bool) (L : List α) (fuel s : Nat),
    (∀ v, cond v = true) → s ≤ L.length → L.length - s ≤ fuel →
    extRight cond L L L.length L.length fuel ⟨0, 0, s⟩ = ⟨0, 0, L.length⟩ := by
  intro cond L fuel
  induction fuel with
  | zero =>
    intro s _ hs hf
    have hsl : s = L.length := by omega
    subst hsl
    rw [extRight]
  | succ f ih =>
    intro s hc hs hf
    by_cases he : s = L.length
    · subst he
      rw [extRight, if_neg (by
        intro hcon
        have h0 : 0 + L.length < L.length := hcon.1
        omega)]
    · rw [extRight, if_pos ⟨(by omega : 0 + s < L.length),
        (by omega : 0 + s < L.length), hc _, rfl⟩]
      show extRight cond L L L.length L.length f ⟨0, 0, s + 1⟩ = ⟨0, 0, L.length⟩
      exact ih (s + 1) hc (by omega) (by omega)

/-- The junk extension loops are inert when the junk test is constantly
false. -/
def extLeft_false : ∀ (a b : List α) (alo blo fuel : Nat) (st : Match3),
    extLeft (fun _ => false) a b alo blo fuel st = st := by
  intro a b alo blo fuel st
  cases fuel with
  | zero => rw [extLeft]
  | succ f =>
    rw [extLeft, if_neg (by intro hcon; exact absurd hcon.2.2.1 Bool.false_ne_true)]

/-- Right-hand twin of `extLeft_false`. -/
def extRight_false : ∀ (a b : List α) (ahi bhi fuel : Nat) (st : Match3),
    extRight (fun _ => false) a b ahi bhi fuel st = st := by
  intro a b ahi bhi fuel st
  cases fuel with
  | zero => rw [extRight]
  | succ f =>
    rw [extRight, if_neg (by intro hcon; exact absurd hcon.2.2.1 Bool.false_ne_true)]

/-- One in-range step of `flmRow`, with the `let`s expanded. -/
def flmRow_cons : ∀ (i bhi : Nat) (j2len : Nat → Nat) (j : Nat) (js : List Nat)
    (acc : Nat → Nat) (st : Match3), j < bhi →
    flmRow i 0 bhi j2len (j :: js) acc st =
      flmRow i 0 bhi j2len js
        (fun j' => if j' = j then (if j = 0 then 0 else j2len (j - 1)) + 1 else acc j')
        (if st.bestsize < (if j = 0 then 0 else j2len (j - 1)) + 1 then
          ⟨i + 1 - ((if j = 0 then 0 else j2len (j - 1)) + 1),
           j + 1 - ((if j = 0 then 0 else j2len (j - 1)) + 1),
           (if j = 0 then 0 else j2len (j - 1)) + 1⟩
         else st) := by
  intro i bhi j2len j js acc st hj
  rw [flmRow, if_neg (by omega), if_neg (by omega)]

/-- One step of `flmRows`, with the `let` expanded. -/
def flmRows_cons : ∀ (isjunk : α → Bool) (a b : List α) (blo bhi i : Nat)
    (is : List Nat) (j2len : Nat → Nat) (st : Match3),
    flmRows isjunk a b blo bhi (i :: is) j2len st =
      flmRows isjunk a b blo bhi is
        (flmRow i blo bhi j2len (b2jGet isjunk b (a.getD i default))
          (fun _ => 0) st).1
        (flmRow i blo bhi j2len (b2jGet isjunk b (a.getD i default))
          (fun _ => 0) st).2 := by
  intro isjunk a b blo bhi i is j2len st
  rw [flmRows]

/-- The row invariant of `find_longest_match`'s DP loop on the
self-comparison: every best-match update happens on the diagonal, so the
running best stays aligned; the new `j2len` row holds the run lengths
through row `i`. -/
def flmRow_inv : ∀ (L : List α) (i : Nat) (js : List Nat) (j2len : Nat → Nat)
    (acc : Nat → Nat) (st : Match3),
    i < L.length →
    (∀ j, j ∈ js → matchB L i j = true) →
    List.Pairwise (· < ·) js →
    (∀ j', j2len j' = rowlen L i j') →
    (∀ j', acc j' = if matchB L i j' = true ∧ j' ∉ js then rowlen L (i + 1) j' else 0) →
    st.besti = st.bestj → st.besti + st.bestsize ≤ L.length →
    (∀ p, p < i → rowlen L (p + 1) p ≤ st.bestsize) →
    (i ∈ js ∨ rowlen L (i + 1) i ≤ st.bestsize) →
    ((flmRow i 0 L.length j2len js acc st).2.besti =
        (flmRow i 0 L.length j2len js acc st).2.bestj) ∧
      ((flmRow i 0 L.length j2len js acc st).2.besti +
        (flmRow i 0 L.length j2len js acc st).2.bestsize ≤ L.length) ∧
      (∀ p, p < i → rowlen L (p + 1) p ≤
        (flmRow i 0 L.length j2len js acc st).2.bestsize) ∧
      (rowlen L (i + 1) i ≤ (flmRow i 0 L.length j2len js acc st).2.bestsize) ∧
      (st.bestsize ≤ (flmRow i 0 L.length j2len js acc st).2.bestsize) ∧
      (∀ j', (flmRow i 0 L.length j2len js acc st).1 j' = rowlen L (i + 1) j') := by
  intro L i js
  induction js with
  | nil =>
    intro j2len acc st hi _ _ _ hacc hal hbd hhist hdiag
    rw [flmRow]
    refine ⟨hal, hbd, hhist, ?_, Nat.le_refl _, ?_⟩
    · rcases hdiag with hin | hle
      · exact absurd hin (List.not_mem_nil i)
      · exact hle
    · intro j'
      show acc j' = rowlen L (i + 1) j'
      rw [hacc j']
      by_cases hm : matchB L i j' = true
      · rw [if_pos ⟨hm, List.not_mem_nil j'⟩]
      · rw [if_neg (by intro hcon; exact hm hcon.1)]
        conv_rhs => rw [rowlen]
        rw [if_neg hm]
  | cons j js' ih =>
    intro j2len acc st hi hall hpw hj2 hacc hal hbd hhist hdiag
    have hmj : matchB L i j = true := hall j (List.mem_cons_self j js')
    have hjn : j < L.length := (matchB_mem L i j hmj).1
    obtain ⟨hjlt, hpw'⟩ := List.pairwise_cons.mp hpw
    have hnmj : j ∉ js' := fun hmem => Nat.lt_irrefl j (hjlt j hmem)
    have hk : (if j = 0 then 0 else j2len (j - 1)) + 1 = rowlen L (i + 1) j := by
      conv_rhs => rw [rowlen]
      rw [if_pos hmj]
      cases j with
      | zero => rw [if_pos rfl, if_pos rfl]
      | succ j0 =>
        rw [if_neg (Nat.succ_ne_zero j0), if_neg (Nat.succ_ne_zero j0), hj2]
    have haccStep : ∀ j',
        (if j' = j then (if j = 0 then 0 else j2len (j - 1)) + 1 else acc j') =
          if matchB L i j' = true ∧ j' ∉ js' then rowlen L (i + 1) j' else 0 := by
      intro j'
      have hcond : matchB L i j = true ∧ j ∉ js' := ⟨hmj, hnmj⟩
      by_cases hjj : j' = j
      · rw [if_pos hjj, hjj, if_pos hcond]
        exact hk
      · rw [if_neg hjj, hacc j']
        by_cases hm2 : matchB L i j' = true ∧ j' ∉ j :: js'
        · rw [if_pos hm2, if_pos ⟨hm2.1, fun hmem =>
            hm2.2 (List.mem_cons_of_mem j hmem)⟩]
        · rw [if_neg hm2]
          by_cases hm3 : matchB L i j' = true ∧ j' ∉ js'
          · exfalso
            refine hm2 ⟨hm3.1, ?_⟩
            intro hmem
            rcases List.mem_cons.mp hmem with he2 | hmem'
            · exact hjj he2
            · exact hm3.2 hmem'
          · rw [if_neg hm3]
    rw [flmRow_cons i L.length j2len j js' acc st hjn]
    by_cases hup : st.bestsize < (if j = 0 then 0 else j2len (j - 1)) + 1
    · -- the update fires: it must lie on the diagonal
      have hup' : st.bestsize < rowlen L (i + 1) j := by
        rw [← hk]
        exact hup
      have hji : j = i := by
        rcases Nat.lt_trichotomy j i with hlt | he | hgt
        · exfalso
          have h1 : rowlen L (i + 1) j ≤ rowlen L (j + 1) j :=
            rowlen_sub_diag L j i (by omega)
          have h2 := hhist j hlt
          omega
        · exact he
        · exfalso
          have hnotin : i ∉ j :: js' := by
            intro hmem
            rcases List.mem_cons.mp hmem with he2 | hmem'
            · omega
            · have := hjlt i hmem'
              omega
          have hd : rowlen L (i + 1) i ≤ st.bestsize := by
            rcases hdiag with hin | hle
            · exact absurd hin hnotin
            · exact hle
          have h1 : rowlen L (i + 1) j ≤ rowlen L (i + 1) i :=
            rowlen_super_diag L i j (by omega)
          omega
      subst hji
      rw [if_pos hup]
      have hkb : rowlen L (j + 1) j ≤ j + 1 := rowlen_le L (j + 1) j
      obtain ⟨p1, p2, p3, p4, p5, p6⟩ := ih j2len
        (fun j' => if j' = j then (if j = 0 then 0 else j2len (j - 1)) + 1 else acc j')
        ⟨j + 1 - ((if j = 0 then 0 else j2len (j - 1)) + 1),
         j + 1 - ((if j = 0 then 0 else j2len (j - 1)) + 1),
         (if j = 0 then 0 else j2len (j - 1)) + 1⟩
        hi (fun x hx => hall x (List.mem_cons_of_mem j hx)) hpw' hj2 haccStep
        rfl
        (by
          show j + 1 - ((if j = 0 then 0 else j2len (j - 1)) + 1) +
            ((if j = 0 then 0 else j2len (j - 1)) + 1) ≤ L.length
          rw [hk] at hup ⊢
          omega)
        (by
          intro p hp
          show rowlen L (p + 1) p ≤ (if j = 0 then 0 else j2len (j - 1)) + 1
          have := hhist p hp
          omega)
        (Or.inr (by
          show rowlen L (j + 1) j ≤ (if j = 0 then 0 else j2len (j - 1)) + 1
          rw [hk]))
      exact ⟨p1, p2, p3, p4, Nat.le_trans (Nat.le_of_lt hup) p5, p6⟩
    · -- no update: the state is unchanged
      rw [if_neg hup]
      exact ih j2len
        (fun j' => if j' = j then (if j = 0 then 0 else j2len (j - 1)) + 1 else acc j')
        st hi (fun x hx => hall x (List.mem_cons_of_mem j hx)) hpw' hj2 haccStep
        hal hbd hhist
        (by
          by_cases hji : i = j
          · right
            rw [show rowlen L (i + 1) i = rowlen L (i + 1) j from by rw [← hji],
              ← hk]
            omega
          · rcases hdiag with hin | hle
            · left
              rcases List.mem_cons.mp hin with he2 | hmem'
              · exact absurd he2 hji
              · exact hmem'
            · exact Or.inr hle)

/-- The DP outer loop keeps the best match aligned and in range on the
self-comparison. -/
def flmRows_inv : ∀ (L : List α) (cnt i : Nat) (j2len : Nat → Nat) (st : Match3),
    i + cnt ≤ L.length →
    (∀ j', j2len j' = rowlen L i j') →
    st.besti = st.bestj → st.besti + st.bestsize ≤ L.length →
    (∀ p, p < i → rowlen L (p + 1) p ≤ st.bestsize) →
    ((flmRows (fun _ => false) L L 0 L.length (List.range' i cnt) j2len st).besti =
        (flmRows (fun _ => false) L L 0 L.length (List.range' i cnt) j2len st).bestj) ∧
      ((flmRows (fun _ => false) L L 0 L.length (List.range' i cnt) j2len st).besti +
        (flmRows (fun _ => false) L L 0 L.length (List.range' i cnt) j2len st).bestsize ≤
          L.length) := by
  intro L cnt
  induction cnt with
  | zero =>
    intro i j2len st _ _ hal hbd _
    rw [show List.range' i 0 = [] from rfl, flmRows]
    exact ⟨hal, hbd⟩
  | succ cnt ih =>
    intro i j2len st hle hj2 hal hbd hhist
    rw [List.range'_succ, flmRows_cons]
    obtain ⟨q1, q2, q3, q4, q5, q6⟩ := flmRow_inv L i
      (b2jGet (fun _ => false) L (L.getD i default)) j2len (fun _ => 0) st
      (by omega)
      (fun j hj => List.elem_eq_true_of_mem hj)
      (b2j_sorted L _)
      hj2
      (by
        intro j'
        by_cases hm : matchB L i j' = true
        · rw [if_neg (by
            intro hcon
            exact hcon.2 (List.mem_of_elem_eq_true hm))]
        · rw [if_neg (by intro hcon; exact hm hcon.1)])
      hal hbd hhist
      (by
        by_cases hm : matchB L i i = true
        · exact Or.inl (List.mem_of_elem_eq_true hm)
        · right
          conv_lhs => rw [rowlen]
          rw [if_neg hm]
          exact Nat.zero_le _)
    exact ih (i + 1)
      (flmRow i 0 L.length j2len (b2jGet (fun _ => false) L (L.getD i default))
        (fun _ => 0) st).1
      (flmRow i 0 L.length j2len (b2jGet (fun _ => false) L (L.getD i default))
        (fun _ => 0) st).2
      (by omega) q6 q1 q2
      (by
        intro p hp
        rcases Nat.lt_succ_iff_lt_or_eq.mp hp with h | h
        · exact q3 p h
        · rw [h]
          exact q4)

/-- `find_longest_match` over the whole self-comparison returns the full
diagonal block. -/
def flm_self : ∀ L : List α,
    findLongestMatch (fun _ => false) L L 0 L.length 0 L.length =
      ⟨0, 0, L.length⟩ := by
  intro L
  obtain ⟨ha, hb⟩ := flmRows_inv L L.length 0 (fun _ => 0) ⟨0, 0, 0⟩
    (by omega) (fun j' => rfl) rfl (Nat.zero_le _)
    (fun p hp => absurd hp (Nat.not_lt_zero p))
  simp only [findLongestMatch, Nat.sub_zero]
  generalize hG : flmRows (fun _ => false) L L 0 L.length
    (List.range' 0 L.length) (fun _ => 0) ⟨0, 0, 0⟩ = st0 at ha hb ⊢
  obtain ⟨b, bj, sz⟩ := st0
  have hbj : b = bj := ha
  subst hbj
  have hbnd : b + sz ≤ L.length := hb
  rw [extLeft_self (fun v => !((fun _ => false) v)) L b b sz (fun v => rfl)
    (Nat.le_refl b)]
  rw [extRight_self (fun v => !((fun _ => false) v)) L L.length (sz + b)
    (fun v => rfl) (by omega) (by omega)]
  rw [extLeft_false, extRight_false]

/-- The single matching block of the self-comparison. -/
def matchingBlocks_self : ∀ (L : List α) (fuel : Nat), 0 < L.length →
    matchingBlocksRec (fun _ => false) L L (fuel + 1) 0 L.length 0 L.length =
      [(0, 0, L.length)] := by
  intro L fuel h
  simp only [matchingBlocksRec]
  rw [flm_self]
  rw [if_neg (by show ¬(L.length = 0); omega)]
  rw [if_neg (by
    intro hc
    have h0 : (0 : Nat) < 0 := hc.1
    omega)]
  rw [if_neg (by
    intro hc
    have h0 : 0 + L.length < L.length := hc.1
    omega)]
  rfl

/-- `get_matching_blocks` on the self-comparison: the diagonal plus the
sentinel. -/
def getMatchingBlocks_self : ∀ L : List α, 0 < L.length →
    getMatchingBlocks (fun _ => false) L L =
      [(0, 0, L.length), (L.length, L.length, 0)] := by
  intro L h
  rw [getMatchingBlocks, matchingBlocks_self L (L.length + L.length) h]
  rw [mergeAdj, if_pos ⟨rfl, rfl⟩, mergeAdj, if_pos (by omega)]
  show [(0, 0, 0 + L.length)] ++ [(L.length, L.length, 0)] = _
  rw [Nat.zero_add]
  rfl

/-- `get_opcodes` on the self-comparison is one `equal` opcode. -/
def getOpcodes_self : ∀ L : List α, 0 < L.length →
    getOpcodes (fun _ => false) L L = [(Tag.equal, 0, L.length, 0, L.length)] := by
  intro L h
  rw [getOpcodes, getMatchingBlocks_self L h]
  rw [opcodesLoop]
  rw [if_neg (by
    intro hc
    have h0 : (0 : Nat) < 0 := hc.1
    omega)]
  rw [if_neg (by show ¬((0 : Nat) < 0); omega)]
  rw [if_neg (by show ¬((0 : Nat) < 0); omega)]
  rw [if_pos (by show L.length ≠ 0; omega)]
  rw [opcodesLoop]
  rw [if_neg (by
    intro hc
    have h0 : 0 + L.length < L.length := hc.1
    omega)]
  rw [if_neg (by show ¬(0 + L.length < L.length); omega)]
  rw [if_neg (by show ¬(0 + L.length < L.length); omega)]
  rw [if_neg (by show ¬((0 : Nat) ≠ 0); omega)]
  rw [opcodesLoop]
  simp only [Nat.zero_add, List.nil_append, List.append_nil]

/-- Mapping over positions recovers a plain map. -/
def range'_map_getD : ∀ {β γ : Type} (d : β) (g : β → γ) (xs : List β) (s : Nat)
    (F : Nat → γ), (∀ k, k < xs.length → F (s + k) = g (xs.getD k d)) →
    (List.range' s xs.length).map F = xs.map g := by
  intro β γ d g xs
  induction xs with
  | nil => intro s F _; rfl
  | cons x xs ih =>
    intro s F hF
    rw [List.length_cons, List.range'_succ, List.map_cons, List.map_cons]
    have hhead : F s = g x := by
      have := hF 0 (by rw [List.length_cons]; omega)
      rw [Nat.add_zero] at this
      exact this
    rw [hhead]
    rw [ih (s + 1) F (by
      intro k hk
      have := hF (k + 1) (by rw [List.length_cons]; omega)
      rw [show s + 1 + k = s + (k + 1) by omega]
      exact this)]

/-- `_dump(' ')` of the whole sequence is the context-line map. -/
def dumpTag_self : ∀ L : List Str,
    dumpTag ' ' L 0 L.length = L.map (fun l => ' ' :: ' ' :: l) := by
  intro L
  rw [dumpTag, Nat.sub_zero]
  exact range'_map_getD [] (fun l => ' ' :: ' ' :: l) L 0 _
    (fun k hk => by rw [Nat.zero_add])

/-- `Differ().compare` of a line list against itself: every line comes back
as a context line. -/
def differCompare_self : ∀ L : List Str,
    differCompare L L = L.map (fun l => ' ' :: ' ' :: l) := by
  intro L
  cases hL : L.length with
  | zero =>
    have hnil : L = [] := List.length_eq_zero.mp hL
    subst hnil
    rfl
  | succ m =>
    have hpos : 0 < L.length := by omega
    rw [differCompare, getOpcodes_self L hpos]
    rw [List.flatMap_cons, List.flatMap_nil, List.append_nil]
    show dumpTag ' ' L 0 L.length = _
    exact dumpTag_self L

end Difflib

/-- `generate_diff` of a truthy Document against itself: all context
lines. -/
def generate_diff_self : ∀ (d : Doc) (ft : Str) (lines : List Str),
    pyTruthy d = true → docLines ft d = some lines →
    generate_diff d d ft = some (lines.map (fun l => ' ' :: ' ' :: l)) := by
  intro d ft lines ht hl
  rw [generate_diff]
  rw [if_neg (by rw [ht]; decide)]
  rw [hl]
  show some (Difflib.differCompare lines lines) = _
  rw [Difflib.differCompare_self]


/-! ### Statement-side predicates and final helper lemmas -/

/-- Safety of one record for the list branch of `modify_json`: if the
record is a dict with a `parameters` field, that field is itself a dict
(so the membership test and the deletion cannot raise). -/
def itemParamsSafe (item : Json) : Bool :=
  match item with
  | .obj fs =>
    match lookupKV fs (S "parameters") with
    | none => true
    | some (.obj _) => true
    | some _ => false
  | _ => true

/-- Safety of a whole JSON value for `modify_json`: if it is a list, every
record in it is safe. -/
def jsonSafe (v : Json) : Bool :=
  match v with
  | .arr items => items.all itemParamsSafe
  | _ => true

/-- A boolean that is not true is false. -/
def bool_eq_false : ∀ b : Bool, ¬(b = true) → b = false := by
  intro b h
  cases b with
  | false => rfl
  | true => exact absurd rfl h

/-- Inserting under one key leaves lookups of a different key unchanged. -/
def lookupKV_insKV_ne : ∀ (fs : List (Str × Json)) (k : Str) (v : Json) (k2 : Str),
    (k == k2) = false → lookupKV (insKV fs k v) k2 = lookupKV fs k2 := by
  intro fs k v k2 hk
  induction fs with
  | nil => simp [insKV, lookupKV, hk]
  | cons g gt ih =>
    obtain ⟨k0, v0⟩ := g
    rw [insKV]
    by_cases h0 : (k0 == k) = true
    · rw [if_pos h0]
      have hk0 : (k0 == k2) = false := by
        rw [eq_of_beq h0]
        exact hk
      have hne : ¬((k0 == k2) = true) := by
        rw [hk0]
        decide
      rw [lookupKV, lookupKV, if_neg hne, if_neg hne]
    · rw [if_neg h0]
      rw [lookupKV, lookupKV]
      by_cases h2 : (k0 == k2) = true
      · rw [if_pos h2, if_pos h2]
      · rw [if_neg h2, if_neg h2]
        exact ih

/-- On a safe record, one loop iteration of the list branch cannot raise. -/
def modifyItem_safe : ∀ item : Json, itemParamsSafe item = true →
    ∃ r, modifyItem item = Except.ok r := by
  intro item hs
  cases item with
  | null => exact ⟨_, rfl⟩
  | bool b => exact ⟨_, rfl⟩
  | num n => exact ⟨_, rfl⟩
  | str s => exact ⟨_, rfl⟩
  | arr its => exact ⟨_, rfl⟩
  | obj fs =>
    rw [modifyItem]
    have hlk : lookupKV (insKV (insKV fs (S "user_query") (.str USER_QUERY)) (S "new")
        (.str (S "Something"))) (S "parameters") = lookupKV fs (S "parameters") := by
      rw [lookupKV_insKV_ne _ _ _ _ (by decide), lookupKV_insKV_ne _ _ _ _ (by decide)]
    rw [hlk]
    rw [itemParamsSafe] at hs
    cases hp : lookupKV fs (S "parameters") with
    | none => exact ⟨_, rfl⟩
    | some p =>
      rw [hp] at hs
      cases p with
      | null => exact Bool.noConfusion hs
      | bool b => exact Bool.noConfusion hs
      | num n => exact Bool.noConfusion hs
      | str s => exact Bool.noConfusion hs
      | arr its => exact Bool.noConfusion hs
      | obj pf =>
        show ∃ r, (match pyIn (S "offensive_player") (Json.obj pf) with
          | .error e => (Except.error e : Except Unit Json)
          | .ok true =>
            Except.ok (.obj (insKV (insKV (insKV fs (S "user_query") (.str USER_QUERY))
              (S "new") (.str (S "Something"))) (S "parameters")
              (.obj (delKV pf (S "offensive_player")))))
          | .ok false =>
            Except.ok (.obj (insKV (insKV fs (S "user_query") (.str USER_QUERY))
              (S "new") (.str (S "Something"))))) = Except.ok r
        have hpy : pyIn (S "offensive_player") (Json.obj pf) =
            .ok (pf.any (fun kv => kv.1 == S "offensive_player")) := rfl
        rw [hpy]
        cases hany : pf.any (fun kv => kv.1 == S "offensive_player") with
        | true => exact ⟨_, rfl⟩
        | false => exact ⟨_, rfl⟩

/-- On a safe list, the record loop of `modify_json` cannot raise. -/
def mapM_modifyItem_ok : ∀ items : List Json, items.all itemParamsSafe = true →
    ∃ its, items.mapM modifyItem = Except.ok its := by
  intro items
  induction items with
  | nil =>
    intro h
    exact ⟨[], rfl⟩
  | cons x xs ih =>
    intro h
    rw [List.all_cons, Bool.and_eq_true] at h
    obtain ⟨hx, hxs⟩ := h
    obtain ⟨y, hy⟩ := modifyItem_safe x hx
    obtain ⟨ys, hys⟩ := ih hxs
    refine ⟨y :: ys, ?_⟩
    rw [List.mapM_cons, hy, hys]
    rfl

/-! ### The claims -/

/-- Claim C1 (counterexample): a `team_name` element nested two levels
below a `parameters` element survives the XML transform, so "no team_name
remains anywhere under any parameters element" is false. -/
theorem C1_counterexample :
    noTeamUnderParams (modify_xml (Xml.elem (S "root") [] none
      [Xml.elem (S "parameters") [] none
        [Xml.elem (S "wrapper") [] none
          [Xml.elem (S "team_name") [] none [] none] none] none] none)) = false := by
  rfl

/-- Claim C1 (amended): after the XML transform, no element strictly below
the root — in particular no `parameters` element reachable by
`.//parameters` — has a direct `team_name` child; only direct children of
`parameters` elements are removed. -/
theorem C1_amended_below_root : ∀ t : Xml,
    everyNodeList noDirectTeam (modify_xml t).childrenOf = true := by
  intro t
  cases t with
  | elem t0 a tx cs tl =>
    show everyNodeList noDirectTeam
      (setShotTypeList (addSomethingList (delTeamNamesList cs))) = true
    exact setST_presList _ (addS_presList _ (delTN_everyList cs))

/-- Claim C2 (counterexample): a list whose record has a numeric
`parameters` field makes `"offensive_player" in item["parameters"]` raise
a `TypeError`, so `modify_json` does raise on some parsed inputs. -/
theorem C2_counterexample :
    modify_json (.arr [.obj [(S "parameters", .num 0)]]) = .error () := by
  rfl

/-- Claim C2 (amended): on a well-formed value in which every list record
with a `parameters` field has a dict there, `modify_json` never raises. -/
theorem C2_amended_total : ∀ v : Json, wfJson v = true → jsonSafe v = true →
    ∃ r, modify_json v = Except.ok r := by
  intro v hwf hsafe
  cases v with
  | null => exact ⟨_, rfl⟩
  | bool b =>
    show ∃ r, (match jsonRoundtrip (.bool b) with
      | .arr items =>
        match items.mapM modifyItem with
        | .ok items2 => Except.ok (Json.arr items2)
        | .error e => Except.error e
      | .obj fs =>
        Except.ok (.obj (if (insKV fs (S "new_field")
            (.str (S "This is a new value"))).any (fun kv => kv.1 == S "to_delete")
          then delKV (insKV fs (S "new_field") (.str (S "This is a new value")))
            (S "to_delete")
          else insKV fs (S "new_field") (.str (S "This is a new value"))))
      | m => Except.ok m) = Except.ok r
    rw [jsonRoundtrip_wf _ hwf]
    exact ⟨_, rfl⟩
  | num n =>
    show ∃ r, (match jsonRoundtrip (.num n) with
      | .arr items =>
        match items.mapM modifyItem with
        | .ok items2 => Except.ok (Json.arr items2)
        | .error e => Except.error e
      | .obj fs =>
        Except.ok (.obj (if (insKV fs (S "new_field")
            (.str (S "This is a new value"))).any (fun kv => kv.1 == S "to_delete")
          then delKV (insKV fs (S "new_field") (.str (S "This is a new value")))
            (S "to_delete")
          else insKV fs (S "new_field") (.str (S "This is a new value"))))
      | m => Except.ok m) = Except.ok r
    rw [jsonRoundtrip_wf _ hwf]
    exact ⟨_, rfl⟩
  | str s =>
    show ∃ r, (match jsonRoundtrip (.str s) with
      | .arr items =>
        match items.mapM modifyItem with
        | .ok items2 => Except.ok (Json.arr items2)
        | .error e => Except.error e
      | .obj fs =>
        Except.ok (.obj (if (insKV fs (S "new_field")
            (.str (S "This is a new value"))).any (fun kv => kv.1 == S "to_delete")
          then delKV (insKV fs (S "new_field") (.str (S "This is a new value")))
            (S "to_delete")
          else insKV fs (S "new_field") (.str (S "This is a new value"))))
      | m => Except.ok m) = Except.ok r
    rw [jsonRoundtrip_wf _ hwf]
    exact ⟨_, rfl⟩
  | obj fs0 =>
    show ∃ r, (match jsonRoundtrip (.obj fs0) with
      | .arr items =>
        match items.mapM modifyItem with
        | .ok items2 => Except.ok (Json.arr items2)
        | .error e => Except.error e
      | .obj fs =>
        Except.ok (.obj (if (insKV fs (S "new_field")
            (.str (S "This is a new value"))).any (fun kv => kv.1 == S "to_delete")
          then delKV (insKV fs (S "new_field") (.str (S "This is a new value")))
            (S "to_delete")
          else insKV fs (S "new_field") (.str (S "This is a new value"))))
      | m => Except.ok m) = Except.ok r
    rw [jsonRoundtrip_wf _ hwf]
    exact ⟨_, rfl⟩
  | arr items =>
    show ∃ r, (match jsonRoundtrip (.arr items) with
      | .arr items1 =>
        match items1.mapM modifyItem with
        | .ok items2 => Except.ok (Json.arr items2)
        | .error e => Except.error e
      | .obj fs =>
        Except.ok (.obj (if (insKV fs (S "new_field")
            (.str (S "This is a new value"))).any (fun kv => kv.1 == S "to_delete")
          then delKV (insKV fs (S "new_field") (.str (S "This is a new value")))
            (S "to_delete")
          else insKV fs (S "new_field") (.str (S "This is a new value"))))
      | m => Except.ok m) = Except.ok r
    rw [jsonRoundtrip_wf _ hwf]
    obtain ⟨its, hits⟩ := mapM_modifyItem_ok items hsafe
    show ∃ r, (match items.mapM modifyItem with
      | Except.ok items2 => Except.ok (Json.arr items2)
      | Except.error e => Except.error e) = Except.ok r
    rw [hits]
    exact ⟨_, rfl⟩

/-- Claim C2 amended, witnessed at a concrete safe list. -/
theorem C2_amended_total_witness :
    ∃ r, modify_json (.arr [.obj [(S "parameters", .obj [])]]) = Except.ok r :=
  C2_amended_total (.arr [.obj [(S "parameters", .obj [])]]) (by decide) (by decide)

/-- Claim C3 (counterexample): a document whose root element itself is
`parameters` gains no `something` child at all — `root.findall(".//…")`
never matches the root — so "every parameters element including a
parameters root" is false. -/
theorem C3_counterexample :
    paramsExactlyOneSomething2 (modify_xml (Xml.elem (S "parameters") [] none [] none))
        = false ∧
      countSomething (modify_xml (Xml.elem (S "parameters") [] none [] none)) = 0 := by
  exact ⟨rfl, rfl⟩

/-- Claim C3 (amended): after the XML transform, every `parameters`
element strictly below the root has at least one `something` child with
text "2"; and when no element of the input already has a direct
`something` child, every `parameters` element strictly below the root has
exactly one `something` child. -/
theorem C3_amended_below_root : ∀ t : Xml,
    everyNodeList paramsHasSomething2 (modify_xml t).childrenOf = true ∧
    (everyNode noSomethingChild t = true →
      everyNodeList paramsOneSomething (modify_xml t).childrenOf = true) := by
  intro t
  cases t with
  | elem t0 a tx cs tl =>
    constructor
    · show everyNodeList paramsHasSomething2
        (setShotTypeList (addSomethingList (delTeamNamesList cs))) = true
      exact setST_hasList _ (addS_hasList _)
    · intro h
      rw [everyNode, Bool.and_eq_true] at h
      show everyNodeList paramsOneSomething
        (setShotTypeList (addSomethingList (delTeamNamesList cs))) = true
      exact setST_oneList _ (addS_oneList _ (delTN_noSomeList cs h.2))

/-- Claim C3 amended, witnessed at a concrete document. -/
theorem C3_amended_below_root_witness :
    everyNodeList paramsHasSomething2
      (modify_xml (Xml.elem (S "root") [] none
        [Xml.elem (S "parameters") [] none [] none] none)).childrenOf = true ∧
    everyNodeList paramsOneSomething
      (modify_xml (Xml.elem (S "root") [] none
        [Xml.elem (S "parameters") [] none [] none] none)).childrenOf = true :=
  ⟨(C3_amended_below_root (Xml.elem (S "root") [] none
      [Xml.elem (S "parameters") [] none [] none] none)).1,
   (C3_amended_below_root (Xml.elem (S "root") [] none
      [Xml.elem (S "parameters") [] none [] none] none)).2 (by decide)⟩

/-- Claim C4: neither transform mutates the original object graph.  On
the heap models, under the allocator discipline (every id of the original
graph lies below the allocation bound `n`, ids at or above `n` are clean,
and the root is an original id), re-reading the original root after
`modify_xml` / `modify_json` yields exactly the value read before. -/
theorem C4_no_mutation : ∀ (hx : Heaps.XHeap) (hj : Heaps.JHeap)
    (rootx rootj nx nj fuel rf : Nat),
    (∀ i, i < nx → ∀ c ∈ (hx i).kids, c < nx) →
    (∀ i, nx ≤ i → (hx i).kids = []) →
    rootx < nx →
    (∀ i, i < nj → ∀ c ∈ (hj i).kids, c < nj) →
    (∀ i, nj ≤ i → (hj i).kids = []) →
    rootj < nj →
    Heaps.readX rf (Heaps.modify_xml_heap hx rootx nx fuel).1 rootx =
        Heaps.readX rf hx rootx ∧
      Heaps.readJ rf (Heaps.modify_json_heap hj rootj nj fuel).1 rootj =
        Heaps.readJ rf hj rootj :=
  fun hx hj rootx rootj nx nj fuel rf h1 h2 h3 h4 h5 h6 =>
    ⟨Heaps.modify_xml_frame hx rootx nx fuel rf h1 h2 h3,
     Heaps.modify_json_frame hj rootj nj fuel rf h4 h5 h6⟩

/-- Claim C4, witnessed on one-node heaps. -/
theorem C4_no_mutation_witness :
    Heaps.readX 1 (Heaps.modify_xml_heap
        (fun _ => ⟨S "r", [], none, none, []⟩) 0 1 1).1 0 =
      Heaps.readX 1 (fun _ => (⟨S "r", [], none, none, []⟩ : Heaps.XNode)) 0 ∧
    Heaps.readJ 1 (Heaps.modify_json_heap (fun _ => .jnull) 0 1 1).1 0 =
      Heaps.readJ 1 (fun _ => Heaps.JNode.jnull) 0 :=
  C4_no_mutation (fun _ => ⟨S "r", [], none, none, []⟩) (fun _ => .jnull) 0 0 1 1 1 1
    (fun i _ c hc => absurd hc (List.not_mem_nil c))
    (fun i _ => rfl)
    (by decide)
    (fun i _ c hc => absurd hc (List.not_mem_nil c))
    (fun i _ => rfl)
    (by decide)

/-- Claim C5 (counterexample): pretty-printing inserts indentation
whitespace that the XML parser keeps as text, so re-parsing the prettified
serialization of `<a><b/></a>` yields a tree whose root text is the
two-space indent, not the original empty text — the XML round-trip is not
structure-preserving. -/
theorem C5_counterexample :
    (xmlFromstring (prettify_xml (Xml.elem (S "a") [] none
        [Xml.elem (S "b") [] none [] none] none))).map Xml.textOf
      = some (some (S "\n  ")) ∧
    (Xml.elem (S "a") [] none [Xml.elem (S "b") [] none [] none] none).textOf
      = none := by
  exact ⟨rfl, rfl⟩

/-- Claim C5 (amended): the JSON half of the round-trip does hold —
`json.loads` after `json.dumps(…, indent=2)` returns the value exactly,
for every value with the parser's invariant (distinct keys in every
object). -/
theorem C5_amended_json_roundtrip : ∀ v : Json, wfJson v = true →
    jsonLoads (jsonDumps2 v) = some v :=
  fun v h => jsonLoads_jdump v h

/-- Claim C5 amended, witnessed at a nested concrete value. -/
theorem C5_amended_json_roundtrip_witness :
    jsonLoads (jsonDumps2 (.obj [(S "k", .arr [.num 1, .str (S "x")])])) =
      some (.obj [(S "k", .arr [.num 1, .str (S "x")])]) :=
  C5_amended_json_roundtrip (.obj [(S "k", .arr [.num 1, .str (S "x")])]) (by decide)

/-- Claim C6: `detect_file_type` raises exactly when neither the JSON
branch (stripped prefix `\x7b` or `[`, and a successful strict parse) nor
the XML branch (stripped prefix `<?xml` or `<`, and a successful strict
parse) accepts; when the JSON branch accepts it returns "json", and when
only the XML branch accepts it returns "xml". -/
theorem C6_detect_iff : ∀ content : Str,
    (detect_file_type content = Except.error UNSUPPORTED_MSG ↔
      ((startsWithL (pyStrip content) (S "\x7b") ||
          startsWithL (pyStrip content) (S "[")) &&
        (jsonLoads (pyStrip content)).isSome) = false ∧
      ((startsWithL (pyStrip content) (S "<?xml") ||
          startsWithL (pyStrip content) (S "<")) &&
        (xmlFromstring (pyStrip content)).isSome) = false) ∧
    (((startsWithL (pyStrip content) (S "\x7b") ||
          startsWithL (pyStrip content) (S "[")) &&
        (jsonLoads (pyStrip content)).isSome) = true →
      detect_file_type content = Except.ok (S "json")) ∧
    (((startsWithL (pyStrip content) (S "\x7b") ||
          startsWithL (pyStrip content) (S "[")) &&
        (jsonLoads (pyStrip content)).isSome) = false →
      ((startsWithL (pyStrip content) (S "<?xml") ||
          startsWithL (pyStrip content) (S "<")) &&
        (xmlFromstring (pyStrip content)).isSome) = true →
      detect_file_type content = Except.ok (S "xml")) := by
  intro content
  have hd : detect_file_type content =
      (if ((startsWithL (pyStrip content) (S "\x7b") ||
            startsWithL (pyStrip content) (S "[")) &&
          (jsonLoads (pyStrip content)).isSome) = true
       then Except.ok (S "json")
       else if ((startsWithL (pyStrip content) (S "<?xml") ||
            startsWithL (pyStrip content) (S "<")) &&
          (xmlFromstring (pyStrip content)).isSome) = true
       then Except.ok (S "xml")
       else Except.error UNSUPPORTED_MSG) := rfl
  by_cases hj : ((startsWithL (pyStrip content) (S "\x7b") ||
      startsWithL (pyStrip content) (S "[")) &&
      (jsonLoads (pyStrip content)).isSome) = true
  · rw [hd, if_pos hj]
    refine ⟨⟨fun he => Except.noConfusion he, fun hc => ?_⟩, fun _ => rfl,
      fun hf _ => ?_⟩
    · rw [hj] at hc
      exact Bool.noConfusion hc.1
    · rw [hj] at hf
      exact Bool.noConfusion hf
  · have hjf := bool_eq_false _ hj
    rw [hd, if_neg hj]
    by_cases hx : ((startsWithL (pyStrip content) (S "<?xml") ||
        startsWithL (pyStrip content) (S "<")) &&
        (xmlFromstring (pyStrip content)).isSome) = true
    · rw [if_pos hx]
      refine ⟨⟨fun he => Except.noConfusion he, fun hc => ?_⟩,
        fun hjt => absurd hjt hj, fun _ _ => rfl⟩
      rw [hx] at hc
      exact Bool.noConfusion hc.2
    · have hxf := bool_eq_false _ hx
      rw [if_neg hx]
      exact ⟨⟨fun _ => ⟨hjf, hxf⟩, fun _ => rfl⟩,
        fun hjt => absurd hjt hj, fun _ hxt => absurd hxt hx⟩

/-- Claim C6, witnessed: a JSON list is detected as "json", and plain text
raises the unsupported-format error. -/
theorem C6_detect_iff_witness :
    detect_file_type (S "[]") = Except.ok (S "json") ∧
    detect_file_type (S "x") = Except.error UNSUPPORTED_MSG :=
  ⟨(C6_detect_iff (S "[]")).2.1 (by decide),
   ((C6_detect_iff (S "x")).1).mpr ⟨by decide, by decide⟩⟩

/-- Claim C7: whenever either Document is falsy, `generate_diff` returns
the empty line list, for both formats and any other Document. -/
theorem C7_falsy_empty_diff : ∀ (original modified : Doc) (file_type : Str),
    pyTruthy original = false ∨ pyTruthy modified = false →
    generate_diff original modified file_type = some [] := by
  intro o m ft h
  rcases h with h | h
  · rw [generate_diff, h]
    rfl
  · rw [generate_diff, h]
    cases hp : pyTruthy o <;> rfl

/-- Claim C7, witnessed at a falsy original. -/
theorem C7_falsy_empty_diff_witness :
    generate_diff (Doc.json .null) (Doc.json (.num 1)) (S "json") = some [] :=
  C7_falsy_empty_diff (Doc.json .null) (Doc.json (.num 1)) (S "json") (Or.inl rfl)

/-- Claim C8: diffing a truthy Document against itself yields exactly the
serialized lines each prefixed by two spaces — every line is a context
line, and no added (`+`), removed (`-`) or hint (`?`) line occurs. -/
theorem C8_self_diff_context : ∀ (d : Doc) (file_type : Str) (lines : List Str),
    pyTruthy d = true → docLines file_type d = some lines →
    generate_diff d d file_type = some (lines.map (fun l => ' ' :: ' ' :: l)) ∧
    ∀ l ∈ lines.map (fun l => ' ' :: ' ' :: l),
      startsWithL l (S "+") = false ∧ startsWithL l (S "-") = false ∧
        startsWithL l (S "?") = false := by
  intro d ft lines ht hl
  refine ⟨generate_diff_self d ft lines ht hl, ?_⟩
  intro l hlm
  rcases List.mem_map.mp hlm with ⟨x, hx, he⟩
  rw [← he]
  exact ⟨rfl, rfl, rfl⟩

/-- Claim C8, witnessed on a one-line document. -/
theorem C8_self_diff_context_witness :
    generate_diff (Doc.json (.num 5)) (Doc.json (.num 5)) (S "json") =
      some ([S "5"].map (fun l => ' ' :: ' ' :: l)) :=
  (C8_self_diff_context (Doc.json (.num 5)) (S "json") [S "5"] (by decide) rfl).1

/-- Claim C9: on the scenario input, the transform output is exactly the
expected object (in that key order), and the diff of the two serializations
has exactly one removed and one added line. -/
theorem C9_transform_and_diff :
    modify_json (.obj [(S "a", .num 1), (S "to_delete", .num 2)]) =
      .ok (.obj [(S "a", .num 1), (S "new_field", .str (S "This is a new value"))]) ∧
    generate_diff (.json (.obj [(S "a", .num 1), (S "to_delete", .num 2)]))
        (.json (.obj [(S "a", .num 1),
          (S "new_field", .str (S "This is a new value"))])) (S "json") =
      some [S "  \x7b", S "    \"a\": 1,", S "-   \"to_delete\": 2",
        S "+   \"new_field\": \"This is a new value\"", S "  \x7d"] ∧
    List.countP (fun l => startsWithL l (S "-"))
      ((generate_diff (.json (.obj [(S "a", .num 1), (S "to_delete", .num 2)]))
        (.json (.obj [(S "a", .num 1),
          (S "new_field", .str (S "This is a new value"))])) (S "json")).getD [])
      = 1 ∧
    List.countP (fun l => startsWithL l (S "+"))
      ((generate_diff (.json (.obj [(S "a", .num 1), (S "to_delete", .num 2)]))
        (.json (.obj [(S "a", .num 1),
          (S "new_field", .str (S "This is a new value"))])) (S "json")).getD [])
      = 1 := by
  exact ⟨rfl, rfl, rfl, rfl⟩

/-- Claim C10: each listed falsy-but-parsed input — `\x7b\x7d`, `[]`, `0`,
`""`, `false`, `null`, and any childless XML root — produces an empty diff
against anything; and for the empty object the transform does change the
document while the diff is still empty. -/
theorem C10_truthiness_gate :
    (∀ (m : Doc) (ft : Str), generate_diff (Doc.json (Json.obj [])) m ft = some []) ∧
    (∀ (m : Doc) (ft : Str), generate_diff (Doc.json (Json.arr [])) m ft = some []) ∧
    (∀ (m : Doc) (ft : Str), generate_diff (Doc.json (Json.num 0)) m ft = some []) ∧
    (∀ (m : Doc) (ft : Str), generate_diff (Doc.json (Json.str [])) m ft = some []) ∧
    (∀ (m : Doc) (ft : Str), generate_diff (Doc.json (Json.bool false)) m ft = some []) ∧
    (∀ (m : Doc) (ft : Str), generate_diff (Doc.json Json.null) m ft = some []) ∧
    (∀ (t0 : Str) (a : List (Str × Str)) (tx tl : Option Str) (m : Doc) (ft : Str),
      generate_diff (Doc.xml (Xml.elem t0 a tx [] tl)) m ft = some []) ∧
    (modify_json (Json.obj []) =
        Except.ok (Json.obj [(S "new_field", Json.str (S "This is a new value"))]) ∧
      Json.obj [(S "new_field", Json.str (S "This is a new value"))] ≠ Json.obj [] ∧
      generate_diff (Doc.json (Json.obj []))
        (Doc.json (Json.obj [(S "new_field", Json.str (S "This is a new value"))]))
        (S "json") = some []) := by
  refine ⟨fun m ft => rfl, fun m ft => rfl, fun m ft => rfl, fun m ft => rfl,
    fun m ft => rfl, fun m ft => rfl, fun t0 a tx tl m ft => rfl, rfl, ?_, rfl⟩
  intro h
  injection h with h2
  exact List.noConfusion h2


end FileDiff
